import Mathlib

/-!
# soft_i2c: a software I2C master

A shallow embedding of `src/soft_i2c.c` / `src/soft_i2c.h` and theorems about it.

Modelling conventions

* Machine integers are `Nat` (or `Int` for byte addresses); a conversion to a
  narrower C type is written as an explicit `% 2^w`.
* A function pointer or object pointer is an `Option`: `none` is `NULL`.
* The two pin operations and the delay function are external.  They are
  modelled by the record `Bus`: every call is appended to the log `ops`, and the
  level returned by the k-th sampling call `sda(2)` is `slave k` (converted to
  `uint8_t`).  The return value of a driving call (`sda(0)`, `sda(1)`,
  `scl(0)`, `scl(1)`) is discarded by every caller in the source, so the model
  does not produce one.
* `calls` is a second log: every bit-level primitive records its own call (and
  the value of its `uint8_t` argument) on entry.
* `mem` is the byte-addressed memory the `data` pointer points into.
-/

namespace SoftI2C

/-! ## Constants of `soft_i2c.h` -/

abbrev SOFT_I2C_ACK : Nat := 0
abbrev SOFT_I2C_NACK : Nat := 1
abbrev SOFT_I2C_WRITE : Nat := 0x0
abbrev SOFT_I2C_READ : Nat := 0x1
abbrev SOFT_I2C_SPEED_MIN : Nat := 100
abbrev SOFT_I2C_SPEED_MAX : Nat := 400000
abbrev SOFT_I2C_MSB : Nat := 0
abbrev SOFT_I2C_LSB : Nat := 1
abbrev SOFT_I2C_LITTLE_ENDIAN : Nat := 0
abbrev SOFT_I2C_BIG_ENDIAN : Nat := 1
abbrev SOFT_I2C_DEVICE_ADDRESS_SIZE_7 : Nat := 7
abbrev SOFT_I2C_DEVICE_ADDRESS_SIZE_10 : Nat := 10
abbrev SOFT_I2C_REGISTER_ADDRESS_SIZE_MIN : Nat := 1
abbrev SOFT_I2C_REGISTER_ADDRESS_SIZE_MAX : Nat := 32
abbrev SOFT_I2C_DATA_SIZE_MIN : Nat := 1
abbrev SOFT_I2C_DATA_SIZE_MAX : Nat := 32

/-- The macro `IS_LEGAL_SOFT_I2C_SPEED`. -/
def IS_LEGAL_SOFT_I2C_SPEED (speed : Nat) : Bool :=
  decide (speed ≥ SOFT_I2C_SPEED_MIN) && decide (speed ≤ SOFT_I2C_SPEED_MAX)

/-- The macro `IS_SOFR_I2C_xSB` (spelled as in the header). -/
def IS_SOFR_I2C_xSB (xSB : Nat) : Bool :=
  decide (xSB = SOFT_I2C_MSB) || decide (xSB = SOFT_I2C_LSB)

/-- The macro `IS_SOFT_I2C_ENDIAN`. -/
def IS_SOFT_I2C_ENDIAN (endian : Nat) : Bool :=
  decide (endian = SOFT_I2C_LITTLE_ENDIAN) || decide (endian = SOFT_I2C_BIG_ENDIAN)

/-- The macro `IS_SOFT_I2C_DEVICE_ADDRESS_SIZE`. -/
def IS_SOFT_I2C_DEVICE_ADDRESS_SIZE (addr : Nat) : Bool :=
  decide (addr = SOFT_I2C_DEVICE_ADDRESS_SIZE_7) || decide (addr = SOFT_I2C_DEVICE_ADDRESS_SIZE_10)

/-- The macro `IS_SOFT_I2C_REGISTER_ADDRESS_SIZE`. -/
def IS_SOFT_I2C_REGISTER_ADDRESS_SIZE (size : Nat) : Bool :=
  decide (size ≥ SOFT_I2C_REGISTER_ADDRESS_SIZE_MIN) &&
    decide (size ≤ SOFT_I2C_REGISTER_ADDRESS_SIZE_MAX)

/-- The macro `IS_SOFT_I2C_DATA_SIZE`. -/
def IS_SOFT_I2C_DATA_SIZE (size : Nat) : Bool :=
  decide (size ≥ SOFT_I2C_DATA_SIZE_MIN) && decide (size ≤ SOFT_I2C_DATA_SIZE_MAX)

/-! ## The engine record -/

/-- The record `struct soft_i2c_pin_ops`: two function pointers. -/
structure soft_i2c_pin_ops where
  sda : Option Nat
  scl : Option Nat
  deriving DecidableEq, Repr

/-- The bit-field record `mode_of` (widths 19, 1, 1, 1, 1, 1). -/
structure soft_i2c_mode where
  speed : Nat
  xSB : Nat
  m_endian : Nat
  sr_endian : Nat
  sd_endian : Nat
  has_dummy_write : Nat
  deriving DecidableEq, Repr

/-- The two static transaction functions a `write` / `read` member can point to. -/
inductive EntryPoint where
  | soft_i2c_write
  | soft_i2c_read
  deriving DecidableEq, Repr

/-- The record `struct soft_i2c`.  `ops` is the pointer to the pin table (the
table it points to is kept with it); `mutex_count` and `mutex_holder_handle`
are the two members of `mutex`. -/
structure soft_i2c where
  ops : Option soft_i2c_pin_ops
  mode_of : soft_i2c_mode
  d_addr : Nat
  d_addr_size : Nat
  r_addr_size : Nat
  data_size : Nat
  mutex_count : Nat
  mutex_holder_handle : Nat
  write : Option EntryPoint
  read : Option EntryPoint
  delay_ns : Option Nat
  delay_us : Option Nat
  delay_ms : Option Nat
  x : Nat
  delay : Option Nat
  deriving DecidableEq, Repr

/-! ## The bus: pin operations, delay and memory -/

/-- One call of an external operation: `sda(state)`, `scl(state)` or `delay(x)`. -/
inductive Op where
  | sda (state : Nat)
  | scl (state : Nat)
  | delay (x : Nat)
  deriving DecidableEq, Repr

/-- One call of a bit-level primitive of `soft_i2c.c`. -/
inductive Call where
  | start
  | restart
  | stop
  | write_byte (byte : Nat)
  | read_byte (ack : Nat)
  deriving DecidableEq, Repr

/-- The world outside the engine. -/
structure Bus where
  slave : Nat → Nat
  nread : Nat
  ops : List Op
  calls : List Call
  mem : Int → Nat

/-- A call `si->ops->sda(state)` whose result is discarded. -/
def sda_drive (state : Nat) (s : Bus) : Bus :=
  { s with ops := s.ops ++ [Op.sda state] }

/-- A call `si->ops->scl(state)` whose result is discarded. -/
def scl_drive (state : Nat) (s : Bus) : Bus :=
  { s with ops := s.ops ++ [Op.scl state] }

/-- The call `si->ops->sda(2)`: returns the sampled level as a `uint8_t`. -/
def sda_sample (s : Bus) : Nat × Bus :=
  (s.slave s.nread % 256, { s with nread := s.nread + 1, ops := s.ops ++ [Op.sda 2] })

/-- A call `delay(x)`. -/
def delay (x : Nat) (s : Bus) : Bus :=
  { s with ops := s.ops ++ [Op.delay x] }

/-- Records the call of a primitive. -/
def enter (c : Call) (s : Bus) : Bus :=
  { s with calls := s.calls ++ [c] }

/-! ## Bit-level primitives (`soft_i2c.c` lines 17-104) -/

/-- The function `start`. -/
def start (_si : soft_i2c) (s : Bus) : Bus :=
  let s := enter Call.start s
  let s := sda_drive 1 s
  let s := scl_drive 1 s
  let s := sda_drive 0 s
  scl_drive 0 s

/-- The function `restart`. -/
def restart (_si : soft_i2c) (s : Bus) : Bus :=
  let s := enter Call.restart s
  let s := sda_drive 1 s
  let s := scl_drive 1 s
  let s := sda_drive 0 s
  scl_drive 0 s

/-- The function `stop`. -/
def stop (_si : soft_i2c) (s : Bus) : Bus :=
  let s := enter Call.stop s
  let s := scl_drive 0 s
  let s := sda_drive 0 s
  let s := scl_drive 1 s
  sda_drive 1 s

/-- The C expression `!!e`. -/
def notnot (e : Nat) : Nat := if e ≠ 0 then 1 else 0

/-- The body of the bit loop of `write_byte` for loop counter `i`. -/
def write_bit (si : soft_i2c) (byte x : Nat) (s : Bus) (i : Nat) : Bus :=
  let s := delay (x / 3) s
  let s :=
    if si.mode_of.xSB = SOFT_I2C_MSB then
      sda_drive (notnot ((byte >>> (7 - i)) &&& 0x1)) s
    else
      sda_drive (notnot ((byte >>> i) &&& 0x1)) s
  let s := delay (x / 3) s
  let s := scl_drive 1 s
  let s := delay (x / 3) s
  scl_drive 0 s

/-- The function `write_byte`.  The argument is converted to `uint8_t` on entry. -/
def write_byte (si : soft_i2c) (byte x : Nat) (s : Bus) : Nat × Bus :=
  let byte := byte % 256
  let s := enter (Call.write_byte byte) s
  let s := (List.range 8).foldl (write_bit si byte x) s
  let s := sda_drive 1 s
  let s := delay (x / 3) s
  let s := scl_drive 1 s
  let s := delay (x / 3) s
  let (ack, s) := sda_sample s
  let s := scl_drive 0 s
  let s := delay (x / 3) s
  (if ack = SOFT_I2C_ACK then SOFT_I2C_ACK else SOFT_I2C_NACK, s)

/-- The body of the bit loop of `read_byte`; the loop state is `data` and the bus. -/
def read_bit (si : soft_i2c) (x : Nat) (acc : Nat × Bus) (_i : Nat) : Nat × Bus :=
  let data := acc.1
  let s := acc.2
  let s := scl_drive 1 s
  let s := delay (x / 2) s
  let r :=
    if si.mode_of.xSB = SOFT_I2C_MSB then
      let data := (data <<< 1) % 256
      let v := sda_sample s
      ((data ||| v.1) % 256, v.2)
    else
      let data := (data >>> 1) % 256
      let v := sda_sample s
      ((data ||| (v.1 <<< 7)) % 256, v.2)
  let s := scl_drive 0 r.2
  let s := delay (x / 2) s
  (r.1, s)

/-- The function `read_byte`.  The argument is converted to `uint8_t` on entry. -/
def read_byte (si : soft_i2c) (ack x : Nat) (s : Bus) : Nat × Bus :=
  let ack := ack % 256
  let s := enter (Call.read_byte ack) s
  let data := 0x00
  let s := sda_drive 1 s
  let r := (List.range 8).foldl (read_bit si x) (data, s)
  let s := sda_drive (if ack = SOFT_I2C_ACK then SOFT_I2C_ACK else SOFT_I2C_NACK) r.2
  let s := delay (x / 3) s
  let s := scl_drive 1 s
  let s := delay (x / 3) s
  let s := scl_drive 0 s
  let s := delay (x / 3) s
  (r.1, s)

/-! ## Transactions (`soft_i2c.c` lines 106-327) -/

/-- The statement `if (SOFT_I2C_ACK != write_byte(si, byte, si->x, si->delay)) goto _stop;`
the result is `false` when the jump is taken. -/
def write_byte_acked (si : soft_i2c) (byte : Nat) (s : Bus) : Bool × Bus :=
  let r := write_byte si byte si.x s
  (decide (SOFT_I2C_ACK = r.1), r.2)

/-- The loop `for (int i = i0; i < i0 + k; i++) body` whose body may jump to
`_stop`; the result is `false` when a jump was taken. -/
def for_loop (body : Nat → Bus → Bool × Bus) : (k : Nat) → (i : Nat) → Bus → Bool × Bus
  | 0, _, s => (true, s)
  | k + 1, i, s =>
    match body i s with
    | (false, s) => (false, s)
    | (true, s) => for_loop body k (i + 1) s

/-- The C expression `size / 8 + (size % 8 ? 1 : 0)` stored in a `uint8_t`. -/
def byte_len (size : Nat) : Nat :=
  (size / 8 + (if size % 8 ≠ 0 then 1 else 0)) % 256

/-- The C expression `data_len == 1 ? 1 : data_len == 2 ? 2 : 4`. -/
def stride (data_len : Nat) : Nat :=
  if data_len = 1 then 1 else if data_len = 2 then 2 else 4

/-- The device-address block (lines 120-137, 226-243 and 269-286), with the
direction bit `rw`. -/
def device_address (si : soft_i2c) (rw : Nat) (s : Bus) : Bool × Bus :=
  if si.d_addr_size = SOFT_I2C_DEVICE_ADDRESS_SIZE_7 then
    write_byte_acked si ((si.d_addr <<< 1) ||| rw) s
  else
    match write_byte_acked si ((0xF0 ||| ((si.d_addr >>> 8) <<< 1)) ||| rw) s with
    | (false, s) => (false, s)
    | (true, s) => write_byte_acked si (si.d_addr &&& 0xFF) s

/-- The body of the register-address loop (lines 142-155 and 248-261). -/
def register_address_byte (si : soft_i2c) (address address_len : Nat) (i : Nat) (s : Bus) :
    Bool × Bus :=
  if si.mode_of.sr_endian = SOFT_I2C_LITTLE_ENDIAN then
    write_byte_acked si ((address >>> (i * 8)) &&& 0xFF) s
  else
    write_byte_acked si ((address >>> ((address_len - 1 - i) * 8)) &&& 0xFF) s

/-- The register-address loop (lines 140-156 and 246-262). -/
def register_address (si : soft_i2c) (address address_len : Nat) (s : Bus) : Bool × Bus :=
  for_loop (register_address_byte si address address_len) address_len 0 s

/-- The index into `p` from which `soft_i2c_write` takes byte `i` of an element
(lines 165-198). -/
def write_index (si : soft_i2c) (data_len i : Nat) : Int :=
  if si.mode_of.m_endian = SOFT_I2C_LITTLE_ENDIAN then
    if si.mode_of.sd_endian = SOFT_I2C_LITTLE_ENDIAN then
      (i : Int)
    else
      (data_len : Int) - 1 - i
  else
    if si.mode_of.sd_endian = SOFT_I2C_LITTLE_ENDIAN then
      (data_len : Int) - (if data_len = 3 then 0 else 1) - i
    else
      (i : Int) + (if data_len = 3 then 1 else 0)

/-- The body of the inner data loop of `soft_i2c_write` (lines 165-198). -/
def write_data_byte (si : soft_i2c) (p : Int) (data_len : Nat) (i : Nat) (s : Bus) :
    Bool × Bus :=
  write_byte_acked si (s.mem (p + write_index si data_len i)) s

/-- The outer data loop of `soft_i2c_write` (lines 160-201): `k` iterations
remain, `n` is the loop counter; the result is `count` when the loop is left. -/
def write_data (si : soft_i2c) (data : Int) (data_len : Nat) :
    (k : Nat) → (n : Nat) → (count : Nat) → Bus → Nat × Bus
  | 0, _, count, s => (count, s)
  | k + 1, n, count, s =>
    let p := data + (n : Int) * (stride data_len : Int)
    match for_loop (write_data_byte si p data_len) data_len 0 s with
    | (false, s) => (count, s)
    | (true, s) => write_data si data data_len k (n + 1) (count + 1) s

/-- The function `soft_i2c_write` up to the label `_stop`. -/
def soft_i2c_write_body (si : soft_i2c) (address : Nat) (data : Option Int) (offset : Int)
    (size : Nat) (s : Bus) : Nat × Bus :=
  let count := 0
  let address_len := byte_len si.r_addr_size
  let data_len := byte_len si.data_size
  let data := data.map (fun d => d + offset * (stride data_len : Int))
  let s := start si s
  match device_address si SOFT_I2C_WRITE s with
  | (false, s) => (count, s)
  | (true, s) =>
    match register_address si address address_len s with
    | (false, s) => (count, s)
    | (true, s) =>
      match data with
      | none => (count, s)
      | some data => write_data si data data_len size 0 count s

/-- The function `soft_i2c_write`. -/
def soft_i2c_write (si : soft_i2c) (address : Nat) (data : Option Int) (offset : Int)
    (size : Nat) (s : Bus) : Nat × Bus :=
  let r := soft_i2c_write_body si address data offset size s
  let s := stop si r.2
  (r.1, s)

/-- The index into `p` at which `soft_i2c_read` stores byte `i` of an element
(lines 296-317). -/
def read_index (si : soft_i2c) (data_len i : Nat) : Int :=
  if si.mode_of.sd_endian = SOFT_I2C_LITTLE_ENDIAN then
    if si.mode_of.m_endian = SOFT_I2C_LITTLE_ENDIAN then
      (i : Int)
    else
      (data_len : Int) - (if data_len = 3 then 0 else 1) - i
  else
    if si.mode_of.m_endian = SOFT_I2C_LITTLE_ENDIAN then
      (data_len : Int) - (if data_len = 3 then 0 else 1) - i
    else
      (if data_len = 3 then 1 else 0) + (i : Int)

/-- The body of the inner data loop of `soft_i2c_read` (lines 295-317). -/
def read_data_byte (si : soft_i2c) (p : Int) (data_len n size : Nat) (i : Nat) (s : Bus) :
    Bus :=
  let ack :=
    if n = size - 1 ∧ (i : Int) = (data_len : Int) - 1 then SOFT_I2C_NACK else SOFT_I2C_ACK
  let r := read_byte si ack si.x s
  { r.2 with mem := Function.update r.2.mem (p + read_index si data_len i) r.1 }

/-- The inner data loop of `soft_i2c_read` (lines 293-318): `k` iterations
remain, `i` is the loop counter. -/
def read_element (si : soft_i2c) (p : Int) (data_len n size : Nat) :
    (k : Nat) → (i : Nat) → Bus → Bus
  | 0, _, s => s
  | k + 1, i, s => read_element si p data_len n size k (i + 1)
      (read_data_byte si p data_len n size i s)

/-- The outer data loop of `soft_i2c_read` (lines 290-320). -/
def read_data (si : soft_i2c) (data : Int) (data_len size : Nat) :
    (k : Nat) → (n : Nat) → (count : Nat) → Bus → Nat × Bus
  | 0, _, count, s => (count, s)
  | k + 1, n, count, s =>
    let p := data + (n : Int) * (stride data_len : Int)
    let s := read_element si p data_len n size data_len 0 s
    read_data si data data_len size k (n + 1) (count + 1) s

/-- The dummy-write block of `soft_i2c_read` (lines 223-266). -/
def dummy_write (si : soft_i2c) (address address_len : Nat) (s : Bus) : Bool × Bus :=
  if si.mode_of.has_dummy_write ≠ 0 then
    match device_address si SOFT_I2C_WRITE s with
    | (false, s) => (false, s)
    | (true, s) =>
      match register_address si address address_len s with
      | (false, s) => (false, s)
      | (true, s) => (true, restart si s)
  else
    (true, s)

/-- The function `soft_i2c_read` up to the label `_stop`. -/
def soft_i2c_read_body (si : soft_i2c) (address : Nat) (data : Option Int) (offset : Int)
    (size : Nat) (s : Bus) : Nat × Bus :=
  let count := 0
  let address_len := byte_len si.r_addr_size
  let data_len := byte_len si.data_size
  let data := data.map (fun d => d + offset * (stride data_len : Int))
  let s := start si s
  match dummy_write si address address_len s with
  | (false, s) => (count, s)
  | (true, s) =>
    match device_address si SOFT_I2C_READ s with
    | (false, s) => (count, s)
    | (true, s) =>
      match data with
      | none => (count, s)
      | some data => read_data si data data_len size size 0 count s

/-- The function `soft_i2c_read`. -/
def soft_i2c_read (si : soft_i2c) (address : Nat) (data : Option Int) (offset : Int)
    (size : Nat) (s : Bus) : Nat × Bus :=
  let r := soft_i2c_read_body si address data offset size s
  let s := stop si r.2
  (r.1, s)

/-! ## Initialisation (`soft_i2c.c` lines 329-435) -/

/-- The timing block of `soft_i2c_init_ex` (lines 377-418). -/
def resolve_delay (si : soft_i2c) : soft_i2c :=
  let si := { si with x := (1000000000 / si.mode_of.speed) % 2 ^ 32 }
  let si := { si with delay := none }
  let si :=
    if si.x < 1000 then
      if si.delay_ns ≠ none then { si with delay := si.delay_ns } else si
    else if si.x < 1000000 then
      if si.delay_us ≠ none then { si with x := si.x / 1000, delay := si.delay_us } else si
    else
      if si.delay_ms ≠ none then { si with x := si.x / 1000000, delay := si.delay_ms } else si
  if si.delay = none then
    if si.delay_ns ≠ none then
      { si with delay := si.delay_ns }
    else if si.delay_us ≠ none then
      { si with x := si.x / 1000, delay := si.delay_us }
    else
      { si with x := si.x / 1000000, delay := si.delay_ms }
  else si

/-- The assignments of lines 352-375 of `soft_i2c_init_ex`: every member but `x`
and `delay` is set; the bit-field members keep the low bits of the value. -/
def assign_fields (e : soft_i2c) (o : soft_i2c_pin_ops)
    (speed xSB m_endian sr_endian sd_endian has_dummy_write : Nat)
    (d_addr d_addr_size r_addr_size data_size : Nat)
    (delay_ns delay_us delay_ms : Option Nat) : soft_i2c :=
  { e with
    ops := some o,
    mode_of := { speed := speed % 2 ^ 19, xSB := xSB % 2, m_endian := m_endian % 2,
                 sr_endian := sr_endian % 2, sd_endian := sd_endian % 2,
                 has_dummy_write := has_dummy_write % 2 },
    d_addr := d_addr &&& (if d_addr_size = SOFT_I2C_DEVICE_ADDRESS_SIZE_7 then 0x7F else 0x3FF),
    d_addr_size := d_addr_size,
    r_addr_size := r_addr_size,
    data_size := data_size,
    mutex_count := 0,
    mutex_holder_handle := 0,
    write := some EntryPoint.soft_i2c_write,
    read := some EntryPoint.soft_i2c_read,
    delay_ns := delay_ns,
    delay_us := delay_us,
    delay_ms := delay_ms }

/-- The function `soft_i2c_init_ex`.  `si` is the record the first argument
points to (`none` for `NULL`); the result is the status and that record after
the call. -/
def soft_i2c_init_ex (si : Option soft_i2c) (ops : Option soft_i2c_pin_ops)
    (speed xSB m_endian sr_endian sd_endian has_dummy_write : Nat)
    (d_addr d_addr_size r_addr_size data_size : Nat)
    (delay_ns delay_us delay_ms : Option Nat) : Int × Option soft_i2c :=
  match si, ops with
  | none, _ => (-1, si)
  | some _, none => (-1, si)
  | some e, some o =>
    if o.sda = none ∨ o.scl = none then (-1, si)
    else if !IS_LEGAL_SOFT_I2C_SPEED speed then (-2, si)
    else if !IS_SOFR_I2C_xSB xSB then (-3, si)
    else if !IS_SOFT_I2C_ENDIAN m_endian || !IS_SOFT_I2C_ENDIAN sr_endian ||
        !IS_SOFT_I2C_ENDIAN sd_endian then (-4, si)
    else if has_dummy_write ≠ 0 ∧ has_dummy_write ≠ 1 then (-5, si)
    else if !IS_SOFT_I2C_DEVICE_ADDRESS_SIZE d_addr_size then (-6, si)
    else if !IS_SOFT_I2C_REGISTER_ADDRESS_SIZE r_addr_size then (-7, si)
    else if !IS_SOFT_I2C_DATA_SIZE data_size then (-8, si)
    else if delay_ns = none ∧ delay_us = none ∧ delay_ms = none then (-9, si)
    else
      (0, some (resolve_delay (assign_fields e o speed xSB m_endian sr_endian sd_endian
        has_dummy_write d_addr d_addr_size r_addr_size data_size delay_ns delay_us delay_ms)))

/-- The function `soft_i2c_init`. -/
def soft_i2c_init (si : Option soft_i2c) (ops : Option soft_i2c_pin_ops)
    (speed d_addr : Nat) (delay_ns delay_us delay_ms : Option Nat) : Int × Option soft_i2c :=
  soft_i2c_init_ex si ops speed SOFT_I2C_MSB
    SOFT_I2C_LITTLE_ENDIAN SOFT_I2C_LITTLE_ENDIAN SOFT_I2C_LITTLE_ENDIAN
    1
    d_addr SOFT_I2C_DEVICE_ADDRESS_SIZE_7
    8 8
    delay_ns delay_us delay_ms

/-! ## Descriptions of what the primitives do on the bus -/

/-- The level `write_byte` drives on the data line for loop counter `i`. -/
def bit_level (si : soft_i2c) (byte i : Nat) : Nat :=
  if si.mode_of.xSB = SOFT_I2C_MSB then notnot ((byte >>> (7 - i)) &&& 0x1)
  else notnot ((byte >>> i) &&& 0x1)

/-- The operations one call of `write_byte` performs, in order. -/
def write_byte_ops (si : soft_i2c) (byte x : Nat) : List Op :=
  (List.range 8).flatMap (fun i =>
    [Op.delay (x / 3), Op.sda (bit_level si byte i), Op.delay (x / 3), Op.scl 1,
     Op.delay (x / 3), Op.scl 0]) ++
  [Op.sda 1, Op.delay (x / 3), Op.scl 1, Op.delay (x / 3), Op.sda 2, Op.scl 0,
   Op.delay (x / 3)]

/-- The byte `read_byte` assembles from the eight sampled levels `f 0 .. f 7`. -/
def read_value (si : soft_i2c) (f : Nat → Nat) : Nat :=
  (List.range 8).foldl (fun data k =>
    if si.mode_of.xSB = SOFT_I2C_MSB then (((data <<< 1) % 256) ||| f k) % 256
    else (((data >>> 1) % 256) ||| (f k <<< 7)) % 256) 0

/-- The operations one call of `read_byte` performs, in order. -/
def read_byte_ops (ack x : Nat) : List Op :=
  [Op.sda 1] ++
  (List.range 8).flatMap (fun _ =>
    [Op.scl 1, Op.delay (x / 2), Op.sda 2, Op.scl 0, Op.delay (x / 2)]) ++
  [Op.sda (if ack = 0 then 0 else 1), Op.delay (x / 3), Op.scl 1, Op.delay (x / 3), Op.scl 0,
   Op.delay (x / 3)]

/-- The next `k`-th sample (counted from the current one) is an acknowledge. -/
def acked (s : Bus) (k : Nat) : Prop := s.slave (s.nread + k) % 256 = 0

instance (s : Bus) (k : Nat) : Decidable (acked s k) :=
  inferInstanceAs (Decidable (s.slave (s.nread + k) % 256 = 0))

/-- Sends the bytes of a list in order with `write_byte`, stopping after the first
one that is not acknowledged. -/
def send_all (si : soft_i2c) : List Nat → Bus → Bool × Bus
  | [], s => (true, s)
  | b :: bs, s =>
    match write_byte_acked si b s with
    | (false, s) => (false, s)
    | (true, s) => send_all si bs s

/-- The bus after the `uint8_t` values `bs` have been sent with `write_byte`. -/
def sent (si : soft_i2c) (bs : List Nat) (s : Bus) : Bus :=
  { s with nread := s.nread + bs.length,
           ops := s.ops ++ bs.flatMap (fun b => write_byte_ops si b si.x),
           calls := s.calls ++ bs.map Call.write_byte }

/-- Conversion of each element of a list to `uint8_t`. -/
def u8s (bs : List Nat) : List Nat := bs.map (fun b => b % 256)

/-- The device-address frame as the source computes it (lines 120-137), before
the conversion to `uint8_t`. -/
def device_address_frame (si : soft_i2c) (rw : Nat) : List Nat :=
  if si.d_addr_size = SOFT_I2C_DEVICE_ADDRESS_SIZE_7 then
    [(si.d_addr <<< 1) ||| rw]
  else
    [(0xF0 ||| ((si.d_addr >>> 8) <<< 1)) ||| rw, si.d_addr &&& 0xFF]

/-- The register-address frame as the source computes it (lines 140-156). -/
def register_address_frame (si : soft_i2c) (address : Nat) : List Nat :=
  (List.range' 0 (byte_len si.r_addr_size)).map (fun i =>
    if si.mode_of.sr_endian = SOFT_I2C_LITTLE_ENDIAN then (address >>> (i * 8)) &&& 0xFF
    else (address >>> ((byte_len si.r_addr_size - 1 - i) * 8)) &&& 0xFF)

/-- The bytes `soft_i2c_write` takes from memory for the element at `p` (lines 163-199). -/
def element_bytes (si : soft_i2c) (mem : Int → Nat) (p : Int) : List Nat :=
  (List.range' 0 (byte_len si.data_size)).map (fun i =>
    mem (p + write_index si (byte_len si.data_size) i))

/-- The operations of `start` (and of `restart`). -/
def start_ops : List Op := [Op.sda 1, Op.scl 1, Op.sda 0, Op.scl 0]

/-- The operations of `stop`. -/
def stop_ops : List Op := [Op.scl 0, Op.sda 0, Op.scl 1, Op.sda 1]

/-- The bytes `soft_i2c_write` sends before the data: device address with the
write direction, then register address. -/
def write_address_bytes (si : soft_i2c) (address : Nat) : List Nat :=
  device_address_frame si SOFT_I2C_WRITE ++ register_address_frame si address

/-- The pin and delay operations of a log that act on a line (everything but the delays). -/
def line_ops (ops : List Op) : List Op :=
  ops.filter (fun o => match o with
    | Op.delay _ => false
    | _ => true)

/-- The first byte of the device-address frame, as the `uint8_t` handed to `write_byte`. -/
def first_address_byte (si : soft_i2c) (rw : Nat) : Nat :=
  if si.d_addr_size = SOFT_I2C_DEVICE_ADDRESS_SIZE_7 then ((si.d_addr <<< 1) ||| rw) % 256
  else ((0xF0 ||| ((si.d_addr >>> 8) <<< 1)) ||| rw) % 256

/-- The number of address bytes `soft_i2c_write` sends when all are acknowledged. -/
def write_address_count (si : soft_i2c) : Nat :=
  (if si.d_addr_size = SOFT_I2C_DEVICE_ADDRESS_SIZE_7 then 1 else 2) + byte_len si.r_addr_size

/-- The engine record `aht30_init` obtains from `soft_i2c_init_ex` (`aht30.c` lines 36-43). -/
def aht30_si : soft_i2c :=
  { ops := some { sda := some 1, scl := some 2 },
    mode_of := { speed := 100000, xSB := SOFT_I2C_MSB, m_endian := SOFT_I2C_LITTLE_ENDIAN,
                 sr_endian := SOFT_I2C_LITTLE_ENDIAN, sd_endian := SOFT_I2C_LITTLE_ENDIAN,
                 has_dummy_write := 0 },
    d_addr := 0x38, d_addr_size := SOFT_I2C_DEVICE_ADDRESS_SIZE_7,
    r_addr_size := 8, data_size := 8,
    mutex_count := 0, mutex_holder_handle := 0,
    write := some EntryPoint.soft_i2c_write, read := some EntryPoint.soft_i2c_read,
    delay_ns := none, delay_us := some 3, delay_ms := some 4,
    x := 10, delay := some 3 }

/-- A bus with empty logs: the slave presents the listed levels and then leaves
the line high; the memory holds the listed bytes from address 0 on. -/
def bus_of (levels : List Nat) (bytes : List Nat) : Bus :=
  { slave := fun k => levels.getD k 1, nread := 0, ops := [], calls := [],
    mem := fun a => if 0 ≤ a then bytes.getD a.toNat 0 else 0 }

/-- The acknowledge value `soft_i2c_read` passes to `read_byte` for byte `i` of
element `n` (line 295). -/
def read_ack (data_len size n i : Nat) : Nat :=
  if n = size - 1 ∧ (i : Int) = (data_len : Int) - 1 then SOFT_I2C_NACK else SOFT_I2C_ACK

/-- The acknowledge values of the elements `n .. n + k - 1`, in order. -/
def read_acks (data_len size n k : Nat) : List Nat :=
  (List.range' n k).flatMap (fun e => (List.range' 0 data_len).map (read_ack data_len size e))

/-- The bus after bytes have been received with the listed acknowledge values
(memory apart). -/
def received_log (si : soft_i2c) (acks : List Nat) (s t : Bus) : Prop :=
  t.slave = s.slave ∧ t.nread = s.nread + 8 * acks.length ∧
  t.ops = s.ops ++ acks.flatMap (fun a => read_byte_ops a si.x) ∧
  t.calls = s.calls ++ acks.map Call.read_byte

/-- The number of address bytes `soft_i2c_read` sends when all are acknowledged. -/
def read_address_count (si : soft_i2c) : Nat :=
  (if si.mode_of.has_dummy_write ≠ 0 then write_address_count si else 0) +
    (if si.d_addr_size = SOFT_I2C_DEVICE_ADDRESS_SIZE_7 then 1 else 2)

/-- The bus when `soft_i2c_read` reaches the data phase, all address bytes
having been acknowledged. -/
def read_addressed (si : soft_i2c) (address : Nat) (s : Bus) : Bus :=
  sent si (u8s (device_address_frame si SOFT_I2C_READ))
    (if si.mode_of.has_dummy_write ≠ 0 then
      restart si (sent si (u8s (write_address_bytes si address)) (start si s))
    else start si s)

/-- The acknowledge values `soft_i2c_read` passes to `read_byte` in the data phase. -/
def read_data_acks (si : soft_i2c) (data : Option Int) (size : Nat) : List Nat :=
  match data with
  | none => []
  | some _ => read_acks (byte_len si.data_size) size 0 size

/-- The engine and pin-table references and both pin operations are non-null. -/
def references_ok (si : Option soft_i2c) (ops : Option soft_i2c_pin_ops) : Prop :=
  si ≠ none ∧ ops ≠ none ∧ ∀ o, ops = some o → o.sda ≠ none ∧ o.scl ≠ none

/-- The speed is in [100, 400000]. -/
def speed_ok (speed : Nat) : Prop := 100 ≤ speed ∧ speed ≤ 400000

/-- A value is 0 or 1 (bit order, endianness, dummy-write flag). -/
def zero_or_one (v : Nat) : Prop := v = 0 ∨ v = 1

/-- The device address width is 7 or 10. -/
def device_width_ok (w : Nat) : Prop := w = 7 ∨ w = 10

/-- A register-address or data width is in [1, 32]. -/
def width_ok (w : Nat) : Prop := 1 ≤ w ∧ w ≤ 32

/-- At least one delay function is non-null. -/
def delay_ok (delay_ns delay_us delay_ms : Option Nat) : Prop :=
  delay_ns ≠ none ∨ delay_us ≠ none ∨ delay_ms ≠ none

/-- The zero-initialised static record `_si` of `aht30.c` (line 9). -/
def zero_si : soft_i2c :=
  { ops := none,
    mode_of := { speed := 0, xSB := 0, m_endian := 0, sr_endian := 0, sd_endian := 0,
                 has_dummy_write := 0 },
    d_addr := 0, d_addr_size := 0, r_addr_size := 0, data_size := 0,
    mutex_count := 0, mutex_holder_handle := 0, write := none, read := none,
    delay_ns := none, delay_us := none, delay_ms := none, x := 0, delay := none }

/-- The bytes handed to `write_byte` in a call log, in order. -/
def sent_bytes (calls : List Call) : List Nat :=
  calls.filterMap (fun c => match c with
    | Call.write_byte b => some b
    | _ => none)

/-- The acknowledge values handed to `read_byte` in a call log, in order. -/
def read_byte_acks (calls : List Call) : List Nat :=
  calls.filterMap (fun c => match c with
    | Call.read_byte a => some a
    | _ => none)

/-- The engine record `soft_i2c_init` produces for device address 0x38 at 100 kHz
with the microsecond and millisecond delay functions: as `aht30_si`, with the
dummy write enabled. -/
def dummy_si : soft_i2c :=
  { aht30_si with mode_of := { aht30_si.mode_of with has_dummy_write := 1 } }

/-- The operations `soft_i2c_read` performs before the data phase when every
address byte is acknowledged. -/
def read_address_ops (si : soft_i2c) (address : Nat) : List Op :=
  start_ops ++
    (if si.mode_of.has_dummy_write ≠ 0 then
      (u8s (device_address_frame si SOFT_I2C_WRITE)).flatMap
        (fun b => write_byte_ops si b si.x) ++
      (u8s (register_address_frame si address)).flatMap
        (fun b => write_byte_ops si b si.x) ++ start_ops
    else []) ++
    (u8s (device_address_frame si SOFT_I2C_READ)).flatMap (fun b => write_byte_ops si b si.x)

/-- The device-address frame in the words of the specification: one byte
`(address << 1) | direction` for a 7-bit address, and the two bytes
`0xF0 | ((address >> 8) << 1) | direction` and `address & 0xFF` for a 10-bit one. -/
def spec_device_address_frame (width a d : Nat) : List Nat :=
  if width = 7 then [(a <<< 1) ||| d]
  else [(0xF0 ||| ((a >>> 8) <<< 1)) ||| d, a &&& 0xFF]

/-- Bit `j` on the wire of a byte in the configured bit order: bit 7 first for
MSB-first, bit 0 first otherwise. -/
def wire_bit (si : soft_i2c) (byte j : Nat) : Nat :=
  if si.mode_of.xSB = SOFT_I2C_MSB then (byte >>> (7 - j)) &&& 1 else (byte >>> j) &&& 1

/-- The levels a slave presents that acknowledges `acks` address bytes and then
presents the listed bytes bit by bit in the configured bit order. -/
def presenting (si : soft_i2c) (acks : Nat) (bytes : List Nat) : List Nat :=
  List.replicate acks 0 ++ bytes.flatMap (fun b => (List.range 8).map (wire_bit si b))

/-- The seven bytes of the AHT30 example: status, humidity and temperature bytes
and their CRC-8 (polynomial 0x31, initial value 0xFF). -/
def aht30_bytes : List Nat := [0x1F, 0x80, 0x05, 0x23, 0x19, 0x4B, 0x4E]

/-- An engine record with 24-bit data, little-endian master and big-endian slave data. -/
def three_byte_si : soft_i2c :=
  { aht30_si with
    data_size := 24,
    mode_of := { aht30_si.mode_of with sd_endian := SOFT_I2C_BIG_ENDIAN } }

/-- The bus on which `soft_i2c_read` runs after a `soft_i2c_write` that left the
bus `w`, against a slave that acknowledges `acks` address bytes and then echoes
the bytes `echo`. -/
def echo_bus (si : soft_i2c) (acks : Nat) (echo : List Nat) (w : Bus) : Bus :=
  { slave := fun k => (presenting si acks echo).getD k 1, nread := 0, ops := [], calls := [],
    mem := w.mem }

/-- The bus after `soft_i2c_write` of one 24-bit element from the buffer
`11 22 33 44`, every byte acknowledged. -/
def three_byte_written : Nat × Bus :=
  soft_i2c_write three_byte_si 0xAC (some 0) 0 1
    (bus_of [0, 0, 0, 0, 0] [0x11, 0x22, 0x33, 0x44])

/-- The result of `soft_i2c_read` of one 24-bit element into the same buffer, the
slave echoing the data bytes `soft_i2c_write` sent. -/
def three_byte_read_back : Nat × Bus :=
  soft_i2c_read three_byte_si 0xAC (some 0) 0 1
    (echo_bus three_byte_si (read_address_count three_byte_si)
      ((sent_bytes three_byte_written.2.calls).drop (write_address_count three_byte_si))
      three_byte_written.2)

/-- An engine record with the 10-bit device address 0x2A5 and a 16-bit register
address, otherwise as `aht30_si`. -/
def ten_bit_si : soft_i2c :=
  { aht30_si with
    d_addr := 0x2A5, d_addr_size := SOFT_I2C_DEVICE_ADDRESS_SIZE_10, r_addr_size := 16 }

/-- The bytes `soft_i2c_write` takes from memory for the elements `n .. n + k - 1`
of the buffer at `data`, in the order it sends them. -/
def write_data_bytes (si : soft_i2c) (mem : Int → Nat) (data : Int) (n k : Nat) : List Nat :=
  (List.range' n k).flatMap (fun e =>
    element_bytes si mem (data + (e : Int) * (stride (byte_len si.data_size) : Int)))

/-- The register-address frame in the words of the specification: the width is
rounded up to `L` whole bytes; little endian sends `(a >> 8i) & 0xFF` for
`i = 0 .. L-1`, least-significant byte first, big endian the reverse of that. -/
def spec_register_address_frame (w endian a : Nat) : List Nat :=
  if endian = SOFT_I2C_LITTLE_ENDIAN then
    (List.range ((w + 7) / 8)).map (fun i => (a >>> (8 * i)) &&& 0xFF)
  else
    ((List.range ((w + 7) / 8)).map (fun i => (a >>> (8 * i)) &&& 0xFF)).reverse

/-- An engine record with a 24-bit big-endian register address, otherwise as `dummy_si`. -/
def big_register_si : soft_i2c :=
  { dummy_si with
    r_addr_size := 24,
    mode_of := { dummy_si.mode_of with sr_endian := SOFT_I2C_BIG_ENDIAN } }

/-- The three delay granularities. -/
inductive Granularity where
  | ns
  | us
  | ms
  deriving DecidableEq, Repr

/-- The preferred granularity for a period in nanoseconds: nanoseconds below
1000, microseconds from 1000 to 999999, milliseconds above. -/
def preferred (period : Nat) : Granularity :=
  if period < 1000 then Granularity.ns
  else if period ≤ 999999 then Granularity.us
  else Granularity.ms

/-- The delay function supplied for a granularity. -/
def supplied (g : Granularity) (delay_ns delay_us delay_ms : Option Nat) : Option Nat :=
  match g with
  | Granularity.ns => delay_ns
  | Granularity.us => delay_us
  | Granularity.ms => delay_ms

/-- The granularity of the selected delay function: the preferred one when its
function was supplied, otherwise the first supplied of ns, us, ms. -/
def selected (period : Nat) (delay_ns delay_us delay_ms : Option Nat) : Granularity :=
  if supplied (preferred period) delay_ns delay_us delay_ms ≠ none then preferred period
  else if delay_ns ≠ none then Granularity.ns
  else if delay_us ≠ none then Granularity.us
  else Granularity.ms

/-- A period in nanoseconds expressed in the unit of a granularity. -/
def in_unit (g : Granularity) (period : Nat) : Nat :=
  match g with
  | Granularity.ns => period
  | Granularity.us => period / 1000
  | Granularity.ms => period / 1000000

/-- The states of the `sda` calls of a log, in order. -/
def sda_states (ops : List Op) : List Nat :=
  ops.filterMap (fun o => match o with
    | Op.sda v => some v
    | _ => none)

/-- The eight data-line levels `write_byte` drives for the bits of a byte: the
states of the first eight `sda` calls it makes. -/
def write_byte_levels (si : soft_i2c) (byte x : Nat) (s : Bus) : List Nat :=
  (sda_states ((write_byte si byte x s).2.ops.drop s.ops.length)).take 8

/-- The engine record `aht30_si` with the bit order LSB-first. -/
def lsb_si : soft_i2c :=
  { aht30_si with mode_of := { aht30_si.mode_of with xSB := SOFT_I2C_LSB } }

/-- The levels the master last drove on the two lines. -/
structure Lines where
  sda : Nat
  scl : Nat
  deriving DecidableEq, Repr

/-- Both lines driven high. -/
def idle : Lines := { sda := 1, scl := 1 }

/-- The effect of one operation on the driven levels: `sda(0)`, `sda(1)`,
`scl(0)` and `scl(1)` drive a line; sampling and delays change nothing. -/
def drive (l : Lines) (o : Op) : Lines :=
  match o with
  | Op.sda v => if v = 0 ∨ v = 1 then { l with sda := v } else l
  | Op.scl v => if v = 0 ∨ v = 1 then { l with scl := v } else l
  | Op.delay _ => l

/-- The driven levels after a list of operations. -/
def run (l : Lines) (ops : List Op) : Lines := ops.foldl drive l

/-- A change of the driven data level while the clock is driven high. -/
inductive Edge where
  | fall
  | rise
  deriving DecidableEq, Repr

/-- The change of the driven data level one operation makes while the clock is
driven high, if any. -/
def edge_of (l : Lines) (o : Op) : List Edge :=
  match o with
  | Op.sda v =>
    if (v = 0 ∨ v = 1) ∧ l.scl = 1 ∧ v ≠ l.sda then
      [if v = 0 then Edge.fall else Edge.rise]
    else []
  | _ => []

/-- The changes of the driven data level while the clock is driven high, in
order, over a list of operations started with the levels `l`. -/
def data_edges : Lines → List Op → List Edge
  | _, [] => []
  | l, o :: ops => edge_of l o ++ data_edges (drive l o) ops

/-- A list of operations that, started with the clock low, never changes the
data level while the clock is high and leaves the clock low. -/
def quiet (seg : List Op) : Prop :=
  ∀ l : Lines, l.scl = 0 → data_edges l seg = [] ∧ (run l seg).scl = 0

/-- A quiet list of operations that leaves the data line driven high. -/
def quiet_released (seg : List Op) : Prop :=
  ∀ l : Lines, l.scl = 0 → data_edges l seg = [] ∧ run l seg = { sda := 1, scl := 0 }

/-- The bus `t` continues the operation log of `s` with a quiet list of operations. -/
def extends_quiet (s t : Bus) : Prop :=
  t.slave = s.slave ∧ ∃ seg, t.ops = s.ops ++ seg ∧ quiet seg

/-- The `j`-th byte `read_byte` assembles from the samples that follow the
current one on the bus `s`. -/
def received_byte (si : soft_i2c) (s : Bus) (j : Nat) : Nat :=
  read_value si (fun b => s.slave (s.nread + 8 * j + b) % 256)

/-- The unsigned integer held in the buffer slot at `p` (1, 2 or 4 bytes), read
in the master endianness. -/
def slot_value (si : soft_i2c) (mem : Int → Nat) (p : Int) : Nat :=
  if si.mode_of.m_endian = SOFT_I2C_LITTLE_ENDIAN then
    ((List.range (stride (byte_len si.data_size))).map
      (fun (j : Nat) => (mem (p + (j : Int)) % 256) * 256 ^ j)).sum
  else
    ((List.range (stride (byte_len si.data_size))).map
      (fun (j : Nat) => (mem (p + (j : Int)) % 256) *
        256 ^ (stride (byte_len si.data_size) - 1 - j))).sum

/-- The `L` low-order bytes of `V` in slave byte order: least-significant first
when the slave-data endianness is little, most-significant first otherwise. -/
def spec_wire_bytes (L sd_endian V : Nat) : List Nat :=
  (List.range L).map (fun i =>
    if sd_endian = SOFT_I2C_LITTLE_ENDIAN then (V / 256 ^ i) % 256
    else (V / 256 ^ (L - 1 - i)) % 256)

/-- An engine record with 24-bit data and all endianness little. -/
def three_byte_little_si : soft_i2c := { aht30_si with data_size := 24 }

/-- An engine record with 16-bit data, little-endian master and big-endian slave data. -/
def two_byte_si : soft_i2c :=
  { aht30_si with
    data_size := 16,
    mode_of := { aht30_si.mode_of with sd_endian := SOFT_I2C_BIG_ENDIAN } }

/-! ## Theorems -/

theorem range_eight : List.range 8 = [0, 1, 2, 3, 4, 5, 6, 7] := by decide

theorem write_byte_eq (si : soft_i2c) (byte x : Nat) (s : Bus) :
    write_byte si byte x s =
      (if s.slave s.nread % 256 = 0 then 0 else 1,
       { s with nread := s.nread + 1,
                ops := s.ops ++ write_byte_ops si (byte % 256) x,
                calls := s.calls ++ [Call.write_byte (byte % 256)] }) := by
  simp only [write_byte, write_byte_ops, range_eight, List.foldl, write_bit, bit_level,
    sda_drive, scl_drive, delay, enter, sda_sample, List.flatMap_cons, List.flatMap_nil]
  by_cases h : si.mode_of.xSB = SOFT_I2C_MSB <;> simp [h]

theorem read_byte_eq (si : soft_i2c) (ack x : Nat) (s : Bus) :
    read_byte si ack x s =
      (read_value si (fun k => s.slave (s.nread + k) % 256),
       { s with nread := s.nread + 8,
                ops := s.ops ++ read_byte_ops (ack % 256) x,
                calls := s.calls ++ [Call.read_byte (ack % 256)] }) := by
  simp only [read_byte, read_byte_ops, read_value, range_eight, List.foldl, read_bit,
    sda_drive, scl_drive, delay, enter, sda_sample, List.flatMap_cons, List.flatMap_nil]
  by_cases h : si.mode_of.xSB = SOFT_I2C_MSB <;> simp [h, Nat.add_assoc]

theorem write_byte_acked_eq (si : soft_i2c) (b : Nat) (s : Bus) :
    write_byte_acked si b s = (decide (acked s 0), sent si [b % 256] s) := by
  simp only [write_byte_acked, write_byte_eq, sent, acked]
  by_cases h : s.slave s.nread % 256 = 0 <;> simp [h]

theorem sent_nil (si : soft_i2c) (s : Bus) : sent si [] s = s := by
  simp [sent]

theorem sent_append (si : soft_i2c) (as bs : List Nat) (s : Bus) :
    sent si (as ++ bs) s = sent si bs (sent si as s) := by
  simp [sent, Nat.add_assoc]

theorem sent_cons (si : soft_i2c) (b : Nat) (bs : List Nat) (s : Bus) :
    sent si (b :: bs) s = sent si bs (sent si [b] s) :=
  sent_append si [b] bs s

theorem acked_sent (si : soft_i2c) (bs : List Nat) (s : Bus) (k : Nat) :
    acked (sent si bs s) k ↔ acked s (bs.length + k) := by
  simp [acked, sent, Nat.add_assoc]

theorem u8s_length (bs : List Nat) : (u8s bs).length = bs.length := by simp [u8s]

theorem send_all_acked (si : soft_i2c) (bs : List Nat) (s : Bus)
    (h : ∀ k, k < bs.length → acked s k) : send_all si bs s = (true, sent si (u8s bs) s) := by
  induction bs generalizing s with
  | nil => simp [send_all, sent_nil, u8s]
  | cons b bs ih =>
    have h0 : acked s 0 := h 0 (by simp)
    rw [send_all, write_byte_acked_eq]
    simp only [h0, decide_True]
    rw [ih]
    · simp only [u8s, List.map_cons]; rw [← sent_cons]
    intro k hk
    rw [acked_sent]
    have := h (1 + k) (by simp; omega)
    simpa using this

theorem send_all_nack (si : soft_i2c) (bs : List Nat) (s : Bus)
    (h : ∃ k, k < bs.length ∧ ¬ acked s k) : (send_all si bs s).1 = false := by
  induction bs generalizing s with
  | nil => obtain ⟨k, hk, _⟩ := h; simp at hk
  | cons b bs ih =>
    rw [send_all, write_byte_acked_eq]
    by_cases h0 : acked s 0
    · simp only [h0, decide_True]
      apply ih
      obtain ⟨k, hk, hn⟩ := h
      cases k with
      | zero => exact absurd h0 hn
      | succ k =>
        refine ⟨k, by simpa using hk, ?_⟩
        rw [acked_sent]
        simpa [Nat.add_comm] using hn
    · simp [h0]

/-- A loop whose body sends one byte computed from the loop counter and the
memory is `send_all` on the list of those bytes. -/
theorem for_loop_send (si : soft_i2c) (g : (Int → Nat) → Nat → Nat) (k i : Nat) (s : Bus) :
    for_loop (fun j t => write_byte_acked si (g t.mem j) t) k i s =
      send_all si ((List.range' i k).map (g s.mem)) s := by
  induction k generalizing i s with
  | zero => simp [for_loop, send_all]
  | succ k ih =>
    simp only [for_loop, List.range'_succ, List.map_cons, send_all]
    rw [write_byte_acked_eq]
    by_cases h0 : acked s 0
    · simp only [h0, decide_True]
      rw [ih]
      simp [sent]
    · simp [h0]

theorem device_address_eq (si : soft_i2c) (rw : Nat) (s : Bus) :
    device_address si rw s = send_all si (device_address_frame si rw) s := by
  unfold device_address device_address_frame
  by_cases h : si.d_addr_size = SOFT_I2C_DEVICE_ADDRESS_SIZE_7
  · simp only [h, if_true, send_all]
    rcases write_byte_acked si (si.d_addr <<< 1 ||| rw) s with ⟨ok, t⟩
    cases ok <;> rfl
  · simp only [h, if_false, send_all]
    rcases write_byte_acked si (0xF0 ||| si.d_addr >>> 8 <<< 1 ||| rw) s with ⟨ok, t⟩
    cases ok
    · rfl
    · simp only
      rcases write_byte_acked si (si.d_addr &&& 0xFF) t with ⟨ok2, t2⟩
      cases ok2 <;> rfl

theorem register_address_eq (si : soft_i2c) (address : Nat) (s : Bus) :
    register_address si address (byte_len si.r_addr_size) s =
      send_all si (register_address_frame si address) s := by
  unfold register_address register_address_frame
  have hb : register_address_byte si address (byte_len si.r_addr_size) =
      fun j t => write_byte_acked si ((fun (_ : Int → Nat) i =>
        if si.mode_of.sr_endian = SOFT_I2C_LITTLE_ENDIAN then (address >>> (i * 8)) &&& 0xFF
        else (address >>> ((byte_len si.r_addr_size - 1 - i) * 8)) &&& 0xFF) t.mem j) t := by
    funext j t
    unfold register_address_byte
    by_cases h : si.mode_of.sr_endian = SOFT_I2C_LITTLE_ENDIAN <;> simp [h]
  rw [hb]
  exact for_loop_send si (fun (_ : Int → Nat) i =>
        if si.mode_of.sr_endian = SOFT_I2C_LITTLE_ENDIAN then (address >>> (i * 8)) &&& 0xFF
        else (address >>> ((byte_len si.r_addr_size - 1 - i) * 8)) &&& 0xFF) _ 0 s

theorem write_element_eq (si : soft_i2c) (p : Int) (s : Bus) :
    for_loop (write_data_byte si p (byte_len si.data_size)) (byte_len si.data_size) 0 s =
      send_all si (element_bytes si s.mem p) s := by
  have hb : write_data_byte si p (byte_len si.data_size) =
      fun j t => write_byte_acked si ((fun (m : Int → Nat) i =>
        m (p + write_index si (byte_len si.data_size) i)) t.mem j) t := by
    funext j t
    rfl
  rw [hb]
  exact for_loop_send si (fun (m : Int → Nat) i =>
        m (p + write_index si (byte_len si.data_size) i)) _ 0 s

theorem device_address_frame_length (si : soft_i2c) (rw : Nat) :
    (device_address_frame si rw).length =
      if si.d_addr_size = SOFT_I2C_DEVICE_ADDRESS_SIZE_7 then 1 else 2 := by
  unfold device_address_frame
  split <;> rfl

theorem register_address_frame_length (si : soft_i2c) (address : Nat) :
    (register_address_frame si address).length = byte_len si.r_addr_size := by
  simp [register_address_frame]

theorem element_bytes_length (si : soft_i2c) (mem : Int → Nat) (p : Int) :
    (element_bytes si mem p).length = byte_len si.data_size := by
  simp [element_bytes]

theorem start_eq (si : soft_i2c) (s : Bus) :
    start si s = { s with ops := s.ops ++ start_ops, calls := s.calls ++ [Call.start] } := by
  simp [start, start_ops, enter, sda_drive, scl_drive]

theorem restart_eq (si : soft_i2c) (s : Bus) :
    restart si s = { s with ops := s.ops ++ start_ops, calls := s.calls ++ [Call.restart] } := by
  simp [restart, start_ops, enter, sda_drive, scl_drive]

theorem stop_eq (si : soft_i2c) (s : Bus) :
    stop si s = { s with ops := s.ops ++ stop_ops, calls := s.calls ++ [Call.stop] } := by
  simp [stop, stop_ops, enter, sda_drive, scl_drive]

theorem acked_start (si : soft_i2c) (s : Bus) (k : Nat) : acked (start si s) k ↔ acked s k := by
  simp [acked, start_eq]

theorem acked_restart (si : soft_i2c) (s : Bus) (k : Nat) :
    acked (restart si s) k ↔ acked s k := by
  simp [acked, restart_eq]

theorem send_all_append (si : soft_i2c) (as bs : List Nat) (s : Bus) :
    send_all si (as ++ bs) s =
      match send_all si as s with
      | (false, s) => (false, s)
      | (true, s) => send_all si bs s := by
  induction as generalizing s with
  | nil => simp [send_all]
  | cons a as ih =>
    simp only [List.cons_append, send_all]
    rcases hw : write_byte_acked si a s with ⟨ok, s1⟩
    cases ok <;> simp [ih]

theorem write_address_bytes_length (si : soft_i2c) (address : Nat) :
    (write_address_bytes si address).length =
      (if si.d_addr_size = SOFT_I2C_DEVICE_ADDRESS_SIZE_7 then 1 else 2) +
        byte_len si.r_addr_size := by
  simp [write_address_bytes, device_address_frame_length, register_address_frame_length]

/-- The body of `soft_i2c_write` as one `send_all` of the address bytes followed
by the data loop. -/
theorem soft_i2c_write_body_eq (si : soft_i2c) (address : Nat) (data : Option Int)
    (offset : Int) (size : Nat) (s : Bus) :
    soft_i2c_write_body si address data offset size s =
      match send_all si (write_address_bytes si address) (start si s) with
      | (false, t) => (0, t)
      | (true, t) =>
        match data with
        | none => (0, t)
        | some d => write_data si (d + offset * (stride (byte_len si.data_size) : Int))
            (byte_len si.data_size) size 0 0 t := by
  unfold soft_i2c_write_body write_address_bytes
  simp only [device_address_eq, register_address_eq, send_all_append]
  rcases send_all si (device_address_frame si SOFT_I2C_WRITE) (start si s) with ⟨ok, t⟩
  cases ok
  · rfl
  · simp only
    rcases send_all si (register_address_frame si address) t with ⟨ok2, t2⟩
    cases ok2
    · rfl
    · cases data <;> rfl

/-- The count returned by the data loop of `soft_i2c_write`: `N` further elements
are acknowledged in full, and, unless the loop ends there, a byte of the next
one is not. -/
theorem write_data_count (si : soft_i2c) (data : Int) (k N n count : Nat) (s : Bus)
    (hN : N ≤ k)
    (hack : ∀ j, j < N * byte_len si.data_size → acked s j)
    (hnack : N < k → ∃ j, j < byte_len si.data_size ∧
      ¬ acked s (N * byte_len si.data_size + j)) :
    (write_data si data (byte_len si.data_size) k n count s).1 = count + N := by
  induction k generalizing N n count s with
  | zero =>
    have : N = 0 := by omega
    subst this
    simp [write_data]
  | succ k ih =>
    rw [write_data, write_element_eq]
    cases N with
    | zero =>
      have hf := send_all_nack si
        (element_bytes si s.mem (data + (n : Int) * (stride (byte_len si.data_size) : Int))) s
        (by
          obtain ⟨j, hj, hn⟩ := hnack (by omega)
          exact ⟨j, by simpa [element_bytes_length] using hj, by simpa using hn⟩)
      rcases hs : send_all si
        (element_bytes si s.mem (data + (n : Int) * (stride (byte_len si.data_size) : Int))) s
        with ⟨ok, t⟩
      rw [hs] at hf
      simp only at hf
      subst hf
      simp
    | succ N =>
      rw [send_all_acked]
      · simp only
        rw [ih N (n + 1) (count + 1)]
        · omega
        · omega
        · intro j hj
          rw [acked_sent, u8s_length, element_bytes_length]
          apply hack
          rw [Nat.succ_mul]
          omega
        · intro hlt
          obtain ⟨j, hj, hn⟩ := hnack (by omega)
          refine ⟨j, hj, ?_⟩
          rw [acked_sent, u8s_length, element_bytes_length]
          rw [Nat.succ_mul] at hn
          have e : byte_len si.data_size + (N * byte_len si.data_size + j) =
              N * byte_len si.data_size + byte_len si.data_size + j := by omega
          rw [e]
          exact hn
      · intro j hj
        rw [element_bytes_length] at hj
        apply hack
        rw [Nat.succ_mul]
        omega

theorem send_all_first_nack (si : soft_i2c) (b : Nat) (bs : List Nat) (s : Bus)
    (h : ¬ acked s 0) : send_all si (b :: bs) s = (false, sent si [b % 256] s) := by
  rw [send_all, write_byte_acked_eq]
  simp [h]

theorem device_address_first_nack (si : soft_i2c) (rw : Nat) (bs : List Nat) (s : Bus)
    (h : ¬ acked s 0) :
    send_all si (device_address_frame si rw ++ bs) s =
      (false, sent si [first_address_byte si rw] s) := by
  unfold device_address_frame first_address_byte
  by_cases h7 : si.d_addr_size = SOFT_I2C_DEVICE_ADDRESS_SIZE_7
  · simp only [h7, if_true, List.singleton_append]
    exact send_all_first_nack si _ _ s h
  · simp only [h7, if_false, List.cons_append]
    exact send_all_first_nack si _ _ s h

theorem line_ops_append (a b : List Op) : line_ops (a ++ b) = line_ops a ++ line_ops b := by
  simp [line_ops]

theorem line_ops_stop_ops : line_ops stop_ops = stop_ops := by
  simp [line_ops, stop_ops]

theorem soft_i2c_write_ops (si : soft_i2c) (address : Nat) (data : Option Int) (offset : Int)
    (size : Nat) (s : Bus) :
    (soft_i2c_write si address data offset size s).2.ops =
      (soft_i2c_write_body si address data offset size s).2.ops ++ stop_ops := by
  simp [soft_i2c_write, stop_eq]

theorem soft_i2c_read_ops (si : soft_i2c) (address : Nat) (data : Option Int) (offset : Int)
    (size : Nat) (s : Bus) :
    (soft_i2c_read si address data offset size s).2.ops =
      (soft_i2c_read_body si address data offset size s).2.ops ++ stop_ops := by
  simp [soft_i2c_read, stop_eq]

theorem drop_line_ops_stop (a : List Op) :
    (line_ops (a ++ stop_ops)).drop ((line_ops (a ++ stop_ops)).length - 4) = stop_ops := by
  rw [line_ops_append, line_ops_stop_ops]
  have : (line_ops a ++ stop_ops).length - 4 = (line_ops a).length := by
    simp [stop_ops]
  rw [this, List.drop_left]

/-- C5. Whatever the configuration, the arguments and the sampled levels, the
last four line operations of `soft_i2c_write` and of `soft_i2c_read` are clock
low, data low, clock high, data high: every call ends with the stop condition. -/
theorem stop_always_executed (si : soft_i2c) (address : Nat) (data : Option Int)
    (offset : Int) (size : Nat) (s : Bus) :
    (line_ops (soft_i2c_write si address data offset size s).2.ops).drop
        ((line_ops (soft_i2c_write si address data offset size s).2.ops).length - 4) =
      [Op.scl 0, Op.sda 0, Op.scl 1, Op.sda 1] ∧
    (line_ops (soft_i2c_read si address data offset size s).2.ops).drop
        ((line_ops (soft_i2c_read si address data offset size s).2.ops).length - 4) =
      [Op.scl 0, Op.sda 0, Op.scl 1, Op.sda 1] := by
  rw [soft_i2c_write_ops, soft_i2c_read_ops]
  exact ⟨drop_line_ops_stop _, drop_line_ops_stop _⟩

/-- C6. If the slave acknowledges every address byte and every byte of the first
`N` of `M` data elements and, when `N < M`, does not acknowledge some byte of the
next element, `soft_i2c_write` with a non-null buffer returns exactly `N`. -/
theorem write_partial_count (si : soft_i2c) (address : Nat) (data : Int) (offset : Int)
    (M N : Nat) (s : Bus) (hN : N ≤ M)
    (hack : ∀ k, k < write_address_count si + N * byte_len si.data_size → acked s k)
    (hnack : N < M → ∃ j, j < byte_len si.data_size ∧
      ¬ acked s (write_address_count si + N * byte_len si.data_size + j)) :
    (soft_i2c_write si address (some data) offset M s).1 = N := by
  have hlen : (write_address_bytes si address).length = write_address_count si := by
    rw [write_address_bytes_length]; rfl
  simp only [soft_i2c_write, soft_i2c_write_body_eq]
  rw [send_all_acked]
  · simp only
    rw [write_data_count si _ M N 0 0 _ hN]
    · simp
    · intro j hj
      rw [acked_sent, u8s_length, hlen, acked_start]
      exact hack _ (by omega)
    · intro hlt
      obtain ⟨j, hj, hn⟩ := hnack hlt
      refine ⟨j, hj, ?_⟩
      rw [acked_sent, u8s_length, hlen, acked_start]
      have e : write_address_count si + (N * byte_len si.data_size + j) =
          write_address_count si + N * byte_len si.data_size + j := by omega
      rw [e]
      exact hn
  · intro k hk
    rw [acked_start]
    exact hack k (by omega)

theorem write_partial_count_witness :
    (∀ k, k < write_address_count aht30_si + 1 * byte_len aht30_si.data_size →
      acked (bus_of [0, 0, 0, 1] [0x33, 0x00]) k) ∧
    (soft_i2c_write aht30_si 0xAC (some 0) 0 2 (bus_of [0, 0, 0, 1] [0x33, 0x00])).1 = 1 :=
  ⟨by decide,
   write_partial_count aht30_si 0xAC 0 0 2 1 (bus_of [0, 0, 0, 1] [0x33, 0x00]) (by decide)
    (by decide) (fun _ => ⟨0, by decide, by decide⟩)⟩

theorem read_ack_lt (data_len size n i : Nat) : read_ack data_len size n i % 256 =
    read_ack data_len size n i := by
  unfold read_ack
  split <;> rfl

theorem read_data_byte_eq (si : soft_i2c) (p : Int) (data_len n size i : Nat) (s : Bus) :
    read_data_byte si p data_len n size i s =
      { s with nread := s.nread + 8,
               ops := s.ops ++ read_byte_ops (read_ack data_len size n i) si.x,
               calls := s.calls ++ [Call.read_byte (read_ack data_len size n i)],
               mem := Function.update s.mem (p + read_index si data_len i)
                 (read_value si (fun k => s.slave (s.nread + k) % 256)) } := by
  have h := read_ack_lt data_len size n i
  unfold read_ack at h
  simp only [read_data_byte, read_byte_eq, read_ack, h]

theorem received_log_refl (si : soft_i2c) (s : Bus) : received_log si [] s s := by
  simp [received_log]

theorem received_log_trans (si : soft_i2c) (as bs : List Nat) (s t u : Bus)
    (h1 : received_log si as s t) (h2 : received_log si bs t u) :
    received_log si (as ++ bs) s u := by
  obtain ⟨a1, a2, a3, a4⟩ := h1
  obtain ⟨b1, b2, b3, b4⟩ := h2
  refine ⟨by rw [b1, a1], ?_, ?_, ?_⟩
  · rw [b2, a2, List.length_append]; omega
  · rw [b3, a3]; simp
  · rw [b4, a4]; simp

theorem read_data_byte_log (si : soft_i2c) (p : Int) (data_len n size i : Nat) (s : Bus) :
    received_log si [read_ack data_len size n i] s (read_data_byte si p data_len n size i s) := by
  rw [read_data_byte_eq]
  simp [received_log]

theorem read_element_log (si : soft_i2c) (p : Int) (data_len n size k i : Nat) (s : Bus) :
    received_log si ((List.range' i k).map (read_ack data_len size n)) s
      (read_element si p data_len n size k i s) := by
  induction k generalizing i s with
  | zero => simpa [read_element] using received_log_refl si s
  | succ k ih =>
    rw [read_element, List.range'_succ, List.map_cons]
    exact received_log_trans si [_] _ _ _ _ (read_data_byte_log si p data_len n size i s)
      (ih (i + 1) _)

theorem read_data_log (si : soft_i2c) (data : Int) (data_len size k n count : Nat) (s : Bus) :
    (read_data si data data_len size k n count s).1 = count + k ∧
    received_log si (read_acks data_len size n k) s
      (read_data si data data_len size k n count s).2 := by
  induction k generalizing n count s with
  | zero => simpa [read_data, read_acks] using received_log_refl si s
  | succ k ih =>
    rw [read_data]
    obtain ⟨h1, h2⟩ := ih (n + 1) (count + 1)
      (read_element si (data + (n : Int) * (stride data_len : Int)) data_len n size data_len 0 s)
    refine ⟨by rw [h1]; omega, ?_⟩
    have e : read_acks data_len size n (k + 1) =
        (List.range' 0 data_len).map (read_ack data_len size n) ++
          read_acks data_len size (n + 1) k := by
      simp [read_acks, List.range'_succ]
    rw [e]
    exact received_log_trans si _ _ _ _ _ (read_element_log si _ data_len n size data_len 0 s) h2

theorem map_read_ack_zero (data_len size e : Nat) (he : e ≠ size - 1) (l : List Nat) :
    l.map (read_ack data_len size e) = List.replicate l.length 0 := by
  induction l with
  | nil => rfl
  | cons a l ih => simp [List.replicate_succ, ih, read_ack, he]

theorem read_acks_zero (data_len size n k : Nat) (h : n + k ≤ size - 1) :
    read_acks data_len size n k = List.replicate (k * data_len) 0 := by
  induction k generalizing n with
  | zero => simp [read_acks]
  | succ k ih =>
    have e : read_acks data_len size n (k + 1) =
        (List.range' 0 data_len).map (read_ack data_len size n) ++
          read_acks data_len size (n + 1) k := by
      simp [read_acks, List.range'_succ]
    rw [e, ih (n + 1) (by omega), map_read_ack_zero _ _ _ (by omega)]
    rw [List.length_range', ← List.replicate_add]
    congr 1
    rw [Nat.succ_mul]; omega

theorem read_acks_last (data_len size : Nat) (hL : 1 ≤ data_len) :
    read_acks data_len size (size - 1) 1 = List.replicate (data_len - 1) 0 ++ [1] := by
  obtain ⟨m, rfl⟩ : ∃ m, data_len = m + 1 := ⟨data_len - 1, by omega⟩
  have : List.range' 0 (m + 1) = List.range' 0 m ++ [m] := by
    rw [List.range'_1_concat]; simp
  simp only [read_acks, List.range'_one, List.flatMap_cons, List.flatMap_nil, List.append_nil,
    this, List.map_append, List.map_cons, List.map_nil, Nat.add_sub_cancel]
  congr 1
  · have hz : ∀ l : List Nat, (∀ i ∈ l, i < m) →
        l.map (read_ack (m + 1) size (size - 1)) = List.replicate l.length 0 := by
      intro l
      induction l with
      | nil => intro _; rfl
      | cons a l ih =>
        intro h
        have ha : a < m := h a (by simp)
        have : read_ack (m + 1) size (size - 1) a = 0 := by
          unfold read_ack
          rw [if_neg]
          intro hc
          have := hc.2
          push_cast at this
          omega
        simp only [List.map_cons, this, List.length_cons, List.replicate_succ]
        rw [ih (fun i hi => h i (by simp [hi]))]
    rw [hz _ (by intro i hi; simp [List.mem_range'] at hi; omega)]
    simp
  · simp [read_ack]

/-- The acknowledge values of a whole read: acknowledge for every byte but the
last one. -/
theorem read_acks_all (data_len size : Nat) (hs : 1 ≤ size) (hL : 1 ≤ data_len) :
    read_acks data_len size 0 size =
      List.replicate (size * data_len - 1) SOFT_I2C_ACK ++ [SOFT_I2C_NACK] := by
  obtain ⟨m, rfl⟩ : ∃ m, size = m + 1 := ⟨size - 1, by omega⟩
  have e : read_acks data_len (m + 1) 0 (m + 1) =
      read_acks data_len (m + 1) 0 m ++ read_acks data_len (m + 1) m 1 := by
    simp only [read_acks]
    rw [← List.flatMap_append]
    congr 1
    rw [List.range'_1_concat]; simp
  rw [e, read_acks_zero _ _ _ _ (by simp)]
  have := read_acks_last data_len (m + 1) hL
  simp only [Nat.add_sub_cancel] at this
  rw [this, ← List.append_assoc, ← List.replicate_add]
  congr 2
  rw [Nat.succ_mul]; omega

theorem dummy_write_eq (si : soft_i2c) (address : Nat) (s : Bus) :
    dummy_write si address (byte_len si.r_addr_size) s =
      if si.mode_of.has_dummy_write ≠ 0 then
        match send_all si (write_address_bytes si address) s with
        | (false, t) => (false, t)
        | (true, t) => (true, restart si t)
      else (true, s) := by
  unfold dummy_write write_address_bytes
  by_cases h : si.mode_of.has_dummy_write ≠ 0
  · simp only [h, if_true, device_address_eq, register_address_eq, send_all_append]
    rcases send_all si (device_address_frame si SOFT_I2C_WRITE) s with ⟨ok, t⟩
    cases ok
    · rfl
    · rfl
  · simp only [h, if_false]

theorem soft_i2c_read_body_eq (si : soft_i2c) (address : Nat) (data : Option Int)
    (offset : Int) (size : Nat) (s : Bus) :
    soft_i2c_read_body si address data offset size s =
      match dummy_write si address (byte_len si.r_addr_size) (start si s) with
      | (false, t) => (0, t)
      | (true, t) =>
        match send_all si (device_address_frame si SOFT_I2C_READ) t with
        | (false, t) => (0, t)
        | (true, t) =>
          match data with
          | none => (0, t)
          | some d => read_data si (d + offset * (stride (byte_len si.data_size) : Int))
              (byte_len si.data_size) size size 0 0 t := by
  unfold soft_i2c_read_body
  simp only [device_address_eq]
  rcases dummy_write si address (byte_len si.r_addr_size) (start si s) with ⟨ok, t⟩
  cases ok
  · rfl
  · simp only
    rcases send_all si (device_address_frame si SOFT_I2C_READ) t with ⟨ok2, t2⟩
    cases ok2
    · rfl
    · cases data <;> rfl

/-- The body of `soft_i2c_read` when every address byte is acknowledged. -/
theorem soft_i2c_read_body_acked (si : soft_i2c) (address : Nat) (data : Option Int)
    (offset : Int) (size : Nat) (s : Bus)
    (hack : ∀ k, k < read_address_count si → acked s k) :
    soft_i2c_read_body si address data offset size s =
      match data with
      | none => (0, read_addressed si address s)
      | some d => read_data si (d + offset * (stride (byte_len si.data_size) : Int))
          (byte_len si.data_size) size size 0 0 (read_addressed si address s) := by
  have hlen : (write_address_bytes si address).length = write_address_count si := by
    rw [write_address_bytes_length]; rfl
  rw [soft_i2c_read_body_eq, dummy_write_eq]
  unfold read_addressed
  unfold read_address_count at hack
  by_cases h : si.mode_of.has_dummy_write ≠ 0
  · rw [if_pos h] at hack
    rw [if_pos h, if_pos h]
    have h1 : ∀ k, k < (write_address_bytes si address).length → acked (start si s) k := by
      intro k hk; rw [acked_start]; exact hack k (by rw [hlen] at hk; omega)
    have h2 : ∀ k, k < (device_address_frame si SOFT_I2C_READ).length →
        acked (restart si (sent si (u8s (write_address_bytes si address)) (start si s))) k := by
      intro k hk
      rw [acked_restart, acked_sent, u8s_length, hlen, acked_start]
      rw [device_address_frame_length] at hk
      exact hack _ (by omega)
    rw [send_all_acked si _ _ h1]
    dsimp only
    rw [send_all_acked si _ _ h2]
  · rw [if_neg h] at hack
    rw [if_neg h, if_neg h]
    have h2 : ∀ k, k < (device_address_frame si SOFT_I2C_READ).length →
        acked (start si s) k := by
      intro k hk
      rw [acked_start]
      rw [device_address_frame_length] at hk
      exact hack _ (by omega)
    dsimp only
    rw [send_all_acked si _ _ h2]

/-- The result of `soft_i2c_read` when every address byte is acknowledged: the
count, and the two logs. -/
theorem soft_i2c_read_acked (si : soft_i2c) (address : Nat) (data : Option Int)
    (offset : Int) (size : Nat) (s : Bus)
    (hack : ∀ k, k < read_address_count si → acked s k) :
    (soft_i2c_read si address data offset size s).1 = (if data = none then 0 else size) ∧
    (soft_i2c_read si address data offset size s).2.calls =
      (read_addressed si address s).calls ++
        (read_data_acks si data size).map Call.read_byte ++ [Call.stop] ∧
    (soft_i2c_read si address data offset size s).2.ops =
      (read_addressed si address s).ops ++
        (read_data_acks si data size).flatMap (fun a => read_byte_ops a si.x) ++ stop_ops := by
  simp only [soft_i2c_read, soft_i2c_read_body_acked si address data offset size s hack, stop_eq]
  cases data with
  | none => simp [read_data_acks]
  | some d =>
    obtain ⟨h1, _, _, h3, h4⟩ := read_data_log si
      (d + offset * (stride (byte_len si.data_size) : Int)) (byte_len si.data_size) size size 0 0
      (read_addressed si address s)
    simp only [read_data_acks]
    refine ⟨by simpa using h1, ?_, ?_⟩
    · rw [h4]
    · rw [h3]

theorem read_addressed_calls (si : soft_i2c) (address : Nat) (s : Bus) :
    (read_addressed si address s).calls =
      s.calls ++ [Call.start] ++
        (if si.mode_of.has_dummy_write ≠ 0 then
          (u8s (device_address_frame si SOFT_I2C_WRITE)).map Call.write_byte ++
          (u8s (register_address_frame si address)).map Call.write_byte ++ [Call.restart]
        else []) ++
        (u8s (device_address_frame si SOFT_I2C_READ)).map Call.write_byte := by
  unfold read_addressed
  by_cases h : si.mode_of.has_dummy_write ≠ 0
  · simp [h, sent, start_eq, restart_eq, write_address_bytes, u8s]
  · simp [h, sent, start_eq]

theorem read_addressed_ops (si : soft_i2c) (address : Nat) (s : Bus) :
    (read_addressed si address s).ops =
      s.ops ++ start_ops ++
        (if si.mode_of.has_dummy_write ≠ 0 then
          (u8s (device_address_frame si SOFT_I2C_WRITE)).flatMap
            (fun b => write_byte_ops si b si.x) ++
          (u8s (register_address_frame si address)).flatMap
            (fun b => write_byte_ops si b si.x) ++ start_ops
        else []) ++
        (u8s (device_address_frame si SOFT_I2C_READ)).flatMap
          (fun b => write_byte_ops si b si.x) := by
  unfold read_addressed
  by_cases h : si.mode_of.has_dummy_write ≠ 0
  · simp [h, sent, start_eq, restart_eq, write_address_bytes, u8s]
  · simp [h, sent, start_eq]

theorem and_7F (a : Nat) (h : a ≤ 127) : a &&& 0x7F = a := by
  have := Nat.and_pow_two_sub_one_eq_mod a 7
  simp only [Nat.reducePow, Nat.add_one_sub_one] at this
  rw [this]; omega

theorem and_3FF (a : Nat) (h : a ≤ 1023) : a &&& 0x3FF = a := by
  have := Nat.and_pow_two_sub_one_eq_mod a 10
  simp only [Nat.reducePow] at this
  rw [this]; omega

theorem and_FF_mod (a : Nat) : (a &&& 0xFF) % 256 = a &&& 0xFF := by
  apply Nat.mod_eq_of_lt
  have : a &&& 0xFF ≤ 0xFF := Nat.and_le_right
  omega

theorem frame7_mod (a d : Nat) (h : a ≤ 127) (hd : d ≤ 1) :
    ((a <<< 1) ||| d) % 256 = (a <<< 1) ||| d := by
  have : ∀ a, a < 128 → ∀ d, d < 2 → ((a <<< 1) ||| d) % 256 = (a <<< 1) ||| d := by decide
  exact this a (by omega) d (by omega)

theorem frame10_mod (a d : Nat) (h : a ≤ 1023) (hd : d ≤ 1) :
    ((0xF0 ||| ((a >>> 8) <<< 1)) ||| d) % 256 = (0xF0 ||| ((a >>> 8) <<< 1)) ||| d := by
  have : ∀ b, b < 4 → ∀ d, d < 2 →
      ((0xF0 ||| (b <<< 1)) ||| d) % 256 = (0xF0 ||| (b <<< 1)) ||| d := by decide
  have hb : a >>> 8 < 4 := by
    rw [Nat.shiftRight_eq_div_pow]; omega
  exact this _ hb d (by omega)

/-- The status of `soft_i2c_init_ex` with non-null engine and pin table, as the
chain of checks of lines 339-350. -/
theorem init_ex_fst (e : soft_i2c) (o : soft_i2c_pin_ops)
    (speed xSB m_endian sr_endian sd_endian has_dummy_write : Nat)
    (d_addr d_addr_size r_addr_size data_size : Nat)
    (delay_ns delay_us delay_ms : Option Nat) :
    (soft_i2c_init_ex (some e) (some o) speed xSB m_endian sr_endian sd_endian has_dummy_write
      d_addr d_addr_size r_addr_size data_size delay_ns delay_us delay_ms).1 =
    if o.sda = none ∨ o.scl = none then -1
    else if !IS_LEGAL_SOFT_I2C_SPEED speed then -2
    else if !IS_SOFR_I2C_xSB xSB then -3
    else if !IS_SOFT_I2C_ENDIAN m_endian || !IS_SOFT_I2C_ENDIAN sr_endian ||
        !IS_SOFT_I2C_ENDIAN sd_endian then -4
    else if has_dummy_write ≠ 0 ∧ has_dummy_write ≠ 1 then -5
    else if !IS_SOFT_I2C_DEVICE_ADDRESS_SIZE d_addr_size then -6
    else if !IS_SOFT_I2C_REGISTER_ADDRESS_SIZE r_addr_size then -7
    else if !IS_SOFT_I2C_DATA_SIZE data_size then -8
    else if delay_ns = none ∧ delay_us = none ∧ delay_ms = none then -9
    else 0 := by
  unfold soft_i2c_init_ex
  simp only [apply_ite Prod.fst]

/-- The status of `soft_i2c_init_ex` follows the order of its checks. -/
theorem init_ex_status (si : Option soft_i2c) (ops : Option soft_i2c_pin_ops)
    (speed xSB m_endian sr_endian sd_endian has_dummy_write : Nat)
    (d_addr d_addr_size r_addr_size data_size : Nat)
    (delay_ns delay_us delay_ms : Option Nat) :
    (¬ references_ok si ops → (soft_i2c_init_ex si ops speed xSB m_endian sr_endian sd_endian
      has_dummy_write d_addr d_addr_size r_addr_size data_size delay_ns delay_us delay_ms).1 = -1) ∧
    (references_ok si ops →
      (soft_i2c_init_ex si ops speed xSB m_endian sr_endian sd_endian
        has_dummy_write d_addr d_addr_size r_addr_size data_size delay_ns delay_us delay_ms).1 =
      if ¬ (100 ≤ speed ∧ speed ≤ 400000) then -2
      else if ¬ (xSB = 0 ∨ xSB = 1) then -3
      else if ¬ ((m_endian = 0 ∨ m_endian = 1) ∧ (sr_endian = 0 ∨ sr_endian = 1) ∧
          (sd_endian = 0 ∨ sd_endian = 1)) then -4
      else if ¬ (has_dummy_write = 0 ∨ has_dummy_write = 1) then -5
      else if ¬ (d_addr_size = 7 ∨ d_addr_size = 10) then -6
      else if ¬ (1 ≤ r_addr_size ∧ r_addr_size ≤ 32) then -7
      else if ¬ (1 ≤ data_size ∧ data_size ≤ 32) then -8
      else if ¬ (delay_ns ≠ none ∨ delay_us ≠ none ∨ delay_ms ≠ none) then -9
      else 0) := by
  have e2 : (!IS_LEGAL_SOFT_I2C_SPEED speed) = true ↔ ¬ (100 ≤ speed ∧ speed ≤ 400000) := by
    show (!(decide (speed ≥ 100) && decide (speed ≤ 400000))) = true ↔ _
    simp only [Bool.not_eq_true', Bool.and_eq_false_iff, decide_eq_false_iff_not]
    omega
  have e3 : (!IS_SOFR_I2C_xSB xSB) = true ↔ ¬ (xSB = 0 ∨ xSB = 1) := by
    show (!(decide (xSB = 0) || decide (xSB = 1))) = true ↔ _
    simp only [Bool.not_eq_true', Bool.or_eq_false_iff, decide_eq_false_iff_not]
    omega
  have en : ∀ v, (!IS_SOFT_I2C_ENDIAN v) = true ↔ ¬ (v = 0 ∨ v = 1) := by
    intro v
    show (!(decide (v = 0) || decide (v = 1))) = true ↔ _
    simp only [Bool.not_eq_true', Bool.or_eq_false_iff, decide_eq_false_iff_not]
    omega
  have e4 : (!IS_SOFT_I2C_ENDIAN m_endian || !IS_SOFT_I2C_ENDIAN sr_endian ||
      !IS_SOFT_I2C_ENDIAN sd_endian) = true ↔
      ¬ ((m_endian = 0 ∨ m_endian = 1) ∧ (sr_endian = 0 ∨ sr_endian = 1) ∧
          (sd_endian = 0 ∨ sd_endian = 1)) := by
    simp only [Bool.or_eq_true, en]
    omega
  have e5 : (has_dummy_write ≠ 0 ∧ has_dummy_write ≠ 1) ↔
      ¬ (has_dummy_write = 0 ∨ has_dummy_write = 1) := by
    omega
  have e6 : (!IS_SOFT_I2C_DEVICE_ADDRESS_SIZE d_addr_size) = true ↔
      ¬ (d_addr_size = 7 ∨ d_addr_size = 10) := by
    show (!(decide (d_addr_size = 7) || decide (d_addr_size = 10))) = true ↔ _
    simp only [Bool.not_eq_true', Bool.or_eq_false_iff, decide_eq_false_iff_not]
    omega
  have e7 : (!IS_SOFT_I2C_REGISTER_ADDRESS_SIZE r_addr_size) = true ↔
      ¬ (1 ≤ r_addr_size ∧ r_addr_size ≤ 32) := by
    show (!(decide (r_addr_size ≥ 1) && decide (r_addr_size ≤ 32))) = true ↔ _
    simp only [Bool.not_eq_true', Bool.and_eq_false_iff, decide_eq_false_iff_not]
    omega
  have e8 : (!IS_SOFT_I2C_DATA_SIZE data_size) = true ↔
      ¬ (1 ≤ data_size ∧ data_size ≤ 32) := by
    show (!(decide (data_size ≥ 1) && decide (data_size ≤ 32))) = true ↔ _
    simp only [Bool.not_eq_true', Bool.and_eq_false_iff, decide_eq_false_iff_not]
    omega
  have e9 : (delay_ns = none ∧ delay_us = none ∧ delay_ms = none) ↔
      ¬ (delay_ns ≠ none ∨ delay_us ≠ none ∨ delay_ms ≠ none) := by
    simp only [ne_eq, not_or, not_not]
  rcases si with _ | e
  · simp [references_ok, soft_i2c_init_ex]
  rcases ops with _ | o
  · simp [references_ok, soft_i2c_init_ex]
  have hr : references_ok (some e) (some o) ↔ ¬ (o.sda = none ∨ o.scl = none) := by
    simp [references_ok]
  rw [init_ex_fst, hr]
  constructor
  · intro h
    rw [not_not] at h
    rw [if_pos h]
  · intro h
    rw [if_neg h]
    simp only [e2, e3, e4, e5, e6, e7, e8, e9]

/-- C7. `soft_i2c_init_ex` returns 0 exactly when every argument is legal and a
negative status otherwise; the status is -1 .. -9 according to the class of the
first failing check, so different classes get different statuses. -/
theorem init_status_codes (si : Option soft_i2c) (ops : Option soft_i2c_pin_ops)
    (speed xSB m_endian sr_endian sd_endian has_dummy_write : Nat)
    (d_addr d_addr_size r_addr_size data_size : Nat)
    (delay_ns delay_us delay_ms : Option Nat) :
    ((soft_i2c_init_ex si ops speed xSB m_endian sr_endian sd_endian has_dummy_write
        d_addr d_addr_size r_addr_size data_size delay_ns delay_us delay_ms).1 = 0 ↔
      references_ok si ops ∧ speed_ok speed ∧ zero_or_one xSB ∧
      (zero_or_one m_endian ∧ zero_or_one sr_endian ∧ zero_or_one sd_endian) ∧
      zero_or_one has_dummy_write ∧ device_width_ok d_addr_size ∧
      width_ok r_addr_size ∧ width_ok data_size ∧ delay_ok delay_ns delay_us delay_ms) ∧
    ((soft_i2c_init_ex si ops speed xSB m_endian sr_endian sd_endian has_dummy_write
        d_addr d_addr_size r_addr_size data_size delay_ns delay_us delay_ms).1 ≠ 0 →
      (soft_i2c_init_ex si ops speed xSB m_endian sr_endian sd_endian has_dummy_write
        d_addr d_addr_size r_addr_size data_size delay_ns delay_us delay_ms).1 < 0) ∧
    ((soft_i2c_init_ex si ops speed xSB m_endian sr_endian sd_endian has_dummy_write
        d_addr d_addr_size r_addr_size data_size delay_ns delay_us delay_ms).1 = -1 ↔
      ¬ references_ok si ops) ∧
    ((soft_i2c_init_ex si ops speed xSB m_endian sr_endian sd_endian has_dummy_write
        d_addr d_addr_size r_addr_size data_size delay_ns delay_us delay_ms).1 = -2 ↔
      references_ok si ops ∧ ¬ speed_ok speed) ∧
    ((soft_i2c_init_ex si ops speed xSB m_endian sr_endian sd_endian has_dummy_write
        d_addr d_addr_size r_addr_size data_size delay_ns delay_us delay_ms).1 = -3 ↔
      references_ok si ops ∧ speed_ok speed ∧ ¬ zero_or_one xSB) ∧
    ((soft_i2c_init_ex si ops speed xSB m_endian sr_endian sd_endian has_dummy_write
        d_addr d_addr_size r_addr_size data_size delay_ns delay_us delay_ms).1 = -4 ↔
      references_ok si ops ∧ speed_ok speed ∧ zero_or_one xSB ∧
      ¬ (zero_or_one m_endian ∧ zero_or_one sr_endian ∧ zero_or_one sd_endian)) ∧
    ((soft_i2c_init_ex si ops speed xSB m_endian sr_endian sd_endian has_dummy_write
        d_addr d_addr_size r_addr_size data_size delay_ns delay_us delay_ms).1 = -5 ↔
      references_ok si ops ∧ speed_ok speed ∧ zero_or_one xSB ∧
      (zero_or_one m_endian ∧ zero_or_one sr_endian ∧ zero_or_one sd_endian) ∧
      ¬ zero_or_one has_dummy_write) ∧
    ((soft_i2c_init_ex si ops speed xSB m_endian sr_endian sd_endian has_dummy_write
        d_addr d_addr_size r_addr_size data_size delay_ns delay_us delay_ms).1 = -6 ↔
      references_ok si ops ∧ speed_ok speed ∧ zero_or_one xSB ∧
      (zero_or_one m_endian ∧ zero_or_one sr_endian ∧ zero_or_one sd_endian) ∧
      zero_or_one has_dummy_write ∧ ¬ device_width_ok d_addr_size) ∧
    ((soft_i2c_init_ex si ops speed xSB m_endian sr_endian sd_endian has_dummy_write
        d_addr d_addr_size r_addr_size data_size delay_ns delay_us delay_ms).1 = -7 ↔
      references_ok si ops ∧ speed_ok speed ∧ zero_or_one xSB ∧
      (zero_or_one m_endian ∧ zero_or_one sr_endian ∧ zero_or_one sd_endian) ∧
      zero_or_one has_dummy_write ∧ device_width_ok d_addr_size ∧ ¬ width_ok r_addr_size) ∧
    ((soft_i2c_init_ex si ops speed xSB m_endian sr_endian sd_endian has_dummy_write
        d_addr d_addr_size r_addr_size data_size delay_ns delay_us delay_ms).1 = -8 ↔
      references_ok si ops ∧ speed_ok speed ∧ zero_or_one xSB ∧
      (zero_or_one m_endian ∧ zero_or_one sr_endian ∧ zero_or_one sd_endian) ∧
      zero_or_one has_dummy_write ∧ device_width_ok d_addr_size ∧ width_ok r_addr_size ∧
      ¬ width_ok data_size) ∧
    ((soft_i2c_init_ex si ops speed xSB m_endian sr_endian sd_endian has_dummy_write
        d_addr d_addr_size r_addr_size data_size delay_ns delay_us delay_ms).1 = -9 ↔
      references_ok si ops ∧ speed_ok speed ∧ zero_or_one xSB ∧
      (zero_or_one m_endian ∧ zero_or_one sr_endian ∧ zero_or_one sd_endian) ∧
      zero_or_one has_dummy_write ∧ device_width_ok d_addr_size ∧ width_ok r_addr_size ∧
      width_ok data_size ∧ ¬ delay_ok delay_ns delay_us delay_ms) := by
  obtain ⟨h1, h2⟩ := init_ex_status si ops speed xSB m_endian sr_endian sd_endian
    has_dummy_write d_addr d_addr_size r_addr_size data_size delay_ns delay_us delay_ms
  generalize (soft_i2c_init_ex si ops speed xSB m_endian sr_endian sd_endian has_dummy_write
        d_addr d_addr_size r_addr_size data_size delay_ns delay_us delay_ms).1 = r at h1 h2 ⊢
  unfold speed_ok zero_or_one device_width_ok width_ok delay_ok
  by_cases c1 : references_ok si ops
  swap
  · have := h1 c1; subst this; simp [c1]
  have h := h2 c1
  clear h1 h2
  by_cases c2 : 100 ≤ speed ∧ speed ≤ 400000
  swap
  · rw [if_pos c2] at h; subst h; simp [c1, c2]
  rw [if_neg (not_not.mpr c2)] at h
  by_cases c3 : xSB = 0 ∨ xSB = 1
  swap
  · rw [if_pos c3] at h; subst h; simp [c1, c2, c3]
  rw [if_neg (not_not.mpr c3)] at h
  by_cases c4 : (m_endian = 0 ∨ m_endian = 1) ∧ (sr_endian = 0 ∨ sr_endian = 1) ∧
          (sd_endian = 0 ∨ sd_endian = 1)
  swap
  · rw [if_pos c4] at h; subst h; simp [c1, c2, c3, c4]
  rw [if_neg (not_not.mpr c4)] at h
  by_cases c5 : has_dummy_write = 0 ∨ has_dummy_write = 1
  swap
  · rw [if_pos c5] at h; subst h; simp [c1, c2, c3, c4, c5]
  rw [if_neg (not_not.mpr c5)] at h
  by_cases c6 : d_addr_size = 7 ∨ d_addr_size = 10
  swap
  · rw [if_pos c6] at h; subst h; simp [c1, c2, c3, c4, c5, c6]
  rw [if_neg (not_not.mpr c6)] at h
  by_cases c7 : 1 ≤ r_addr_size ∧ r_addr_size ≤ 32
  swap
  · rw [if_pos c7] at h; subst h; simp [c1, c2, c3, c4, c5, c6, c7]
  rw [if_neg (not_not.mpr c7)] at h
  by_cases c8 : 1 ≤ data_size ∧ data_size ≤ 32
  swap
  · rw [if_pos c8] at h; subst h; simp [c1, c2, c3, c4, c5, c6, c7, c8]
  rw [if_neg (not_not.mpr c8)] at h
  by_cases c9 : delay_ns ≠ none ∨ delay_us ≠ none ∨ delay_ms ≠ none
  swap
  · rw [if_pos c9] at h; subst h; simp [c1, c2, c3, c4, c5, c6, c7, c8, c9]
  rw [if_neg (not_not.mpr c9)] at h
  subst h
  simp [c1, c2, c3, c4, c5, c6, c7, c8, c9]

/-- The engine record after `soft_i2c_init_ex`: unchanged when a check fails,
assigned and timed otherwise. -/
theorem init_ex_snd (e : soft_i2c) (o : soft_i2c_pin_ops)
    (speed xSB m_endian sr_endian sd_endian has_dummy_write : Nat)
    (d_addr d_addr_size r_addr_size data_size : Nat)
    (delay_ns delay_us delay_ms : Option Nat) :
    (soft_i2c_init_ex (some e) (some o) speed xSB m_endian sr_endian sd_endian has_dummy_write
      d_addr d_addr_size r_addr_size data_size delay_ns delay_us delay_ms).2 =
    if (soft_i2c_init_ex (some e) (some o) speed xSB m_endian sr_endian sd_endian
        has_dummy_write d_addr d_addr_size r_addr_size data_size delay_ns delay_us delay_ms).1 = 0
    then some (resolve_delay (assign_fields e o speed xSB m_endian sr_endian sd_endian
      has_dummy_write d_addr d_addr_size r_addr_size data_size delay_ns delay_us delay_ms))
    else some e := by
  unfold soft_i2c_init_ex
  dsimp only
  by_cases c0 : o.sda = none ∨ o.scl = none
  · rw [if_pos c0]; rfl
  rw [if_neg c0]
  by_cases c1 : (!IS_LEGAL_SOFT_I2C_SPEED speed) = true
  · rw [if_pos c1]; rfl
  rw [if_neg c1]
  by_cases c2 : (!IS_SOFR_I2C_xSB xSB) = true
  · rw [if_pos c2]; rfl
  rw [if_neg c2]
  by_cases c3 : (!IS_SOFT_I2C_ENDIAN m_endian || !IS_SOFT_I2C_ENDIAN sr_endian ||
      !IS_SOFT_I2C_ENDIAN sd_endian) = true
  · rw [if_pos c3]; rfl
  rw [if_neg c3]
  by_cases c4 : has_dummy_write ≠ 0 ∧ has_dummy_write ≠ 1
  · rw [if_pos c4]; rfl
  rw [if_neg c4]
  by_cases c5 : (!IS_SOFT_I2C_DEVICE_ADDRESS_SIZE d_addr_size) = true
  · rw [if_pos c5]; rfl
  rw [if_neg c5]
  by_cases c6 : (!IS_SOFT_I2C_REGISTER_ADDRESS_SIZE r_addr_size) = true
  · rw [if_pos c6]; rfl
  rw [if_neg c6]
  by_cases c7 : (!IS_SOFT_I2C_DATA_SIZE data_size) = true
  · rw [if_pos c7]; rfl
  rw [if_neg c7]
  by_cases c8 : delay_ns = none ∧ delay_us = none ∧ delay_ms = none
  · rw [if_pos c8]; rfl
  rw [if_neg c8]
  rfl

theorem resolve_delay_fields (e : soft_i2c) :
    (resolve_delay e).mode_of = e.mode_of ∧ (resolve_delay e).d_addr = e.d_addr ∧
    (resolve_delay e).d_addr_size = e.d_addr_size ∧
    (resolve_delay e).r_addr_size = e.r_addr_size ∧
    (resolve_delay e).data_size = e.data_size := by
  unfold resolve_delay
  simp only
  split_ifs <;> simp

/-- What a successful `soft_i2c_init_ex` leaves in the engine record, and what
its success says about the arguments. -/
theorem init_ex_success (si0 : Option soft_i2c) (ops : Option soft_i2c_pin_ops)
    (speed xSB m_endian sr_endian sd_endian has_dummy_write : Nat)
    (d_addr d_addr_size r_addr_size data_size : Nat)
    (delay_ns delay_us delay_ms : Option Nat) (si : soft_i2c)
    (h : soft_i2c_init_ex si0 ops speed xSB m_endian sr_endian sd_endian has_dummy_write
      d_addr d_addr_size r_addr_size data_size delay_ns delay_us delay_ms = (0, some si)) :
    (speed_ok speed ∧ zero_or_one xSB ∧
      (zero_or_one m_endian ∧ zero_or_one sr_endian ∧ zero_or_one sd_endian) ∧
      zero_or_one has_dummy_write ∧ device_width_ok d_addr_size ∧
      width_ok r_addr_size ∧ width_ok data_size ∧ delay_ok delay_ns delay_us delay_ms) ∧
    ∃ e o, si0 = some e ∧ ops = some o ∧
      si = resolve_delay (assign_fields e o speed xSB m_endian sr_endian sd_endian
        has_dummy_write d_addr d_addr_size r_addr_size data_size delay_ns delay_us delay_ms) := by
  have h1 : (soft_i2c_init_ex si0 ops speed xSB m_endian sr_endian sd_endian has_dummy_write
      d_addr d_addr_size r_addr_size data_size delay_ns delay_us delay_ms).1 = 0 := by rw [h]
  obtain ⟨s1, s2⟩ := init_ex_status si0 ops speed xSB m_endian sr_endian sd_endian
    has_dummy_write d_addr d_addr_size r_addr_size data_size delay_ns delay_us delay_ms
  rw [h1] at s1 s2
  have hr : references_ok si0 ops := by
    by_contra hc
    have := s1 hc
    omega
  have s3 := s2 hr
  have hs : speed_ok speed ∧ zero_or_one xSB ∧
      (zero_or_one m_endian ∧ zero_or_one sr_endian ∧ zero_or_one sd_endian) ∧
      zero_or_one has_dummy_write ∧ device_width_ok d_addr_size ∧
      width_ok r_addr_size ∧ width_ok data_size ∧ delay_ok delay_ns delay_us delay_ms := by
    unfold speed_ok zero_or_one device_width_ok width_ok delay_ok
    split_ifs at s3
    refine ⟨?_, ?_, ?_, ?_, ?_, ?_, ?_, ?_⟩ <;> assumption
  refine ⟨hs, ?_⟩
  obtain ⟨hn, ho, _⟩ := hr
  obtain ⟨e, rfl⟩ := Option.ne_none_iff_exists'.mp hn
  obtain ⟨o, rfl⟩ := Option.ne_none_iff_exists'.mp ho
  refine ⟨e, o, rfl, rfl, ?_⟩
  have h2 := init_ex_snd e o speed xSB m_endian sr_endian sd_endian has_dummy_write
      d_addr d_addr_size r_addr_size data_size delay_ns delay_us delay_ms
  rw [if_pos h1, h] at h2
  exact Option.some.inj h2

/-- C8. With non-null references, a speed below 100 or above 400000 makes
`soft_i2c_init_ex` return -2 and leave the engine record exactly as it was. -/
theorem speed_rejected (e : soft_i2c) (o : soft_i2c_pin_ops)
    (speed xSB m_endian sr_endian sd_endian has_dummy_write : Nat)
    (d_addr d_addr_size r_addr_size data_size : Nat)
    (delay_ns delay_us delay_ms : Option Nat)
    (hsda : o.sda ≠ none) (hscl : o.scl ≠ none) (hspeed : speed < 100 ∨ 400000 < speed) :
    soft_i2c_init_ex (some e) (some o) speed xSB m_endian sr_endian sd_endian has_dummy_write
      d_addr d_addr_size r_addr_size data_size delay_ns delay_us delay_ms = (-2, some e) := by
  have hr : references_ok (some e) (some o) := by
    refine ⟨by simp, by simp, ?_⟩
    intro o2 ho
    cases ho
    exact ⟨hsda, hscl⟩
  have hn : ¬ (100 ≤ speed ∧ speed ≤ 400000) := by omega
  have h1 := (init_ex_status (some e) (some o) speed xSB m_endian sr_endian sd_endian
      has_dummy_write d_addr d_addr_size r_addr_size data_size delay_ns delay_us
      delay_ms).2 hr
  rw [if_pos hn] at h1
  have h2 := init_ex_snd e o speed xSB m_endian sr_endian sd_endian has_dummy_write
      d_addr d_addr_size r_addr_size data_size delay_ns delay_us delay_ms
  rw [h1] at h2
  rw [if_neg (by decide)] at h2
  exact Prod.ext h1 h2

theorem speed_rejected_witness :
    soft_i2c_init_ex (some aht30_si) (some { sda := some 1, scl := some 2 }) 50 0 0 0 0 0
      0x38 7 8 8 none (some 3) (some 4) = (-2, some aht30_si) ∧
    soft_i2c_init_ex (some aht30_si) (some { sda := some 1, scl := some 2 }) 500000 0 0 0 0 0
      0x38 7 8 8 none (some 3) (some 4) = (-2, some aht30_si) :=
  ⟨speed_rejected aht30_si { sda := some 1, scl := some 2 } 50 0 0 0 0 0 0x38 7 8 8 none
      (some 3) (some 4) (by decide) (by decide) (by decide),
   speed_rejected aht30_si { sda := some 1, scl := some 2 } 500000 0 0 0 0 0 0x38 7 8 8 none
      (some 3) (some 4) (by decide) (by decide) (by decide)⟩

/-- The engine record of the AHT30 example is what `soft_i2c_init_ex` produces
from the arguments of `aht30_init`. -/
theorem aht30_si_init :
    (soft_i2c_init_ex (some zero_si) (some { sda := some 1, scl := some 2 }) 100000 SOFT_I2C_MSB
      SOFT_I2C_LITTLE_ENDIAN SOFT_I2C_LITTLE_ENDIAN SOFT_I2C_LITTLE_ENDIAN 0
      0x38 SOFT_I2C_DEVICE_ADDRESS_SIZE_7 8 8 none (some 3) (some 4)) = (0, some aht30_si) := by
  decide

theorem sent_bytes_append (a b : List Call) :
    sent_bytes (a ++ b) = sent_bytes a ++ sent_bytes b := by
  simp [sent_bytes]

theorem sent_bytes_write (l : List Nat) : sent_bytes (l.map Call.write_byte) = l := by
  induction l with
  | nil => rfl
  | cons a l ih =>
    rw [List.map_cons, ← List.singleton_append, sent_bytes_append, ih]
    rfl

theorem sent_bytes_read (l : List Nat) : sent_bytes (l.map Call.read_byte) = [] := by
  induction l with
  | nil => rfl
  | cons a l ih =>
    rw [List.map_cons, ← List.singleton_append, sent_bytes_append, ih]
    rfl

theorem read_byte_acks_append (a b : List Call) :
    read_byte_acks (a ++ b) = read_byte_acks a ++ read_byte_acks b := by
  simp [read_byte_acks]

theorem read_byte_acks_write (l : List Nat) : read_byte_acks (l.map Call.write_byte) = [] := by
  induction l with
  | nil => rfl
  | cons a l ih =>
    rw [List.map_cons, ← List.singleton_append, read_byte_acks_append, ih]
    rfl

theorem read_byte_acks_read (l : List Nat) : read_byte_acks (l.map Call.read_byte) = l := by
  induction l with
  | nil => rfl
  | cons a l ih =>
    rw [List.map_cons, ← List.singleton_append, read_byte_acks_append, ih]
    rfl

theorem soft_i2c_write_first_nack (si : soft_i2c) (address : Nat) (data : Option Int)
    (offset : Int) (size : Nat) (s : Bus) (h : ¬ acked s 0) :
    soft_i2c_write si address data offset size s =
      (0, stop si (sent si [first_address_byte si SOFT_I2C_WRITE] (start si s))) := by
  have h' : ¬ acked (start si s) 0 := by rw [acked_start]; exact h
  unfold soft_i2c_write
  rw [soft_i2c_write_body_eq]
  unfold write_address_bytes
  rw [device_address_first_nack si _ _ _ h']

theorem soft_i2c_read_first_nack (si : soft_i2c) (address : Nat) (data : Option Int)
    (offset : Int) (size : Nat) (s : Bus) (h : ¬ acked s 0) :
    soft_i2c_read si address data offset size s =
      (0, stop si (sent si [first_address_byte si
        (if si.mode_of.has_dummy_write ≠ 0 then SOFT_I2C_WRITE else SOFT_I2C_READ)]
        (start si s))) := by
  have h' : ¬ acked (start si s) 0 := by rw [acked_start]; exact h
  unfold soft_i2c_read
  rw [soft_i2c_read_body_eq, dummy_write_eq]
  by_cases hd : si.mode_of.has_dummy_write ≠ 0
  · rw [if_pos hd, if_pos hd]
    unfold write_address_bytes
    rw [device_address_first_nack si _ _ _ h']
  · rw [if_neg hd, if_neg hd]
    have := device_address_first_nack si SOFT_I2C_READ [] _ h'
    rw [List.append_nil] at this
    dsimp only
    rw [this]

/-- C4. If the first byte of the transaction is not acknowledged, `soft_i2c_write`
and `soft_i2c_read` return 0, make no call but `start`, that one `write_byte` and
`stop`, perform after the byte only the four operations of the stop sequence, and
leave the memory as it was. -/
theorem nack_on_first_byte (si : soft_i2c) (address : Nat) (data : Option Int)
    (offset : Int) (size : Nat) (s : Bus) (h : s.slave s.nread % 256 ≠ 0) :
    ((soft_i2c_write si address data offset size s).1 = 0 ∧
      (soft_i2c_write si address data offset size s).2.calls =
        s.calls ++ [Call.start, Call.write_byte (first_address_byte si SOFT_I2C_WRITE),
          Call.stop] ∧
      (soft_i2c_write si address data offset size s).2.ops =
        s.ops ++ start_ops ++ write_byte_ops si (first_address_byte si SOFT_I2C_WRITE) si.x ++
          [Op.scl 0, Op.sda 0, Op.scl 1, Op.sda 1] ∧
      (soft_i2c_write si address data offset size s).2.mem = s.mem) ∧
    ((soft_i2c_read si address data offset size s).1 = 0 ∧
      (soft_i2c_read si address data offset size s).2.calls =
        s.calls ++ [Call.start, Call.write_byte (first_address_byte si
          (if si.mode_of.has_dummy_write ≠ 0 then SOFT_I2C_WRITE else SOFT_I2C_READ)),
          Call.stop] ∧
      (soft_i2c_read si address data offset size s).2.ops =
        s.ops ++ start_ops ++ write_byte_ops si (first_address_byte si
          (if si.mode_of.has_dummy_write ≠ 0 then SOFT_I2C_WRITE else SOFT_I2C_READ)) si.x ++
          [Op.scl 0, Op.sda 0, Op.scl 1, Op.sda 1] ∧
      (soft_i2c_read si address data offset size s).2.mem = s.mem) := by
  have h0 : ¬ acked s 0 := by simpa [acked] using h
  rw [soft_i2c_write_first_nack si address data offset size s h0,
    soft_i2c_read_first_nack si address data offset size s h0]
  simp [stop_eq, sent, start_eq, stop_ops]

theorem nack_on_first_byte_witness :
    (soft_i2c_write aht30_si 0xAC (some 0) 0 2 (bus_of [1] [0x33, 0x00])).1 = 0 ∧
    (soft_i2c_read aht30_si 0xAC (some 0) 0 7 (bus_of [1] [0x33, 0x00])).1 = 0 :=
  ⟨(nack_on_first_byte aht30_si 0xAC (some 0) 0 2 (bus_of [1] [0x33, 0x00]) (by decide)).1.1,
   (nack_on_first_byte aht30_si 0xAC (some 0) 0 7 (bus_of [1] [0x33, 0x00]) (by decide)).2.1⟩

/-- C9. With every address byte acknowledged, the calls `soft_i2c_read` makes
are: `start`; when dummy write is enabled the device-address frame with the write
direction, the register-address frame and `restart`; the device-address frame
with the read direction; then only `read_byte` calls and `stop`.  With dummy
write disabled no register-address byte is sent. -/
theorem read_framing (si : soft_i2c) (address : Nat) (data : Option Int)
    (offset : Int) (size : Nat) (s : Bus)
    (hack : ∀ k, k < read_address_count si → acked s k) :
    (si.mode_of.has_dummy_write ≠ 0 →
      (soft_i2c_read si address data offset size s).2.calls =
        s.calls ++ [Call.start] ++
          (u8s (device_address_frame si SOFT_I2C_WRITE)).map Call.write_byte ++
          (u8s (register_address_frame si address)).map Call.write_byte ++
          [Call.restart] ++
          (u8s (device_address_frame si SOFT_I2C_READ)).map Call.write_byte ++
          (read_data_acks si data size).map Call.read_byte ++ [Call.stop]) ∧
    (si.mode_of.has_dummy_write = 0 →
      (soft_i2c_read si address data offset size s).2.calls =
        s.calls ++ [Call.start] ++
          (u8s (device_address_frame si SOFT_I2C_READ)).map Call.write_byte ++
          (read_data_acks si data size).map Call.read_byte ++ [Call.stop] ∧
      sent_bytes ((soft_i2c_read si address data offset size s).2.calls.drop s.calls.length) =
        u8s (device_address_frame si SOFT_I2C_READ)) := by
  obtain ⟨_, hc, _⟩ := soft_i2c_read_acked si address data offset size s hack
  rw [hc, read_addressed_calls]
  constructor
  · intro hd
    rw [if_pos hd]
    simp
  · intro hd
    rw [if_neg (by simp [hd])]
    refine ⟨by simp, ?_⟩
    simp only [List.append_nil, List.append_assoc, List.drop_left]
    rw [sent_bytes_append, sent_bytes_append, sent_bytes_append, sent_bytes_write,
      sent_bytes_read]
    simp [sent_bytes]

theorem read_framing_witness :
    (soft_i2c_read dummy_si 0xAC (some 0) 0 1 (bus_of [0, 0, 0] [])).2.calls =
      [Call.start, Call.write_byte 0x70, Call.write_byte 0xAC, Call.restart,
       Call.write_byte 0x71, Call.read_byte 1, Call.stop] ∧
    (soft_i2c_read aht30_si 0xAC (some 0) 0 1 (bus_of [0] [])).2.calls =
      [Call.start, Call.write_byte 0x71, Call.read_byte 1, Call.stop] := by
  have h1 := (read_framing dummy_si 0xAC (some 0) 0 1 (bus_of [0, 0, 0] []) (by decide)).1
    (by decide)
  have h2 := (read_framing aht30_si 0xAC (some 0) 0 1 (bus_of [0] []) (by decide)).2 (by decide)
  rw [h1, h2.1]
  decide

theorem dummy_si_init :
    soft_i2c_init (some zero_si) (some { sda := some 1, scl := some 2 }) 100000 0x38
      none (some 3) (some 4) = (0, some dummy_si) := by
  decide

theorem byte_len_pos (size : Nat) (h : 1 ≤ size ∧ size ≤ 32) : 1 ≤ byte_len size := by
  unfold byte_len
  split <;> omega

/-- C10. In a `soft_i2c_read` of `n ≥ 1` elements whose addressing is acknowledged
and whose buffer is non-null, `read_byte` is called with acknowledge for every
byte but the last byte of the last element and with not-acknowledge for that
one; `read_byte` drives the data line low for acknowledge and high for
not-acknowledge after the eight samples; exactly one not-acknowledge is sent. -/
theorem read_ack_policy (si : soft_i2c) (address : Nat) (data : Int) (offset : Int)
    (n : Nat) (s : Bus) (hn : 1 ≤ n) (hsize : 1 ≤ si.data_size ∧ si.data_size ≤ 32)
    (hack : ∀ k, k < read_address_count si → acked s k) :
    read_byte_acks ((soft_i2c_read si address (some data) offset n s).2.calls.drop
        s.calls.length) =
      List.replicate (n * byte_len si.data_size - 1) SOFT_I2C_ACK ++ [SOFT_I2C_NACK] ∧
    (soft_i2c_read si address (some data) offset n s).2.ops =
      s.ops ++ read_address_ops si address ++
        (List.replicate (n * byte_len si.data_size - 1) SOFT_I2C_ACK ++ [SOFT_I2C_NACK]).flatMap
          (fun a => read_byte_ops a si.x) ++
        [Op.scl 0, Op.sda 0, Op.scl 1, Op.sda 1] ∧
    (read_byte_ops SOFT_I2C_ACK si.x).get? 41 = some (Op.sda 0) ∧
    (read_byte_ops SOFT_I2C_NACK si.x).get? 41 = some (Op.sda 1) ∧
    (read_byte_acks ((soft_i2c_read si address (some data) offset n s).2.calls.drop
        s.calls.length)).count SOFT_I2C_NACK = 1 := by
  obtain ⟨_, hc, ho⟩ := soft_i2c_read_acked si address (some data) offset n s hack
  have hacks : read_data_acks si (some data) n =
      List.replicate (n * byte_len si.data_size - 1) SOFT_I2C_ACK ++ [SOFT_I2C_NACK] :=
    read_acks_all _ _ hn (byte_len_pos _ hsize)
  have h1 : read_byte_acks ((soft_i2c_read si address (some data) offset n s).2.calls.drop
      s.calls.length) =
      List.replicate (n * byte_len si.data_size - 1) SOFT_I2C_ACK ++ [SOFT_I2C_NACK] := by
    rw [hc, read_addressed_calls, hacks]
    simp only [List.append_assoc, List.drop_left]
    simp only [read_byte_acks_append, read_byte_acks_write, read_byte_acks_read]
    by_cases hd : si.mode_of.has_dummy_write ≠ 0
    · rw [if_pos hd]
      simp only [read_byte_acks_append, read_byte_acks_write]
      simp [read_byte_acks]
    · rw [if_neg hd]
      simp [read_byte_acks]
  refine ⟨h1, ?_, by simp [read_byte_ops, range_eight], by simp [read_byte_ops, range_eight], ?_⟩
  · rw [ho, read_addressed_ops, hacks]
    simp [read_address_ops, stop_ops]
  · rw [h1, List.count_append, List.count_replicate]
    simp

theorem read_ack_policy_witness :
    read_byte_acks ((soft_i2c_read aht30_si 0xAC (some 0) 0 7 (bus_of [0] [])).2.calls.drop 0) =
      [0, 0, 0, 0, 0, 0, 1] :=
  (read_ack_policy aht30_si 0xAC 0 0 7 (bus_of [0] []) (by decide) (by decide) (by decide)).1

theorem send_all_calls_ext (si : soft_i2c) (bs : List Nat) (s : Bus) :
    ∃ l : List Nat, (send_all si bs s).2.calls = s.calls ++ l.map Call.write_byte := by
  induction bs generalizing s with
  | nil => exact ⟨[], by simp [send_all]⟩
  | cons b bs ih =>
    rw [send_all, write_byte_acked_eq]
    by_cases h0 : acked s 0
    · simp only [h0, decide_True]
      obtain ⟨l, hl⟩ := ih (sent si [b % 256] s)
      exact ⟨(b % 256) :: l, by rw [hl]; simp [sent]⟩
    · exact ⟨[b % 256], by simp [h0, sent]⟩

theorem write_data_calls_ext (si : soft_i2c) (data : Int) (k n count : Nat) (s : Bus) :
    ∃ l : List Nat, (write_data si data (byte_len si.data_size) k n count s).2.calls =
      s.calls ++ l.map Call.write_byte := by
  induction k generalizing n count s with
  | zero => exact ⟨[], by simp [write_data]⟩
  | succ k ih =>
    rw [write_data, write_element_eq]
    obtain ⟨l1, h1⟩ := send_all_calls_ext si
      (element_bytes si s.mem (data + (n : Int) * (stride (byte_len si.data_size) : Int))) s
    rcases hs : send_all si
      (element_bytes si s.mem (data + (n : Int) * (stride (byte_len si.data_size) : Int))) s
      with ⟨ok, t⟩
    rw [hs] at h1
    cases ok
    · exact ⟨l1, h1⟩
    · obtain ⟨l2, h2⟩ := ih (n + 1) (count + 1) t
      refine ⟨l1 ++ l2, ?_⟩
      simp only at h1 ⊢
      rw [h2, h1]
      simp

/-- The calls of `soft_i2c_write` when every address byte is acknowledged. -/
theorem soft_i2c_write_acked_calls (si : soft_i2c) (address : Nat) (data : Option Int)
    (offset : Int) (size : Nat) (s : Bus)
    (hack : ∀ k, k < write_address_count si → acked s k) :
    ∃ l : List Nat, (soft_i2c_write si address data offset size s).2.calls =
      s.calls ++ [Call.start] ++
        (u8s (device_address_frame si SOFT_I2C_WRITE)).map Call.write_byte ++
        (u8s (register_address_frame si address)).map Call.write_byte ++
        l.map Call.write_byte ++ [Call.stop] := by
  have hlen : (write_address_bytes si address).length = write_address_count si := by
    rw [write_address_bytes_length]; rfl
  have h1 : ∀ k, k < (write_address_bytes si address).length → acked (start si s) k := by
    intro k hk; rw [acked_start]; exact hack k (by omega)
  simp only [soft_i2c_write, soft_i2c_write_body_eq, stop_eq]
  rw [send_all_acked si _ _ h1]
  cases data with
  | none =>
    exact ⟨[], by simp [sent, start_eq, write_address_bytes, u8s]⟩
  | some d =>
    obtain ⟨l, hl⟩ := write_data_calls_ext si
      (d + offset * (stride (byte_len si.data_size) : Int)) size 0 0
      (sent si (u8s (write_address_bytes si address)) (start si s))
    refine ⟨l, ?_⟩
    simp only
    rw [hl]
    simp [sent, start_eq, write_address_bytes, u8s]

theorem device_address_frame_init (e : soft_i2c) (o : soft_i2c_pin_ops)
    (speed xSB m_endian sr_endian sd_endian has_dummy_write : Nat)
    (a d_addr_size r_addr_size data_size : Nat)
    (delay_ns delay_us delay_ms : Option Nat) (d : Nat) (hd : d ≤ 1)
    (hw : d_addr_size = 7 ∨ d_addr_size = 10)
    (ha7 : d_addr_size = 7 → a ≤ 127) (ha10 : d_addr_size = 10 → a ≤ 1023) :
    u8s (device_address_frame (resolve_delay (assign_fields e o speed xSB m_endian sr_endian
      sd_endian has_dummy_write a d_addr_size r_addr_size data_size delay_ns delay_us
      delay_ms)) d) = spec_device_address_frame d_addr_size a d := by
  obtain ⟨_, h2, h3, _, _⟩ := resolve_delay_fields (assign_fields e o speed xSB m_endian
    sr_endian sd_endian has_dummy_write a d_addr_size r_addr_size data_size delay_ns delay_us
    delay_ms)
  unfold device_address_frame spec_device_address_frame u8s
  rw [h2, h3]
  simp only [assign_fields]
  rcases hw with h7 | h10
  · subst h7
    simp only [if_true, List.map_cons, List.map_nil]
    rw [and_7F a (ha7 rfl), frame7_mod a d (ha7 rfl) hd]
  · subst h10
    have : ¬ (10 : Nat) = SOFT_I2C_DEVICE_ADDRESS_SIZE_7 := by decide
    have h107 : ¬ (10 : Nat) = 7 := by decide
    simp only [this, h107, if_false, List.map_cons, List.map_nil]
    rw [and_3FF a (ha10 rfl), frame10_mod a d (ha10 rfl) hd, and_FF_mod]

/-- C3. For an engine initialised by `soft_i2c_init_ex` with device address `a`
in the range of its width, the bytes handed to `write_byte` for the
device-address frame by `soft_i2c_write` and `soft_i2c_read` are `(a << 1) | d`
for 7-bit addressing and `0xF0 | ((a >> 8) << 1) | d`, `a & 0xFF` for 10-bit
addressing, with `d = 0` for the write direction and `d = 1` for the read
direction (address bytes acknowledged). -/
theorem device_address_frame_bytes (si0 : Option soft_i2c) (ops : Option soft_i2c_pin_ops)
    (speed xSB m_endian sr_endian sd_endian has_dummy_write : Nat)
    (a d_addr_size r_addr_size data_size : Nat)
    (delay_ns delay_us delay_ms : Option Nat) (si : soft_i2c)
    (address : Nat) (data : Option Int) (offset : Int) (size : Nat) (s : Bus)
    (hinit : soft_i2c_init_ex si0 ops speed xSB m_endian sr_endian sd_endian has_dummy_write
      a d_addr_size r_addr_size data_size delay_ns delay_us delay_ms = (0, some si))
    (ha7 : d_addr_size = 7 → a ≤ 127) (ha10 : d_addr_size = 10 → a ≤ 1023)
    (hw : ∀ k, k < write_address_count si → acked s k)
    (hr : ∀ k, k < read_address_count si → acked s k) :
    (∃ rest, (soft_i2c_write si address data offset size s).2.calls =
      s.calls ++ [Call.start] ++
        (spec_device_address_frame d_addr_size a SOFT_I2C_WRITE).map Call.write_byte ++ rest) ∧
    (soft_i2c_read si address data offset size s).2.calls =
      s.calls ++ [Call.start] ++
        (if has_dummy_write ≠ 0 then
          (spec_device_address_frame d_addr_size a SOFT_I2C_WRITE).map Call.write_byte ++
          (u8s (register_address_frame si address)).map Call.write_byte ++ [Call.restart]
        else []) ++
        (spec_device_address_frame d_addr_size a SOFT_I2C_READ).map Call.write_byte ++
        (read_data_acks si data size).map Call.read_byte ++ [Call.stop] := by
  obtain ⟨⟨_, _, _, hdw, hdev, _, _, _⟩, e, o, _, _, hsi⟩ := init_ex_success si0 ops speed xSB
    m_endian sr_endian sd_endian has_dummy_write a d_addr_size r_addr_size data_size
    delay_ns delay_us delay_ms si hinit
  have hfW : u8s (device_address_frame si SOFT_I2C_WRITE) =
      spec_device_address_frame d_addr_size a SOFT_I2C_WRITE := by
    rw [hsi]
    exact device_address_frame_init e o speed xSB m_endian sr_endian sd_endian has_dummy_write
      a d_addr_size r_addr_size data_size delay_ns delay_us delay_ms SOFT_I2C_WRITE
      (by decide) hdev ha7 ha10
  have hfR : u8s (device_address_frame si SOFT_I2C_READ) =
      spec_device_address_frame d_addr_size a SOFT_I2C_READ := by
    rw [hsi]
    exact device_address_frame_init e o speed xSB m_endian sr_endian sd_endian has_dummy_write
      a d_addr_size r_addr_size data_size delay_ns delay_us delay_ms SOFT_I2C_READ
      (by decide) hdev ha7 ha10
  have hdum : si.mode_of.has_dummy_write = has_dummy_write := by
    rw [hsi, (resolve_delay_fields _).1]
    simp only [assign_fields]
    unfold zero_or_one at hdw
    omega
  constructor
  · obtain ⟨l, hl⟩ := soft_i2c_write_acked_calls si address data offset size s hw
    rw [hfW] at hl
    refine ⟨(u8s (register_address_frame si address)).map Call.write_byte ++
        l.map Call.write_byte ++ [Call.stop], ?_⟩
    rw [hl]
    simp
  · obtain ⟨_, hc, _⟩ := soft_i2c_read_acked si address data offset size s hr
    rw [hc, read_addressed_calls, hfW, hfR, hdum]


set_option maxRecDepth 100000 in
theorem assemble_msb : ∀ b, b < 256 →
    (List.range 8).foldl (fun data k =>
      (((data <<< 1) % 256) ||| (((b >>> (7 - k)) &&& 1) % 256)) % 256) 0 = b := by
  decide

set_option maxRecDepth 100000 in
theorem assemble_lsb : ∀ b, b < 256 →
    (List.range 8).foldl (fun data k =>
      (((data >>> 1) % 256) ||| ((((b >>> k) &&& 1) % 256) <<< 7)) % 256) 0 = b := by
  decide

/-- The byte `read_byte` assembles from the wire bits of a byte is that byte. -/
theorem read_value_wire_bit (si : soft_i2c) (b : Nat) (hb : b < 256) (f : Nat → Nat)
    (hf : ∀ j, j < 8 → f j = wire_bit si b j % 256) : read_value si f = b := by
  unfold read_value
  have e : ∀ (g h : Nat → Nat → Nat), (∀ d k, k < 8 → g d k = h d k) →
      (List.range 8).foldl g 0 = (List.range 8).foldl h 0 := by
    intro g h hgh
    simp only [range_eight, List.foldl]
    rw [hgh _ 0 (by omega), hgh _ 1 (by omega), hgh _ 2 (by omega), hgh _ 3 (by omega),
      hgh _ 4 (by omega), hgh _ 5 (by omega), hgh _ 6 (by omega), hgh _ 7 (by omega)]
  by_cases h : si.mode_of.xSB = SOFT_I2C_MSB
  · refine Eq.trans ?_ (assemble_msb b hb)
    apply e
    intro d k hk
    rw [if_pos h, hf k hk]
    unfold wire_bit
    rw [if_pos h]
  · refine Eq.trans ?_ (assemble_lsb b hb)
    apply e
    intro d k hk
    rw [if_neg h, hf k hk]
    unfold wire_bit
    rw [if_neg h]

theorem read_index_one (si : soft_i2c) : read_index si 1 0 = 0 := by
  unfold read_index
  split_ifs <;> first | rfl | omega

theorem read_data_mem_one (si : soft_i2c) (data : Int) (size k n count : Nat) (s : Bus) :
    (∀ m, m < k → (read_data si data 1 size k n count s).2.mem (data + ((n + m : Nat) : Int)) =
      read_value si (fun j => s.slave (s.nread + 8 * m + j) % 256)) ∧
    (∀ a : Int, (∀ m, m < k → a ≠ data + ((n + m : Nat) : Int)) →
      (read_data si data 1 size k n count s).2.mem a = s.mem a) := by
  induction k generalizing n count s with
  | zero =>
    exact ⟨fun m hm => absurd hm (by omega), fun a _ => by simp [read_data]⟩
  | succ k ih =>
    rw [read_data]
    have hst : ((stride 1 : Nat) : Int) = 1 := by decide
    simp only [read_element, read_data_byte_eq, read_index_one, hst, mul_one, add_zero]
    obtain ⟨ih1, ih2⟩ := ih (n + 1) (count + 1)
      { s with nread := s.nread + 8,
               ops := s.ops ++ read_byte_ops (read_ack 1 size n 0) si.x,
               calls := s.calls ++ [Call.read_byte (read_ack 1 size n 0)],
               mem := Function.update s.mem (data + (n : Int))
                 (read_value si (fun k => s.slave (s.nread + k) % 256)) }
    constructor
    · intro m hm
      cases m with
      | zero =>
        rw [ih2]
        · simp
        · intro m' _
          push_cast
          omega
      | succ m =>
        have := ih1 m (by omega)
        have e1 : ((n + 1 + m : Nat) : Int) = ((n + (m + 1) : Nat) : Int) := by
          push_cast; omega
        rw [e1] at this
        rw [this]
        congr 1
        funext j
        simp only
        congr 2
        omega
    · intro a ha
      rw [ih2]
      · have h0 := ha 0 (by omega)
        simp only [Nat.add_zero] at h0
        simp [Function.update_noteq h0]
      · intro m hm
        have := ha (m + 1) (by omega)
        have e1 : ((n + 1 + m : Nat) : Int) = ((n + (m + 1) : Nat) : Int) := by
          push_cast; omega
        rw [e1]
        exact this

theorem read_addressed_nread (si : soft_i2c) (address : Nat) (s : Bus) :
    (read_addressed si address s).nread = s.nread + read_address_count si ∧
    (read_addressed si address s).slave = s.slave := by
  have hlen : (write_address_bytes si address).length = write_address_count si := by
    rw [write_address_bytes_length]; rfl
  unfold read_addressed read_address_count
  by_cases hd : si.mode_of.has_dummy_write ≠ 0
  · rw [if_pos hd, if_pos hd]
    simp only [sent, start_eq, restart_eq, u8s_length, hlen, device_address_frame_length]
    exact ⟨by omega, trivial⟩
  · rw [if_neg hd, if_neg hd]
    simp only [sent, start_eq, u8s_length, device_address_frame_length]
    exact ⟨by omega, trivial⟩

/-- C2. With an 8-bit data width, if the slave acknowledges every address byte and
then presents the bytes `b 0 .. b (n - 1)` bit by bit in the configured bit
order, `soft_i2c_read` with offset 0 and count `n` returns `n` and leaves byte
`b k` at position `k` of the buffer, for every `k < n`. -/
theorem read_delivers_bytes (si : soft_i2c) (address : Nat) (data : Int) (n : Nat) (s : Bus)
    (b : Nat → Nat) (hsize : si.data_size = 8)
    (hb : ∀ k, k < n → b k < 256)
    (hack : ∀ k, k < read_address_count si → acked s k)
    (hbits : ∀ k, k < n → ∀ j, j < 8 →
      s.slave (s.nread + read_address_count si + 8 * k + j) = wire_bit si (b k) j) :
    (soft_i2c_read si address (some data) 0 n s).1 = n ∧
    ∀ k, k < n → (soft_i2c_read si address (some data) 0 n s).2.mem (data + (k : Int)) = b k := by
  have hL : byte_len si.data_size = 1 := by rw [hsize]; decide
  obtain ⟨h1, _, _⟩ := soft_i2c_read_acked si address (some data) 0 n s hack
  refine ⟨by simpa using h1, ?_⟩
  intro k hk
  simp only [soft_i2c_read, soft_i2c_read_body_acked si address (some data) 0 n s hack, stop_eq,
    hL]
  obtain ⟨hm, _⟩ := read_data_mem_one si (data + 0 * ((stride 1 : Nat) : Int)) n n 0 0
    (read_addressed si address s)
  have := hm k hk
  simp only [Nat.zero_add, zero_mul, add_zero] at this ⊢
  rw [this]
  obtain ⟨hn, hs⟩ := read_addressed_nread si address s
  apply read_value_wire_bit si (b k) (hb k hk)
  intro j hj
  rw [hn, hs, hbits k hk j hj]

theorem three_byte_si_init :
    (soft_i2c_init_ex (some zero_si) (some { sda := some 1, scl := some 2 }) 100000 SOFT_I2C_MSB
      SOFT_I2C_LITTLE_ENDIAN SOFT_I2C_LITTLE_ENDIAN SOFT_I2C_BIG_ENDIAN 0
      0x38 SOFT_I2C_DEVICE_ADDRESS_SIZE_7 8 24 none (some 3) (some 4)) =
      (0, some three_byte_si) := by
  decide

set_option maxRecDepth 100000 in
theorem read_delivers_bytes_witness :
    (soft_i2c_read aht30_si 0xAC (some 0) 0 7
      (bus_of (presenting aht30_si 1 aht30_bytes) [0x33, 0x00])).1 = 7 ∧
    ∀ k : Nat, k < 7 → (soft_i2c_read aht30_si 0xAC (some 0) 0 7
      (bus_of (presenting aht30_si 1 aht30_bytes) [0x33, 0x00])).2.mem (0 + (k : Int)) =
        aht30_bytes.getD k 0 :=
  read_delivers_bytes aht30_si 0xAC 0 7 (bus_of (presenting aht30_si 1 aht30_bytes) [0x33, 0x00])
    (fun k => aht30_bytes.getD k 0) (by decide) (by decide) (by decide) (by decide)

/-- The store index of `soft_i2c_read` equals the fetch index of `soft_i2c_write`
except for 3-byte elements with a little-endian master and big-endian slave data. -/
theorem read_index_eq_write_index (si : soft_i2c) (data_len i : Nat)
    (h : ¬ (data_len = 3 ∧ si.mode_of.m_endian = SOFT_I2C_LITTLE_ENDIAN ∧
      si.mode_of.sd_endian ≠ SOFT_I2C_LITTLE_ENDIAN)) :
    read_index si data_len i = write_index si data_len i := by
  unfold read_index write_index
  split_ifs <;> first | rfl | omega

/-- C1 at the failing input. With 24-bit data, a little-endian master and
big-endian slave data, `soft_i2c_write` sends the bytes at positions 2, 1, 0 of the
buffer `11 22 33 44`, all acknowledged, and returns 1; `soft_i2c_read` against the
slave echoing those three bytes returns 1 but stores them at positions 3, 2, 1:
positions 1 and 2 no longer hold the original payload bytes. -/
theorem round_trip_three_bytes_little_big :
    three_byte_written.1 = 1 ∧
    sent_bytes three_byte_written.2.calls = [0x70, 0xAC, 0x33, 0x22, 0x11] ∧
    (List.range 4).map (fun k => three_byte_written.2.mem k) = [0x11, 0x22, 0x33, 0x44] ∧
    three_byte_read_back.1 = 1 ∧
    (List.range 4).map (fun k => three_byte_read_back.2.mem k) = [0x11, 0x11, 0x22, 0x33] ∧
    three_byte_read_back.2.mem 1 ≠ three_byte_written.2.mem 1 ∧
    three_byte_read_back.2.mem 2 ≠ three_byte_written.2.mem 2 := by
  decide

theorem ten_bit_si_init :
    (soft_i2c_init_ex (some zero_si) (some { sda := some 1, scl := some 2 }) 100000 SOFT_I2C_MSB
      SOFT_I2C_LITTLE_ENDIAN SOFT_I2C_LITTLE_ENDIAN SOFT_I2C_LITTLE_ENDIAN 0
      0x2A5 SOFT_I2C_DEVICE_ADDRESS_SIZE_10 16 8 none (some 3) (some 4)) =
      (0, some ten_bit_si) := by
  decide

theorem device_address_frame_bytes_witness :
    (soft_i2c_read dummy_si 0xAC (some 0) 0 1 (bus_of [0, 0, 0] [])).2.calls =
      [Call.start, Call.write_byte 0x70, Call.write_byte 0xAC, Call.restart,
       Call.write_byte 0x71, Call.read_byte 1, Call.stop] ∧
    (soft_i2c_read ten_bit_si 0xAC (some 0) 0 1 (bus_of [0, 0, 0, 0] [])).2.calls =
      [Call.start, Call.write_byte 0xF5, Call.write_byte 0xA5, Call.read_byte 1,
       Call.stop] := by
  have h1 := (device_address_frame_bytes (some zero_si) (some { sda := some 1, scl := some 2 })
    100000 0 0 0 0 1 0x38 7 8 8 none (some 3) (some 4) dummy_si 0xAC (some 0) 0 1
    (bus_of [0, 0, 0] []) (by decide) (by decide) (by decide) (by decide) (by decide)).2
  have h2 := (device_address_frame_bytes (some zero_si) (some { sda := some 1, scl := some 2 })
    100000 0 0 0 0 0 0x2A5 10 16 8 none (some 3) (some 4) ten_bit_si 0xAC (some 0) 0 1
    (bus_of [0, 0, 0, 0] []) (by decide) (by decide) (by decide) (by decide) (by decide)).2
  rw [h1, h2]
  decide

theorem write_data_bytes_length (si : soft_i2c) (mem : Int → Nat) (data : Int) (n k : Nat) :
    (write_data_bytes si mem data n k).length = k * byte_len si.data_size := by
  induction k generalizing n with
  | zero => simp [write_data_bytes]
  | succ k ih =>
    have e : write_data_bytes si mem data n (k + 1) =
        element_bytes si mem (data + (n : Int) * (stride (byte_len si.data_size) : Int)) ++
          write_data_bytes si mem data (n + 1) k := by
      simp [write_data_bytes, List.range'_succ]
    rw [e, List.length_append, ih, element_bytes_length, Nat.succ_mul]
    omega

theorem u8s_append (a b : List Nat) : u8s (a ++ b) = u8s a ++ u8s b := by
  simp [u8s]

theorem sent_mem (si : soft_i2c) (bs : List Nat) (s : Bus) : (sent si bs s).mem = s.mem := rfl

/-- The data loop of `soft_i2c_write` when every byte is acknowledged. -/
theorem write_data_acked (si : soft_i2c) (data : Int) (k n count : Nat) (s : Bus)
    (hack : ∀ j, j < k * byte_len si.data_size → acked s j) :
    write_data si data (byte_len si.data_size) k n count s =
      (count + k, sent si (u8s (write_data_bytes si s.mem data n k)) s) := by
  induction k generalizing n count s with
  | zero => simp [write_data, write_data_bytes, u8s, sent_nil]
  | succ k ih =>
    have e : write_data_bytes si s.mem data n (k + 1) =
        element_bytes si s.mem (data + (n : Int) * (stride (byte_len si.data_size) : Int)) ++
          write_data_bytes si s.mem data (n + 1) k := by
      simp [write_data_bytes, List.range'_succ]
    have h1 : ∀ j, j < (element_bytes si s.mem
        (data + (n : Int) * (stride (byte_len si.data_size) : Int))).length → acked s j := by
      intro j hj
      rw [element_bytes_length] at hj
      exact hack j (by rw [Nat.succ_mul]; omega)
    rw [write_data, write_element_eq, send_all_acked si _ _ h1]
    dsimp only
    rw [ih]
    · rw [e, u8s_append, sent_append, sent_mem]
      congr 1
      omega
    · intro j hj
      rw [acked_sent, u8s_length, element_bytes_length]
      exact hack _ (by rw [Nat.succ_mul]; omega)

/-- The result of `soft_i2c_write` with a non-null buffer when every byte is
acknowledged. -/
theorem soft_i2c_write_acked (si : soft_i2c) (address : Nat) (data : Int)
    (offset : Int) (size : Nat) (s : Bus)
    (hack : ∀ k, k < write_address_count si + size * byte_len si.data_size → acked s k) :
    soft_i2c_write si address (some data) offset size s =
      (size, stop si (sent si
        (u8s (write_data_bytes si s.mem
          (data + offset * (stride (byte_len si.data_size) : Int)) 0 size))
        (sent si (u8s (write_address_bytes si address)) (start si s)))) := by
  have hlen : (write_address_bytes si address).length = write_address_count si := by
    rw [write_address_bytes_length]; rfl
  have h1 : ∀ k, k < (write_address_bytes si address).length → acked (start si s) k := by
    intro k hk; rw [acked_start]; exact hack k (by omega)
  have h2 : ∀ j, j < size * byte_len si.data_size →
      acked (sent si (u8s (write_address_bytes si address)) (start si s)) j := by
    intro j hj
    rw [acked_sent, u8s_length, hlen, acked_start]
    exact hack _ (by omega)
  simp only [soft_i2c_write, soft_i2c_write_body_eq]
  rw [send_all_acked si _ _ h1]
  dsimp only
  rw [write_data_acked si _ size 0 0 _ h2]
  simp [sent_mem, start_eq]

theorem byte_len_eq (w : Nat) (h : w ≤ 255) : byte_len w = (w + 7) / 8 := by
  unfold byte_len
  split <;> omega

theorem register_address_frame_spec (si : soft_i2c) (address : Nat)
    (hw : si.r_addr_size ≤ 255) :
    u8s (register_address_frame si address) =
      spec_register_address_frame si.r_addr_size si.mode_of.sr_endian address := by
  unfold register_address_frame spec_register_address_frame u8s
  rw [byte_len_eq _ hw, List.map_map]
  by_cases h : si.mode_of.sr_endian = SOFT_I2C_LITTLE_ENDIAN
  · simp only [h, if_true, List.range_eq_range']
    apply List.map_congr_left
    intro i _
    simp only [Function.comp, and_FF_mod, Nat.mul_comm]
  · simp only [h, if_false]
    rw [← List.map_reverse, List.range_eq_range', List.reverse_range', List.map_map,
      List.range_eq_range']
    apply List.map_congr_left
    intro i _
    simp only [Function.comp, and_FF_mod, Nat.mul_comm, Nat.zero_add]

/-- C11. For a register-address width `w` in [1, 32] and every byte acknowledged,
`soft_i2c_write` and the dummy-write phase of `soft_i2c_read` send, between the
device-address frame and what follows, exactly the `ceil(w / 8)` bytes of the
register-address frame: `(a >> 8i) & 0xFF` for `i = 0 .. L-1` with little
register-address endianness, and the reverse of that sequence with big. -/
theorem register_address_frame_bytes (si : soft_i2c) (address : Nat) (data : Int)
    (offset : Int) (size : Nat) (s : Bus)
    (hw : 1 ≤ si.r_addr_size ∧ si.r_addr_size ≤ 32)
    (hackw : ∀ k, k < write_address_count si + size * byte_len si.data_size → acked s k)
    (hackr : ∀ k, k < read_address_count si → acked s k) :
    (spec_register_address_frame si.r_addr_size si.mode_of.sr_endian address).length =
      (si.r_addr_size + 7) / 8 ∧
    (soft_i2c_write si address (some data) offset size s).2.calls =
      s.calls ++ [Call.start] ++
        (u8s (device_address_frame si SOFT_I2C_WRITE)).map Call.write_byte ++
        (spec_register_address_frame si.r_addr_size si.mode_of.sr_endian address).map
          Call.write_byte ++
        (u8s (write_data_bytes si s.mem
          (data + offset * (stride (byte_len si.data_size) : Int)) 0 size)).map
          Call.write_byte ++
        [Call.stop] ∧
    (si.mode_of.has_dummy_write ≠ 0 →
      (soft_i2c_read si address (some data) offset size s).2.calls =
        s.calls ++ [Call.start] ++
          (u8s (device_address_frame si SOFT_I2C_WRITE)).map Call.write_byte ++
          (spec_register_address_frame si.r_addr_size si.mode_of.sr_endian address).map
            Call.write_byte ++
          [Call.restart] ++
          (u8s (device_address_frame si SOFT_I2C_READ)).map Call.write_byte ++
          (read_data_acks si (some data) size).map Call.read_byte ++ [Call.stop]) := by
  have hspec := register_address_frame_spec si address (by omega)
  refine ⟨?_, ?_, ?_⟩
  · unfold spec_register_address_frame
    split <;> simp
  · rw [soft_i2c_write_acked si address data offset size s hackw, ← hspec]
    simp [stop_eq, sent, start_eq, write_address_bytes, u8s_append]
  · intro hd
    obtain ⟨_, hc, _⟩ := soft_i2c_read_acked si address (some data) offset size s hackr
    rw [hc, read_addressed_calls, if_pos hd, hspec]
    simp

theorem register_address_frame_bytes_witness :
    (soft_i2c_write big_register_si 0x123456 (some 0) 0 1
      (bus_of [0, 0, 0, 0, 0, 0, 0, 0] [0x33])).2.calls =
      [Call.start, Call.write_byte 0x70, Call.write_byte 0x12, Call.write_byte 0x34,
       Call.write_byte 0x56, Call.write_byte 0x33, Call.stop] := by
  have h := (register_address_frame_bytes big_register_si 0x123456 0 0 1
    (bus_of [0, 0, 0, 0, 0, 0, 0, 0] [0x33]) (by decide) (by decide) (by decide)).2.1
  rw [h]
  decide

/-- The timing block of `soft_i2c_init_ex` selects the delay function and the
delay value described by `selected` and `in_unit`. -/
theorem resolve_delay_timing (e : soft_i2c) :
    (resolve_delay e).delay =
      supplied (selected (1000000000 / e.mode_of.speed) e.delay_ns e.delay_us e.delay_ms)
        e.delay_ns e.delay_us e.delay_ms ∧
    (resolve_delay e).x =
      in_unit (selected (1000000000 / e.mode_of.speed) e.delay_ns e.delay_us e.delay_ms)
        (1000000000 / e.mode_of.speed) := by
  have hp : 1000000000 / e.mode_of.speed % 2 ^ 32 = 1000000000 / e.mode_of.speed := by
    apply Nat.mod_eq_of_lt
    have : 1000000000 / e.mode_of.speed ≤ 1000000000 := Nat.div_le_self _ _
    omega
  unfold resolve_delay selected preferred
  simp only [hp]
  generalize 1000000000 / e.mode_of.speed = p
  clear hp
  have h3 : p ≤ 999999 ↔ p < 1000000 := by omega
  rcases hns : e.delay_ns with _ | fns <;> rcases hus : e.delay_us with _ | fus <;>
    rcases hms : e.delay_ms with _ | fms <;>
    by_cases h1 : p < 1000 <;> by_cases h2 : p < 1000000 <;>
    simp [supplied, in_unit, h3, h1, h2, hns, hus, hms]

theorem init_ex_timing (si0 : Option soft_i2c) (ops : Option soft_i2c_pin_ops)
    (speed xSB m_endian sr_endian sd_endian has_dummy_write : Nat)
    (d_addr d_addr_size r_addr_size data_size : Nat)
    (delay_ns delay_us delay_ms : Option Nat) (si : soft_i2c)
    (hinit : soft_i2c_init_ex si0 ops speed xSB m_endian sr_endian sd_endian has_dummy_write
      d_addr d_addr_size r_addr_size data_size delay_ns delay_us delay_ms = (0, some si)) :
    (100 ≤ speed ∧ speed ≤ 400000) ∧
    (delay_ns ≠ none ∨ delay_us ≠ none ∨ delay_ms ≠ none) ∧
    si.delay = supplied (selected (1000000000 / speed) delay_ns delay_us delay_ms)
      delay_ns delay_us delay_ms ∧
    si.x = in_unit (selected (1000000000 / speed) delay_ns delay_us delay_ms)
      (1000000000 / speed) := by
  obtain ⟨⟨hsp, _, _, _, _, _, _, hdel⟩, e, o, _, _, hsi⟩ := init_ex_success si0 ops speed xSB
    m_endian sr_endian sd_endian has_dummy_write d_addr d_addr_size r_addr_size data_size
    delay_ns delay_us delay_ms si hinit
  unfold speed_ok at hsp
  have hmod : speed % 2 ^ 19 = speed := Nat.mod_eq_of_lt (by omega)
  have ht := resolve_delay_timing (assign_fields e o speed xSB m_endian sr_endian sd_endian
    has_dummy_write d_addr d_addr_size r_addr_size data_size delay_ns delay_us delay_ms)
  simp only [assign_fields, hmod] at ht
  rw [hsi]
  simp only [assign_fields, hmod]
  exact ⟨hsp, hdel, ht.1, ht.2⟩

/-- C13. After a successful `soft_i2c_init_ex`, with `period = 1000000000 / speed`,
the selected delay function is the one of the preferred granularity (ns below
1000, us from 1000 to 999999, ms above) when it was supplied and otherwise the
first supplied of ns, us, ms; the delay value is the period in the unit of the
selected function. -/
theorem timing_resolution (si0 : Option soft_i2c) (ops : Option soft_i2c_pin_ops)
    (speed xSB m_endian sr_endian sd_endian has_dummy_write : Nat)
    (d_addr d_addr_size r_addr_size data_size : Nat)
    (delay_ns delay_us delay_ms : Option Nat) (si : soft_i2c)
    (hinit : soft_i2c_init_ex si0 ops speed xSB m_endian sr_endian sd_endian has_dummy_write
      d_addr d_addr_size r_addr_size data_size delay_ns delay_us delay_ms = (0, some si)) :
    si.delay = supplied (selected (1000000000 / speed) delay_ns delay_us delay_ms)
      delay_ns delay_us delay_ms ∧
    si.x = in_unit (selected (1000000000 / speed) delay_ns delay_us delay_ms)
      (1000000000 / speed) :=
  (init_ex_timing si0 ops speed xSB m_endian sr_endian sd_endian has_dummy_write d_addr
    d_addr_size r_addr_size data_size delay_ns delay_us delay_ms si hinit).2.2

theorem timing_resolution_witness :
    aht30_si.delay = some 3 ∧ aht30_si.x = 10 := by
  have h := timing_resolution (some zero_si) (some { sda := some 1, scl := some 2 }) 100000
    SOFT_I2C_MSB SOFT_I2C_LITTLE_ENDIAN SOFT_I2C_LITTLE_ENDIAN SOFT_I2C_LITTLE_ENDIAN 0
    0x38 SOFT_I2C_DEVICE_ADDRESS_SIZE_7 8 8 none (some 3) (some 4) aht30_si (by decide)
  exact ⟨h.1.trans (by decide), h.2.trans (by decide)⟩

/-- C14 as stated fails: at 400000 Hz with only the millisecond delay function
supplied, `soft_i2c_init_ex` succeeds, selects that function and stores the delay
value 2500 / 1000000 = 0. -/
theorem zero_delay_ms_only :
    (soft_i2c_init_ex (some zero_si) (some { sda := some 1, scl := some 2 }) 400000
      SOFT_I2C_MSB SOFT_I2C_LITTLE_ENDIAN SOFT_I2C_LITTLE_ENDIAN SOFT_I2C_LITTLE_ENDIAN 0
      0x38 SOFT_I2C_DEVICE_ADDRESS_SIZE_7 8 8 none none (some 4)).1 = 0 ∧
    (soft_i2c_init_ex (some zero_si) (some { sda := some 1, scl := some 2 }) 400000
      SOFT_I2C_MSB SOFT_I2C_LITTLE_ENDIAN SOFT_I2C_LITTLE_ENDIAN SOFT_I2C_LITTLE_ENDIAN 0
      0x38 SOFT_I2C_DEVICE_ADDRESS_SIZE_7 8 8 none none (some 4)).2.map
        (fun e => (e.delay, e.x)) = some (some 4, 0) := by
  decide

/-- C14 amended. After a successful `soft_i2c_init_ex` the selected delay function
is non-null, and the delay value is zero exactly when neither the nanosecond nor
the microsecond function was supplied and the speed is above 1000 Hz. -/
theorem resolved_delay_meaningful (si0 : Option soft_i2c) (ops : Option soft_i2c_pin_ops)
    (speed xSB m_endian sr_endian sd_endian has_dummy_write : Nat)
    (d_addr d_addr_size r_addr_size data_size : Nat)
    (delay_ns delay_us delay_ms : Option Nat) (si : soft_i2c)
    (hinit : soft_i2c_init_ex si0 ops speed xSB m_endian sr_endian sd_endian has_dummy_write
      d_addr d_addr_size r_addr_size data_size delay_ns delay_us delay_ms = (0, some si)) :
    si.delay ≠ none ∧
    (si.x = 0 ↔ delay_ns = none ∧ delay_us = none ∧ 1000 < speed) := by
  obtain ⟨hsp, hdel, hd, hx⟩ := init_ex_timing si0 ops speed xSB m_endian sr_endian sd_endian
    has_dummy_write d_addr d_addr_size r_addr_size data_size delay_ns delay_us delay_ms si hinit
  have hp1 : 2500 ≤ 1000000000 / speed := by
    rw [Nat.le_div_iff_mul_le (by omega)]; omega
  have hp2 : 1000000000 / speed < 1000000 ↔ 1000 < speed := by
    rw [Nat.div_lt_iff_lt_mul (by omega)]; omega
  rw [hd, hx]
  generalize 1000000000 / speed = p at hp1 hp2
  have h3 : p ≤ 999999 ↔ p < 1000000 := by omega
  have h1 : ¬ p < 1000 := by omega
  unfold selected preferred
  rcases hns : delay_ns with _ | fns <;> rcases hus : delay_us with _ | fus <;>
    rcases hms : delay_ms with _ | fms <;>
    by_cases h2 : p < 1000000 <;>
    simp [supplied, in_unit, h3, h1, h2, hns, hus, hms] at hdel ⊢ <;> omega

theorem resolved_delay_meaningful_witness :
    aht30_si.delay ≠ none ∧ aht30_si.x ≠ 0 := by
  have h := resolved_delay_meaningful (some zero_si) (some { sda := some 1, scl := some 2 })
    100000 SOFT_I2C_MSB SOFT_I2C_LITTLE_ENDIAN SOFT_I2C_LITTLE_ENDIAN SOFT_I2C_LITTLE_ENDIAN 0
    0x38 SOFT_I2C_DEVICE_ADDRESS_SIZE_7 8 8 none (some 3) (some 4) aht30_si (by decide)
  exact ⟨h.1, fun hx => absurd (h.2.mp hx).2.1 (by decide)⟩

theorem getD_map_range (f : Nat → Nat) (n j : Nat) (h : j < n) :
    ((List.range n).map f).getD j 0 = f j := by
  rw [List.getD_eq_getElem?_getD, List.getElem?_map, List.getElem?_range h]
  rfl

theorem map_range_eight_reverse (f : Nat → Nat) :
    (List.range 8).map f = ((List.range 8).map (fun i => f (7 - i))).reverse := by
  rw [range_eight]
  rfl

theorem wire_bit_lt (si : soft_i2c) (v j : Nat) : wire_bit si v j % 256 = wire_bit si v j := by
  apply Nat.mod_eq_of_lt
  unfold wire_bit
  split <;> (rw [Nat.and_one_is_mod]; omega)

theorem notnot_and_one (a : Nat) : notnot (a &&& 1) = a &&& 1 := by
  unfold notnot
  rw [Nat.and_one_is_mod]
  split <;> omega

theorem write_byte_levels_eq (si : soft_i2c) (byte x : Nat) (s : Bus) :
    write_byte_levels si byte x s = (List.range 8).map (wire_bit si (byte % 256)) := by
  unfold write_byte_levels
  rw [write_byte_eq]
  simp only [List.drop_left]
  simp only [write_byte_ops, range_eight, List.flatMap_cons, List.flatMap_nil, sda_states,
    List.cons_append, List.nil_append, List.filterMap_cons, List.filterMap_nil, List.take,
    List.map_cons, List.map_nil, List.append_nil]
  unfold bit_level wire_bit
  by_cases h : si.mode_of.xSB = SOFT_I2C_MSB
  · simp only [h, if_true, notnot_and_one]
  · simp only [h, if_false, notnot_and_one]

/-- C15. For a byte value `v`, the eight levels `write_byte` drives LSB-first are
the reverse of the eight it drives MSB-first, which are bit 7 down to bit 0 of
`v`; and under either bit order `read_byte`, sampling the levels `write_byte`
drove under the same bit order, returns `v`. -/
theorem bit_order_reversal (sm sl : soft_i2c) (v x : Nat) (s t : Bus) (ack : Nat)
    (hm : sm.mode_of.xSB = SOFT_I2C_MSB) (hl : sl.mode_of.xSB = SOFT_I2C_LSB) (hv : v < 256) :
    write_byte_levels sm v x s = (List.range 8).map (fun i => (v >>> (7 - i)) &&& 1) ∧
    write_byte_levels sl v x s = (write_byte_levels sm v x s).reverse ∧
    ((∀ k, k < 8 → t.slave (t.nread + k) = (write_byte_levels sm v x s).getD k 0) →
      (read_byte sm ack x t).1 = v) ∧
    ((∀ k, k < 8 → t.slave (t.nread + k) = (write_byte_levels sl v x s).getD k 0) →
      (read_byte sl ack x t).1 = v) := by
  have hmod : v % 256 = v := Nat.mod_eq_of_lt hv
  have hlm : ¬ sl.mode_of.xSB = SOFT_I2C_MSB := by rw [hl]; decide
  have em : write_byte_levels sm v x s = (List.range 8).map (fun i => (v >>> (7 - i)) &&& 1) := by
    rw [write_byte_levels_eq, hmod]
    apply List.map_congr_left
    intro i _
    simp [wire_bit, hm]
  have el : write_byte_levels sl v x s = (List.range 8).map (fun i => (v >>> i) &&& 1) := by
    rw [write_byte_levels_eq, hmod]
    apply List.map_congr_left
    intro i _
    simp [wire_bit, hlm]
  refine ⟨em, ?_, ?_, ?_⟩
  · rw [el, em]
    exact map_range_eight_reverse (fun i => (v >>> i) &&& 1)
  · intro h
    rw [read_byte_eq]
    show read_value sm (fun k => t.slave (t.nread + k) % 256) = v
    refine read_value_wire_bit sm v hv _ ?_
    intro j hj
    show t.slave (t.nread + j) % 256 = _
    rw [h j hj, write_byte_levels_eq, hmod, getD_map_range _ _ _ hj, wire_bit_lt]
  · intro h
    rw [read_byte_eq]
    show read_value sl (fun k => t.slave (t.nread + k) % 256) = v
    refine read_value_wire_bit sl v hv _ ?_
    intro j hj
    show t.slave (t.nread + j) % 256 = _
    rw [h j hj, write_byte_levels_eq, hmod, getD_map_range _ _ _ hj, wire_bit_lt]

theorem bit_order_reversal_witness :
    write_byte_levels aht30_si 0xA5 10 (bus_of [] []) = [1, 0, 1, 0, 0, 1, 0, 1] ∧
    write_byte_levels lsb_si 0xA5 10 (bus_of [] []) = [1, 0, 1, 0, 0, 1, 0, 1].reverse ∧
    (read_byte lsb_si 0 10 (bus_of [1, 0, 1, 0, 0, 1, 0, 1] [])).1 = 0xA5 := by
  have h := bit_order_reversal aht30_si lsb_si 0xA5 10 (bus_of [] [])
    (bus_of [1, 0, 1, 0, 0, 1, 0, 1] []) 0 (by decide) (by decide) (by decide)
  refine ⟨h.1.trans (by decide), ?_, h.2.2.2 (by decide)⟩
  rw [h.2.1, h.1]
  decide

theorem ten_bit_first_byte (b d : Nat) (hb : b < 4) (hd : d < 2) :
    ((0xF0 ||| (b <<< 1)) ||| d) &&& 0xF0 = 0xF0 ∧
    ((0xF0 ||| (b <<< 1)) ||| d) &&& 1 = d ∧
    (((0xF0 ||| (b <<< 1)) ||| d) >>> 1) &&& 3 = b := by
  have : ∀ b, b < 4 → ∀ d, d < 2 →
      ((0xF0 ||| (b <<< 1)) ||| d) &&& 0xF0 = 0xF0 ∧
      ((0xF0 ||| (b <<< 1)) ||| d) &&& 1 = d ∧
      (((0xF0 ||| (b <<< 1)) ||| d) >>> 1) &&& 3 = b := by decide
  exact this b hb d hd

/-- C16 as stated fails: for the 10-bit device address 0x2A5 the first byte of the
read-direction frame handed to `write_byte` is 0xF5, whose bit 1 is 0, not the
direction bit 1. -/
theorem ten_bit_second_bit_not_direction :
    sent_bytes (soft_i2c_read ten_bit_si 0xAC (some 0) 0 1 (bus_of [0, 0] [])).2.calls =
      [0xF5, 0xA5] ∧
    ((sent_bytes (soft_i2c_read ten_bit_si 0xAC (some 0) 0 1
      (bus_of [0, 0] [])).2.calls).headD 0 >>> 1) &&& 1 ≠ SOFT_I2C_READ := by
  decide

/-- C16 amended. For an engine initialised with a 10-bit device address
`a ≤ 1023`, the two bytes of each device-address frame handed to `write_byte`
(address bytes acknowledged) are a first byte whose top nibble is 0xF, whose
bit 0 is the direction bit and whose bits 2..1 are the address bits 9..8, and
the second byte `a & 0xFF`. -/
theorem ten_bit_frame_shape (si0 : Option soft_i2c) (ops : Option soft_i2c_pin_ops)
    (speed xSB m_endian sr_endian sd_endian has_dummy_write : Nat)
    (a r_addr_size data_size : Nat)
    (delay_ns delay_us delay_ms : Option Nat) (si : soft_i2c)
    (address : Nat) (data : Option Int) (offset : Int) (size : Nat) (s : Bus)
    (hinit : soft_i2c_init_ex si0 ops speed xSB m_endian sr_endian sd_endian has_dummy_write
      a 10 r_addr_size data_size delay_ns delay_us delay_ms = (0, some si))
    (ha : a ≤ 1023)
    (hw : ∀ k, k < write_address_count si → acked s k)
    (hr : ∀ k, k < read_address_count si → acked s k) :
    ∃ fw fr : Nat,
      (fw &&& 0xF0 = 0xF0 ∧ fw &&& 1 = SOFT_I2C_WRITE ∧ (fw >>> 1) &&& 3 = a >>> 8) ∧
      (fr &&& 0xF0 = 0xF0 ∧ fr &&& 1 = SOFT_I2C_READ ∧ (fr >>> 1) &&& 3 = a >>> 8) ∧
      (∃ rest, (soft_i2c_write si address data offset size s).2.calls =
        s.calls ++ [Call.start, Call.write_byte fw, Call.write_byte (a &&& 0xFF)] ++ rest) ∧
      (soft_i2c_read si address data offset size s).2.calls =
        s.calls ++ [Call.start] ++
          (if has_dummy_write ≠ 0 then
            [Call.write_byte fw, Call.write_byte (a &&& 0xFF)] ++
            (u8s (register_address_frame si address)).map Call.write_byte ++ [Call.restart]
          else []) ++
          [Call.write_byte fr, Call.write_byte (a &&& 0xFF)] ++
          (read_data_acks si data size).map Call.read_byte ++ [Call.stop] := by
  obtain ⟨⟨_, _, _, hdw, hdev, _, _, _⟩, e, o, _, _, hsi⟩ := init_ex_success si0 ops speed xSB
    m_endian sr_endian sd_endian has_dummy_write a 10 r_addr_size data_size
    delay_ns delay_us delay_ms si hinit
  have hb : a >>> 8 < 4 := by
    rw [Nat.shiftRight_eq_div_pow]; omega
  have hfW : u8s (device_address_frame si SOFT_I2C_WRITE) =
      [(0xF0 ||| ((a >>> 8) <<< 1)) ||| SOFT_I2C_WRITE, a &&& 0xFF] := by
    rw [hsi]
    exact device_address_frame_init e o speed xSB m_endian sr_endian sd_endian has_dummy_write
      a 10 r_addr_size data_size delay_ns delay_us delay_ms SOFT_I2C_WRITE
      (by decide) hdev (by omega) (fun _ => ha)
  have hfR : u8s (device_address_frame si SOFT_I2C_READ) =
      [(0xF0 ||| ((a >>> 8) <<< 1)) ||| SOFT_I2C_READ, a &&& 0xFF] := by
    rw [hsi]
    exact device_address_frame_init e o speed xSB m_endian sr_endian sd_endian has_dummy_write
      a 10 r_addr_size data_size delay_ns delay_us delay_ms SOFT_I2C_READ
      (by decide) hdev (by omega) (fun _ => ha)
  have hdum : si.mode_of.has_dummy_write = has_dummy_write := by
    rw [hsi, (resolve_delay_fields _).1]
    simp only [assign_fields]
    unfold zero_or_one at hdw
    omega
  refine ⟨(0xF0 ||| ((a >>> 8) <<< 1)) ||| SOFT_I2C_WRITE,
    (0xF0 ||| ((a >>> 8) <<< 1)) ||| SOFT_I2C_READ,
    ten_bit_first_byte (a >>> 8) SOFT_I2C_WRITE hb (by decide),
    ten_bit_first_byte (a >>> 8) SOFT_I2C_READ hb (by decide), ?_, ?_⟩
  · obtain ⟨l, hl⟩ := soft_i2c_write_acked_calls si address data offset size s hw
    rw [hfW] at hl
    refine ⟨(u8s (register_address_frame si address)).map Call.write_byte ++
        l.map Call.write_byte ++ [Call.stop], ?_⟩
    rw [hl]
    simp
  · obtain ⟨_, hc, _⟩ := soft_i2c_read_acked si address data offset size s hr
    rw [hc, read_addressed_calls, hfW, hfR, hdum]
    by_cases hd : has_dummy_write ≠ 0
    · simp only [if_pos hd]
      simp
    · simp only [if_neg hd]
      simp

theorem ten_bit_frame_shape_witness :
    ∃ fw fr : Nat,
      (fw &&& 0xF0 = 0xF0 ∧ fw &&& 1 = SOFT_I2C_WRITE ∧ (fw >>> 1) &&& 3 = 0x2A5 >>> 8) ∧
      (fr &&& 0xF0 = 0xF0 ∧ fr &&& 1 = SOFT_I2C_READ ∧ (fr >>> 1) &&& 3 = 0x2A5 >>> 8) ∧
      (soft_i2c_read ten_bit_si 0xAC (some 0) 0 1 (bus_of [0, 0, 0, 0] [])).2.calls =
        [Call.start, Call.write_byte fr, Call.write_byte 0xA5, Call.read_byte 1,
         Call.stop] := by
  obtain ⟨fw, fr, h1, h2, _, h4⟩ := ten_bit_frame_shape (some zero_si)
    (some { sda := some 1, scl := some 2 }) 100000 0 0 0 0 0 0x2A5 16 8 none (some 3) (some 4)
    ten_bit_si 0xAC (some 0) 0 1 (bus_of [0, 0, 0, 0] []) (by decide) (by decide) (by decide)
    (by decide)
  refine ⟨fw, fr, h1, h2, ?_⟩
  rw [h4]
  rfl

/-- The count `soft_i2c_read` returns is 0 when some address byte is not
acknowledged. -/
theorem soft_i2c_read_nack (si : soft_i2c) (address : Nat) (data : Option Int)
    (offset : Int) (size : Nat) (s : Bus)
    (h : ∃ k, k < read_address_count si ∧ ¬ acked s k) :
    (soft_i2c_read si address data offset size s).1 = 0 := by
  have hlen : (write_address_bytes si address).length = write_address_count si := by
    rw [write_address_bytes_length]; rfl
  obtain ⟨k, hk, hn⟩ := h
  unfold read_address_count at hk
  simp only [soft_i2c_read, soft_i2c_read_body_eq, dummy_write_eq]
  by_cases hd : si.mode_of.has_dummy_write ≠ 0
  · rw [if_pos hd] at hk
    rw [if_pos hd]
    by_cases hall : ∀ j, j < (write_address_bytes si address).length → acked (start si s) j
    · rw [send_all_acked si _ _ hall]
      dsimp only
      have hf := send_all_nack si (device_address_frame si SOFT_I2C_READ)
        (restart si (sent si (u8s (write_address_bytes si address)) (start si s)))
        ⟨k - write_address_count si, by
          rw [device_address_frame_length]
          have : write_address_count si ≤ k := by
            by_contra hc
            exact hn ((acked_start si s k).mp (hall k (by omega)))
          omega, by
          rw [acked_restart, acked_sent, u8s_length, hlen, acked_start]
          have : write_address_count si ≤ k := by
            by_contra hc
            exact hn ((acked_start si s k).mp (hall k (by omega)))
          have e : write_address_count si + (k - write_address_count si) = k := by omega
          rw [e]
          exact hn⟩
      rcases hs : send_all si (device_address_frame si SOFT_I2C_READ)
        (restart si (sent si (u8s (write_address_bytes si address)) (start si s))) with ⟨ok, t⟩
      rw [hs] at hf
      simp only at hf
      subst hf
      rfl
    · have hex : ∃ j, j < (write_address_bytes si address).length ∧ ¬ acked (start si s) j := by
        by_contra hc
        apply hall
        intro j hj
        by_contra hj2
        exact hc ⟨j, hj, hj2⟩
      have hf := send_all_nack si (write_address_bytes si address) (start si s) hex
      rcases hs : send_all si (write_address_bytes si address) (start si s) with ⟨ok, t⟩
      rw [hs] at hf
      simp only at hf
      subst hf
      rfl
  · rw [if_neg hd] at hk
    rw [if_neg hd]
    dsimp only
    have hf := send_all_nack si (device_address_frame si SOFT_I2C_READ) (start si s)
      ⟨k, by rw [device_address_frame_length]; omega, by rw [acked_start]; exact hn⟩
    rcases hs : send_all si (device_address_frame si SOFT_I2C_READ) (start si s) with ⟨ok, t⟩
    rw [hs] at hf
    simp only at hf
    subst hf
    rfl

/-- C19 as stated fails for count 0: with a null buffer `soft_i2c_read` returns
0, which is the requested count, although the buffer is null. -/
theorem read_count_zero_null_buffer :
    ¬ ((soft_i2c_read aht30_si 0xAC none 0 0 (bus_of [0] [])).1 = 0 ↔
      ((none : Option Int) ≠ none ∧
        ∀ k, k < read_address_count aht30_si → acked (bus_of [0] []) k)) := by
  decide

/-- C19 amended. `soft_i2c_read` returns 0 or the requested count, whatever the
slave does; for a count of at least 1 it returns the count exactly when the
buffer is non-null and every address byte is acknowledged. -/
theorem read_count_all_or_nothing (si : soft_i2c) (address : Nat) (data : Option Int)
    (offset : Int) (size : Nat) (s : Bus) :
    ((soft_i2c_read si address data offset size s).1 = 0 ∨
      (soft_i2c_read si address data offset size s).1 = size) ∧
    (1 ≤ size →
      ((soft_i2c_read si address data offset size s).1 = size ↔
        data ≠ none ∧ ∀ k, k < read_address_count si → acked s k)) := by
  by_cases hall : ∀ k, k < read_address_count si → acked s k
  · obtain ⟨h1, _, _⟩ := soft_i2c_read_acked si address data offset size s hall
    rw [h1]
    cases data with
    | none =>
      simp only [if_true, ne_eq, not_true_eq_false, false_and, iff_false, true_or, true_and]
      omega
    | some d =>
      simp only [reduceCtorEq, if_false, or_true, ne_eq, not_false_eq_true, true_and]
      exact fun _ => ⟨fun _ => hall, fun _ => trivial⟩
  · have hex : ∃ k, k < read_address_count si ∧ ¬ acked s k := by
      by_contra hc
      apply hall
      intro j hj
      by_contra hj2
      exact hc ⟨j, hj, hj2⟩
    rw [soft_i2c_read_nack si address data offset size s hex]
    refine ⟨Or.inl rfl, fun hs => ⟨fun h0 => by omega, fun h => absurd h.2 hall⟩⟩

theorem read_count_all_or_nothing_witness :
    (soft_i2c_read aht30_si 0xAC (some 0) 0 7 (bus_of [0] [])).1 = 7 :=
  ((read_count_all_or_nothing aht30_si 0xAC (some 0) 0 7 (bus_of [0] [])).2 (by decide)).mpr
    ⟨by decide, by decide⟩

theorem run_append (l : Lines) (a b : List Op) : run l (a ++ b) = run (run l a) b := by
  simp [run, List.foldl_append]

theorem data_edges_append (l : Lines) (a b : List Op) :
    data_edges l (a ++ b) = data_edges l a ++ data_edges (run l a) b := by
  induction a generalizing l with
  | nil => simp [data_edges, run]
  | cons o a ih =>
    show edge_of l o ++ data_edges (drive l o) (a ++ b) =
      (edge_of l o ++ data_edges (drive l o) a) ++ data_edges (run (drive l o) a) b
    rw [ih, List.append_assoc]

theorem quiet_nil : quiet [] := by
  intro l h
  exact ⟨rfl, h⟩

theorem quiet_append (a b : List Op) (ha : quiet a) (hb : quiet b) : quiet (a ++ b) := by
  intro l h
  obtain ⟨a1, a2⟩ := ha l h
  obtain ⟨b1, b2⟩ := hb (run l a) a2
  rw [data_edges_append, run_append, a1, b1]
  exact ⟨rfl, b2⟩

theorem quiet_of_released (a : List Op) (h : quiet_released a) : quiet a := by
  intro l hl
  obtain ⟨h1, h2⟩ := h l hl
  exact ⟨h1, by rw [h2]⟩

theorem quiet_released_append (a b : List Op) (ha : quiet a) (hb : quiet_released b) :
    quiet_released (a ++ b) := by
  intro l h
  obtain ⟨a1, a2⟩ := ha l h
  obtain ⟨b1, b2⟩ := hb (run l a) a2
  rw [data_edges_append, run_append, a1, b1]
  exact ⟨rfl, b2⟩

theorem quiet_flatMap {α : Type} (f : α → List Op) (xs : List α) (h : ∀ x, quiet (f x)) :
    quiet (xs.flatMap f) := by
  induction xs with
  | nil => exact quiet_nil
  | cons x xs ih =>
    rw [List.flatMap_cons]
    exact quiet_append _ _ (h x) ih

theorem quiet_bit (b x : Nat) :
    quiet [Op.delay (x / 3), Op.sda b, Op.delay (x / 3), Op.scl 1, Op.delay (x / 3), Op.scl 0] := by
  intro l h
  simp only [data_edges, edge_of, drive, run, List.foldl, h]
  by_cases hb : b = 0 ∨ b = 1 <;> simp [hb, h]

theorem quiet_released_ack (x : Nat) :
    quiet_released [Op.sda 1, Op.delay (x / 3), Op.scl 1, Op.delay (x / 3), Op.sda 2, Op.scl 0,
      Op.delay (x / 3)] := by
  intro l h
  simp [data_edges, edge_of, drive, run, List.foldl, h]

theorem quiet_released_write_byte_ops (si : soft_i2c) (b x : Nat) :
    quiet_released (write_byte_ops si b x) := by
  unfold write_byte_ops
  exact quiet_released_append _ _ (quiet_flatMap _ _ (fun i => quiet_bit _ x))
    (quiet_released_ack x)

theorem quiet_sample (x : Nat) :
    quiet [Op.scl 1, Op.delay (x / 2), Op.sda 2, Op.scl 0, Op.delay (x / 2)] := by
  intro l h
  simp [data_edges, edge_of, drive, run, List.foldl, h]

theorem quiet_read_byte_ops (a x : Nat) : quiet (read_byte_ops a x) := by
  unfold read_byte_ops
  refine quiet_append _ _ (quiet_append _ _ ?_ (quiet_flatMap _ _ (fun _ => quiet_sample x))) ?_
  · intro l h
    simp [data_edges, edge_of, drive, run, List.foldl, h]
  · intro l h
    by_cases ha : a = 0 <;> simp [data_edges, edge_of, drive, run, List.foldl, h, ha]

theorem extends_quiet_refl (s : Bus) : extends_quiet s s :=
  ⟨rfl, [], by simp, quiet_nil⟩

theorem extends_quiet_trans (s t u : Bus) (h1 : extends_quiet s t) (h2 : extends_quiet t u) :
    extends_quiet s u := by
  obtain ⟨e1, a, ha, qa⟩ := h1
  obtain ⟨e2, b, hb, qb⟩ := h2
  exact ⟨by rw [e2, e1], a ++ b, by rw [hb, ha, List.append_assoc], quiet_append a b qa qb⟩

theorem extends_quiet_sent (si : soft_i2c) (bs : List Nat) (s : Bus) :
    extends_quiet s (sent si bs s) :=
  ⟨rfl, bs.flatMap (fun b => write_byte_ops si b si.x), rfl,
    quiet_flatMap _ _ (fun b => quiet_of_released _ (quiet_released_write_byte_ops si b si.x))⟩

theorem extends_quiet_send_all (si : soft_i2c) (bs : List Nat) (s : Bus) :
    extends_quiet s (send_all si bs s).2 := by
  induction bs generalizing s with
  | nil => exact extends_quiet_refl s
  | cons b bs ih =>
    rw [send_all, write_byte_acked_eq]
    by_cases h0 : acked s 0
    · simp only [h0, decide_True]
      exact extends_quiet_trans _ _ _ (extends_quiet_sent si [b % 256] s) (ih _)
    · simp only [h0, decide_False]
      exact extends_quiet_sent si [b % 256] s

theorem extends_quiet_write_data (si : soft_i2c) (data : Int) (k n count : Nat) (s : Bus) :
    extends_quiet s (write_data si data (byte_len si.data_size) k n count s).2 := by
  induction k generalizing n count s with
  | zero => exact extends_quiet_refl s
  | succ k ih =>
    rw [write_data, write_element_eq]
    have h1 := extends_quiet_send_all si
      (element_bytes si s.mem (data + (n : Int) * (stride (byte_len si.data_size) : Int))) s
    rcases hs : send_all si
      (element_bytes si s.mem (data + (n : Int) * (stride (byte_len si.data_size) : Int))) s
      with ⟨ok, t⟩
    rw [hs] at h1
    cases ok
    · exact h1
    · exact extends_quiet_trans _ _ _ h1 (ih (n + 1) (count + 1) t)

theorem extends_quiet_read_data (si : soft_i2c) (data : Int) (data_len size k n count : Nat)
    (s : Bus) : extends_quiet s (read_data si data data_len size k n count s).2 := by
  obtain ⟨_, hsl, _, ho, _⟩ := read_data_log si data data_len size k n count s
  exact ⟨hsl, _, ho, quiet_flatMap _ _ (fun a => quiet_read_byte_ops a si.x)⟩

theorem quiet_released_flatMap (f : Nat → List Op) (xs : List Nat) (hx : xs ≠ [])
    (h : ∀ x, quiet_released (f x)) : quiet_released (xs.flatMap f) := by
  rcases List.eq_nil_or_concat xs with h0 | ⟨ys, z, rfl⟩
  · exact absurd h0 hx
  · rw [List.concat_eq_append, List.flatMap_append]
    simp only [List.flatMap_cons, List.flatMap_nil, List.append_nil]
    exact quiet_released_append _ _ (quiet_flatMap _ _ (fun x => quiet_of_released _ (h x))) (h z)

/-- The operations of a transaction that makes no restart, started idle: one
falling edge (start), one rising edge (stop), both lines high at the end. -/
theorem edges_start_quiet_stop (seg : List Op) (h : quiet seg) :
    data_edges idle (start_ops ++ seg ++ stop_ops) = [Edge.fall, Edge.rise] ∧
    run idle (start_ops ++ seg ++ stop_ops) = idle := by
  have hs : data_edges idle start_ops = [Edge.fall] ∧ run idle start_ops = { sda := 0, scl := 0 } := by
    decide
  obtain ⟨q1, q2⟩ := h { sda := 0, scl := 0 } rfl
  have hst : ∀ l : Lines, l.scl = 0 →
      data_edges l stop_ops = [Edge.rise] ∧ run l stop_ops = idle := by
    intro l hl
    simp [data_edges, edge_of, drive, run, List.foldl, stop_ops, idle, hl]
  obtain ⟨t1, t2⟩ := hst _ q2
  simp only [data_edges_append, run_append, hs.1, hs.2, q1, t1, t2]
  exact ⟨rfl, trivial⟩

/-- The operations of a read that makes a restart after its dummy write. -/
theorem edges_start_restart_stop (w seg : List Op) (hw : quiet_released w) (h : quiet seg) :
    data_edges idle (start_ops ++ w ++ start_ops ++ seg ++ stop_ops) =
      [Edge.fall, Edge.fall, Edge.rise] ∧
    run idle (start_ops ++ w ++ start_ops ++ seg ++ stop_ops) = idle := by
  have hs : data_edges idle start_ops = [Edge.fall] ∧ run idle start_ops = { sda := 0, scl := 0 } := by
    decide
  obtain ⟨w1, w2⟩ := hw { sda := 0, scl := 0 } rfl
  have hr : data_edges { sda := 1, scl := 0 } start_ops = [Edge.fall] ∧
      run { sda := 1, scl := 0 } start_ops = { sda := 0, scl := 0 } := by
    decide
  obtain ⟨q1, q2⟩ := h { sda := 0, scl := 0 } rfl
  have hst : ∀ l : Lines, l.scl = 0 →
      data_edges l stop_ops = [Edge.rise] ∧ run l stop_ops = idle := by
    intro l hl
    simp [data_edges, edge_of, drive, run, List.foldl, stop_ops, idle, hl]
  obtain ⟨t1, t2⟩ := hst _ q2
  simp only [data_edges_append, run_append, hs.1, hs.2, w1, w2, hr.1, hr.2, q1, t1, t2]
  exact ⟨rfl, trivial⟩

theorem soft_i2c_write_body_quiet (si : soft_i2c) (address : Nat) (data : Option Int)
    (offset : Int) (size : Nat) (s : Bus) :
    extends_quiet (start si s) (soft_i2c_write_body si address data offset size s).2 := by
  rw [soft_i2c_write_body_eq]
  have h1 := extends_quiet_send_all si (write_address_bytes si address) (start si s)
  rcases hs : send_all si (write_address_bytes si address) (start si s) with ⟨ok, t⟩
  rw [hs] at h1
  cases ok
  · exact h1
  · cases data with
    | none => exact h1
    | some d => exact extends_quiet_trans _ _ _ h1 (extends_quiet_write_data si _ size 0 0 t)

theorem read_tail_quiet (si : soft_i2c) (data : Option Int) (offset : Int) (size : Nat)
    (t : Bus) :
    extends_quiet t
      (match send_all si (device_address_frame si SOFT_I2C_READ) t with
        | (false, t) => ((0 : Nat), t)
        | (true, t) =>
          match data with
          | none => (0, t)
          | some d => read_data si (d + offset * (stride (byte_len si.data_size) : Int))
              (byte_len si.data_size) size size 0 0 t).2 := by
  have h1 := extends_quiet_send_all si (device_address_frame si SOFT_I2C_READ) t
  rcases hs : send_all si (device_address_frame si SOFT_I2C_READ) t with ⟨ok, u⟩
  rw [hs] at h1
  cases ok
  · exact h1
  · cases data with
    | none => exact h1
    | some d => exact extends_quiet_trans _ _ _ h1 (extends_quiet_read_data si _ _ size size 0 0 u)

theorem write_address_bytes_ne_nil (si : soft_i2c) (address : Nat) :
    u8s (write_address_bytes si address) ≠ [] := by
  intro h
  have := congrArg List.length h
  rw [u8s_length, write_address_bytes_length] at this
  simp only [List.length_nil] at this
  split at this <;> omega

theorem edges_of_quiet_tail (si : soft_i2c) (s tf : Bus)
    (h : extends_quiet (start si s) tf) :
    data_edges idle ((tf.ops ++ stop_ops).drop s.ops.length) = [Edge.fall, Edge.rise] ∧
    run idle ((tf.ops ++ stop_ops).drop s.ops.length) = idle := by
  obtain ⟨_, seg, hseg, hq⟩ := h
  have e : tf.ops ++ stop_ops = s.ops ++ (start_ops ++ seg ++ stop_ops) := by
    rw [hseg, start_eq]
    simp
  rw [e, List.drop_left]
  exact edges_start_quiet_stop seg hq

theorem edges_of_quiet_tail_restart (si : soft_i2c) (address : Nat) (s tf : Bus)
    (h : extends_quiet
      (restart si (sent si (u8s (write_address_bytes si address)) (start si s))) tf) :
    data_edges idle ((tf.ops ++ stop_ops).drop s.ops.length) =
      [Edge.fall, Edge.fall, Edge.rise] ∧
    run idle ((tf.ops ++ stop_ops).drop s.ops.length) = idle := by
  obtain ⟨_, seg, hseg, hq⟩ := h
  have e : tf.ops ++ stop_ops = s.ops ++ (start_ops ++
      (u8s (write_address_bytes si address)).flatMap (fun b => write_byte_ops si b si.x) ++
      start_ops ++ seg ++ stop_ops) := by
    rw [hseg]
    simp [restart_eq, sent, start_eq]
  rw [e, List.drop_left]
  exact edges_start_restart_stop _ seg
    (quiet_released_flatMap _ _ (write_address_bytes_ne_nil si address)
      (fun b => quiet_released_write_byte_ops si b si.x)) hq

/-- C20. In every `soft_i2c_write` or `soft_i2c_read` begun with both lines driven
high, the driven data level changes while the clock is driven high only by
falling at the start (and at the restart, which a read makes exactly when the
dummy write is enabled and acknowledged) and by rising once, last, at the stop;
the transaction leaves both lines driven high. -/
theorem data_stable_while_clock_high (si : soft_i2c) (address : Nat) (data : Option Int)
    (offset : Int) (size : Nat) (s : Bus) :
    (data_edges idle ((soft_i2c_write si address data offset size s).2.ops.drop s.ops.length) =
        [Edge.fall, Edge.rise] ∧
      run idle ((soft_i2c_write si address data offset size s).2.ops.drop s.ops.length) =
        idle) ∧
    (data_edges idle ((soft_i2c_read si address data offset size s).2.ops.drop s.ops.length) =
        (if si.mode_of.has_dummy_write ≠ 0 ∧ ∀ j, j < write_address_count si → acked s j then
          [Edge.fall, Edge.fall, Edge.rise]
        else [Edge.fall, Edge.rise]) ∧
      run idle ((soft_i2c_read si address data offset size s).2.ops.drop s.ops.length) =
        idle) := by
  have hlen : (write_address_bytes si address).length = write_address_count si := by
    rw [write_address_bytes_length]; rfl
  constructor
  · rw [soft_i2c_write_ops]
    exact edges_of_quiet_tail si s _ (soft_i2c_write_body_quiet si address data offset size s)
  · rw [soft_i2c_read_ops, soft_i2c_read_body_eq, dummy_write_eq]
    by_cases hd : si.mode_of.has_dummy_write ≠ 0
    · rw [if_pos hd]
      by_cases hall : ∀ j, j < write_address_count si → acked s j
      · rw [if_pos ⟨hd, hall⟩]
        have h1 : ∀ k, k < (write_address_bytes si address).length → acked (start si s) k := by
          intro k hk; rw [acked_start]; exact hall k (by omega)
        rw [send_all_acked si _ _ h1]
        exact edges_of_quiet_tail_restart si address s _ (read_tail_quiet si data offset size
          (restart si (sent si (u8s (write_address_bytes si address)) (start si s))))
      · rw [if_neg (fun h => hall h.2)]
        have hex : ∃ j, j < (write_address_bytes si address).length ∧ ¬ acked (start si s) j := by
          by_contra hc
          apply hall
          intro j hj
          by_contra hj2
          exact hc ⟨j, by omega, by rw [acked_start]; exact hj2⟩
        have hf := send_all_nack si (write_address_bytes si address) (start si s) hex
        have h1 := extends_quiet_send_all si (write_address_bytes si address) (start si s)
        rcases hs : send_all si (write_address_bytes si address) (start si s) with ⟨ok, t⟩
        rw [hs] at hf h1
        simp only at hf
        subst hf
        exact edges_of_quiet_tail si s t h1
    · rw [if_neg hd, if_neg (fun h => hd h.1)]
      exact edges_of_quiet_tail si s _ (read_tail_quiet si data offset size (start si s))

theorem read_index_injective (si : soft_i2c) (data_len i j : Nat)
    (h : read_index si data_len i = read_index si data_len j) : i = j := by
  unfold read_index at h
  split_ifs at h <;> omega

theorem write_index_injective (si : soft_i2c) (data_len i j : Nat)
    (h : write_index si data_len i = write_index si data_len j) : i = j := by
  unfold write_index at h
  split_ifs at h <;> omega

theorem read_index_bounds (si : soft_i2c) (data_len i : Nat)
    (hL : 1 ≤ data_len ∧ data_len ≤ 4) (hi : i < data_len) :
    0 ≤ read_index si data_len i ∧ read_index si data_len i < (stride data_len : Int) := by
  unfold read_index stride
  split_ifs <;> omega

theorem write_index_bounds (si : soft_i2c) (data_len i : Nat)
    (hL : 1 ≤ data_len ∧ data_len ≤ 4) (hi : i < data_len) :
    0 ≤ write_index si data_len i ∧ write_index si data_len i < (stride data_len : Int) := by
  unfold write_index stride
  split_ifs <;> omega

theorem received_byte_shift (si : soft_i2c) (s t : Bus) (c j : Nat)
    (hn : t.nread = s.nread + 8 * c) (hs : t.slave = s.slave) :
    received_byte si t j = received_byte si s (c + j) := by
  unfold received_byte
  rw [hn, hs]
  congr 1
  funext b
  congr 2
  omega

/-- The memory after the inner data loop of `soft_i2c_read`. -/
theorem read_element_mem (si : soft_i2c) (p : Int) (data_len n size k i0 : Nat) (s : Bus) :
    (∀ j, j < k → (read_element si p data_len n size k i0 s).mem
        (p + read_index si data_len (i0 + j)) = received_byte si s j) ∧
    (∀ a : Int, (∀ j, j < k → a ≠ p + read_index si data_len (i0 + j)) →
      (read_element si p data_len n size k i0 s).mem a = s.mem a) := by
  induction k generalizing i0 s with
  | zero => exact ⟨fun j hj => absurd hj (by omega), fun a _ => rfl⟩
  | succ k ih =>
    rw [read_element]
    obtain ⟨ih1, ih2⟩ := ih (i0 + 1) (read_data_byte si p data_len n size i0 s)
    have hs1 : (read_data_byte si p data_len n size i0 s).nread = s.nread + 8 * 1 ∧
        (read_data_byte si p data_len n size i0 s).slave = s.slave := by
      rw [read_data_byte_eq]; exact ⟨rfl, rfl⟩
    have hm1 : (read_data_byte si p data_len n size i0 s).mem =
        Function.update s.mem (p + read_index si data_len i0) (received_byte si s 0) := by
      rw [read_data_byte_eq]; rfl
    constructor
    · intro j hj
      cases j with
      | zero =>
        show (read_element si p data_len n size k (i0 + 1)
          (read_data_byte si p data_len n size i0 s)).mem (p + read_index si data_len i0) = _
        rw [ih2, hm1, Function.update_same]
        intro j' _ hc
        have := read_index_injective si data_len _ _ (add_left_cancel hc)
        omega
      | succ j =>
        have e : i0 + (j + 1) = i0 + 1 + j := by omega
        rw [e, ih1 j (by omega), received_byte_shift si s _ 1 j hs1.1 hs1.2]
        congr 1
        omega
    · intro a ha
      rw [ih2, hm1, Function.update_noteq]
      · simpa using ha 0 (by omega)
      · intro j hj
        have e : i0 + 1 + j = i0 + (j + 1) := by omega
        rw [e]
        exact ha (j + 1) (by omega)

theorem slot_disjoint (data S x y : Int) (n e : Nat) (hx : x < S) (hy : 0 ≤ y) (hS : 0 ≤ S) :
    data + (n : Int) * S + x ≠ data + ((n + 1 + e : Nat) : Int) * S + y := by
  intro h
  push_cast at h
  have h2 : 0 ≤ (e : Int) * S := mul_nonneg (Int.ofNat_nonneg e) hS
  nlinarith

theorem read_element_bus (si : soft_i2c) (p : Int) (data_len n size : Nat) (s : Bus) :
    (read_element si p data_len n size data_len 0 s).nread = s.nread + 8 * data_len ∧
    (read_element si p data_len n size data_len 0 s).slave = s.slave := by
  obtain ⟨h1, h2, _, _⟩ := read_element_log si p data_len n size data_len 0 s
  rw [h2, h1]
  simp

/-- The memory after the data loop of `soft_i2c_read`, for elements of 1 to 4
bytes: byte `i` of element `n + e` is stored at `read_index` in the slot of that
element, and nothing else changes. -/
theorem read_data_mem (si : soft_i2c) (data : Int) (data_len size k n count : Nat) (s : Bus)
    (hL : 1 ≤ data_len ∧ data_len ≤ 4) :
    (∀ e i, e < k → i < data_len →
      (read_data si data data_len size k n count s).2.mem
        (data + ((n + e : Nat) : Int) * (stride data_len : Int) + read_index si data_len i) =
      received_byte si s (e * data_len + i)) ∧
    (∀ a : Int, (∀ e i, e < k → i < data_len →
        a ≠ data + ((n + e : Nat) : Int) * (stride data_len : Int) + read_index si data_len i) →
      (read_data si data data_len size k n count s).2.mem a = s.mem a) := by
  have hS : (0 : Int) ≤ (stride data_len : Int) := Int.ofNat_nonneg _
  induction k generalizing n count s with
  | zero => exact ⟨fun e i he => absurd he (by omega), fun a _ => rfl⟩
  | succ k ih =>
    rw [read_data]
    obtain ⟨ih1, ih2⟩ := ih (n + 1) (count + 1)
      (read_element si (data + (n : Int) * (stride data_len : Int)) data_len n size data_len 0 s)
    obtain ⟨e1, e2⟩ := read_element_mem si (data + (n : Int) * (stride data_len : Int))
      data_len n size data_len 0 s
    obtain ⟨b1, b2⟩ := read_element_bus si (data + (n : Int) * (stride data_len : Int))
      data_len n size s
    constructor
    · intro e i he hi
      cases e with
      | zero =>
        simp only [Nat.add_zero, Nat.zero_mul, Nat.zero_add]
        rw [ih2]
        · have := e1 i hi
          rw [Nat.zero_add] at this
          exact this
        · intro e' i' _ hi'
          exact slot_disjoint data _ _ _ n e' (read_index_bounds si data_len i hL hi).2
            (read_index_bounds si data_len i' hL hi').1 hS
      | succ e =>
        have hpos : ((n + (e + 1) : Nat) : Int) = ((n + 1 + e : Nat) : Int) := by
          congr 1; omega
        rw [hpos, ih1 e i (by omega) hi, received_byte_shift si s _ data_len _ b1 b2]
        congr 1
        rw [Nat.succ_mul]
        omega
    · intro a ha
      rw [ih2, e2]
      · intro j hj
        have := ha 0 j (by omega) hj
        simp only [Nat.add_zero] at this
        rw [Nat.zero_add]
        exact this
      · intro e i he hi
        have := ha (e + 1) i (by omega) hi
        have hpos : ((n + (e + 1) : Nat) : Int) = ((n + 1 + e : Nat) : Int) := by
          congr 1; omega
        rw [hpos] at this
        exact this

theorem read_addressed_mem (si : soft_i2c) (address : Nat) (s : Bus) :
    (read_addressed si address s).mem = s.mem := by
  unfold read_addressed
  split <;> simp [sent, start_eq, restart_eq]

/-- The memory after `soft_i2c_read` with a non-null buffer, address bytes
acknowledged, for elements of 1 to 4 bytes. -/
theorem soft_i2c_read_mem (si : soft_i2c) (address : Nat) (data : Int) (offset : Int)
    (size : Nat) (s : Bus)
    (hL : 1 ≤ byte_len si.data_size ∧ byte_len si.data_size ≤ 4)
    (hack : ∀ k, k < read_address_count si → acked s k) :
    (∀ n i, n < size → i < byte_len si.data_size →
      (soft_i2c_read si address (some data) offset size s).2.mem
        (data + offset * (stride (byte_len si.data_size) : Int) +
          (n : Int) * (stride (byte_len si.data_size) : Int) +
          read_index si (byte_len si.data_size) i) =
      received_byte si (read_addressed si address s) (n * byte_len si.data_size + i)) ∧
    (∀ a : Int, (∀ n i, n < size → i < byte_len si.data_size →
        a ≠ data + offset * (stride (byte_len si.data_size) : Int) +
          (n : Int) * (stride (byte_len si.data_size) : Int) +
          read_index si (byte_len si.data_size) i) →
      (soft_i2c_read si address (some data) offset size s).2.mem a = s.mem a) := by
  obtain ⟨h1, h2⟩ := read_data_mem si (data + offset * (stride (byte_len si.data_size) : Int))
    (byte_len si.data_size) size size 0 0 (read_addressed si address s) hL
  simp only [soft_i2c_read, soft_i2c_read_body_acked si address (some data) offset size s hack,
    stop_eq]
  constructor
  · intro n i hn hi
    have := h1 n i hn hi
    rw [Nat.zero_add] at this
    exact this
  · intro a ha
    rw [h2 a, read_addressed_mem]
    intro n i hn hi
    have := ha n i hn hi
    rw [Nat.zero_add]
    exact this

theorem element_bytes_value (si : soft_i2c) (mem : Int → Nat) (p : Int)
    (hL : 1 ≤ byte_len si.data_size ∧ byte_len si.data_size ≤ 4) :
    u8s (element_bytes si mem p) =
      spec_wire_bytes (byte_len si.data_size) si.mode_of.sd_endian (slot_value si mem p) := by
  unfold element_bytes spec_wire_bytes slot_value u8s write_index
  generalize byte_len si.data_size = L at hL ⊢
  obtain ⟨h1, h4⟩ := hL
  have hb0 := Nat.mod_lt (mem p) (show 0 < 256 by decide)
  have hb1 := Nat.mod_lt (mem (p + 1)) (show 0 < 256 by decide)
  have hb2 := Nat.mod_lt (mem (p + 2)) (show 0 < 256 by decide)
  have hb3 := Nat.mod_lt (mem (p + 3)) (show 0 < 256 by decide)
  interval_cases L <;>
    by_cases hm : si.mode_of.m_endian = SOFT_I2C_LITTLE_ENDIAN <;>
    by_cases hs : si.mode_of.sd_endian = SOFT_I2C_LITTLE_ENDIAN <;>
    simp [hm, hs, stride, List.range_succ, List.range'] <;>
    omega

theorem byte_len_legal (size : Nat) (h : 1 ≤ size ∧ size ≤ 32) :
    1 ≤ byte_len size ∧ byte_len size ≤ 4 := by
  rw [byte_len_eq size (by omega)]
  omega

theorem slot_address (data offset S : Int) (n : Nat) :
    data + offset * S + (n : Int) * S = data + (offset + (n : Int)) * S := by
  ring

theorem u8s_flatMap (xs : List Nat) (f : Nat → List Nat) :
    u8s (xs.flatMap f) = xs.flatMap (fun x => u8s (f x)) := by
  induction xs with
  | nil => rfl
  | cons x xs ih => simp only [List.flatMap_cons, u8s_append, ih]

/-- The data bytes of `soft_i2c_write` as the bytes at `write_index` in the slot
of each element. -/
theorem write_data_bytes_positions (si : soft_i2c) (mem : Int → Nat) (data offset : Int)
    (size : Nat) :
    u8s (write_data_bytes si mem (data + offset * (stride (byte_len si.data_size) : Int)) 0 size) =
      (List.range size).flatMap (fun n => (List.range (byte_len si.data_size)).map (fun i =>
        mem (data + (offset + (n : Int)) * (stride (byte_len si.data_size) : Int) +
          write_index si (byte_len si.data_size) i) % 256)) := by
  unfold write_data_bytes
  rw [u8s_flatMap, ← List.range_eq_range']
  apply List.flatMap_congr
  intro n _
  unfold element_bytes u8s
  rw [List.map_map, ← List.range_eq_range', slot_address]
  rfl

/-- The data bytes of `soft_i2c_write` as the low-order bytes of the value of
each slot. -/
theorem write_data_bytes_values (si : soft_i2c) (mem : Int → Nat) (data offset : Int)
    (size : Nat) (hL : 1 ≤ byte_len si.data_size ∧ byte_len si.data_size ≤ 4) :
    u8s (write_data_bytes si mem (data + offset * (stride (byte_len si.data_size) : Int)) 0 size) =
      (List.range size).flatMap (fun n =>
        spec_wire_bytes (byte_len si.data_size) si.mode_of.sd_endian
          (slot_value si mem
            (data + (offset + (n : Int)) * (stride (byte_len si.data_size) : Int)))) := by
  unfold write_data_bytes
  rw [u8s_flatMap, ← List.range_eq_range']
  apply List.flatMap_congr
  intro n _
  rw [element_bytes_value si mem _ hL, slot_address]

theorem write_acked_calls (si : soft_i2c) (address : Nat) (data : Int)
    (offset : Int) (size : Nat) (s : Bus)
    (hack : ∀ k, k < write_address_count si + size * byte_len si.data_size → acked s k) :
    (soft_i2c_write si address (some data) offset size s).2.calls =
      s.calls ++ [Call.start] ++
        (u8s (write_address_bytes si address)).map Call.write_byte ++
        (u8s (write_data_bytes si s.mem
          (data + offset * (stride (byte_len si.data_size) : Int)) 0 size)).map
          Call.write_byte ++
        [Call.stop] := by
  rw [soft_i2c_write_acked si address data offset size s hack]
  simp [stop_eq, sent, start_eq]

/-- C17. With every byte acknowledged, the data bytes `soft_i2c_write` sends for
each element, of 1 to 4 bytes, are the low-order bytes of the unsigned integer
its slot holds in the master endianness, least-significant first when the
slave-data endianness is little and most-significant first when it is big. -/
theorem write_sends_value_bytes (si : soft_i2c) (address : Nat) (data : Int)
    (offset : Int) (size : Nat) (s : Bus)
    (hsize : 1 ≤ si.data_size ∧ si.data_size ≤ 32)
    (hack : ∀ k, k < write_address_count si + size * byte_len si.data_size → acked s k) :
    (soft_i2c_write si address (some data) offset size s).2.calls =
      s.calls ++ [Call.start] ++
        (u8s (write_address_bytes si address)).map Call.write_byte ++
        ((List.range size).flatMap (fun n =>
          spec_wire_bytes (byte_len si.data_size) si.mode_of.sd_endian
            (slot_value si s.mem
              (data + (offset + (n : Int)) * (stride (byte_len si.data_size) : Int))))).map
          Call.write_byte ++
        [Call.stop] := by
  rw [write_acked_calls si address data offset size s hack,
    write_data_bytes_values si s.mem data offset size (byte_len_legal _ hsize)]

theorem write_sends_value_bytes_witness :
    slot_value three_byte_si (bus_of [] [0x11, 0x22, 0x33, 0x44]).mem 0 = 0x44332211 ∧
    (soft_i2c_write three_byte_si 0xAC (some 0) 0 1
      (bus_of [0, 0, 0, 0, 0] [0x11, 0x22, 0x33, 0x44])).2.calls =
      [Call.start, Call.write_byte 0x70, Call.write_byte 0xAC, Call.write_byte 0x33,
       Call.write_byte 0x22, Call.write_byte 0x11, Call.stop] := by
  refine ⟨by decide, ?_⟩
  rw [write_sends_value_bytes three_byte_si 0xAC 0 0 1
    (bus_of [0, 0, 0, 0, 0] [0x11, 0x22, 0x33, 0x44]) (by decide) (by decide)]
  decide

theorem in_slots (data offset S idx : Int) (n size : Nat) (hn : n < size)
    (h0 : 0 ≤ idx) (h1 : idx < S) :
    data + offset * S ≤ data + (offset + (n : Int)) * S + idx ∧
    data + (offset + (n : Int)) * S + idx < data + (offset + (size : Int)) * S := by
  have hS : 0 ≤ S := by omega
  have a1 : 0 ≤ (n : Int) * S := mul_nonneg (Int.ofNat_nonneg n) hS
  have a2 : 0 ≤ ((size : Int) - 1 - n) * S := mul_nonneg (by omega) hS
  constructor <;> nlinarith

/-- C12 as stated fails for 3-byte elements: with offset 1 and count 1
`soft_i2c_write` does not start at byte position 3 = 1 * 3 of the buffer
`10 11 12 13 14 15 16 17` but sends the bytes at positions 4, 5, 6, and
`soft_i2c_read` stores the three received bytes at positions 4, 5, 6, leaving
position 3 as it was. -/
theorem three_byte_offset_uses_slots_of_four :
    byte_len three_byte_little_si.data_size = 3 ∧
    sent_bytes (soft_i2c_write three_byte_little_si 0xAC (some 0) 1 1
      (bus_of [0, 0, 0, 0, 0] [0x10, 0x11, 0x12, 0x13, 0x14, 0x15, 0x16, 0x17])).2.calls =
      [0x70, 0xAC, 0x14, 0x15, 0x16] ∧
    (List.range 8).map (fun k =>
      (soft_i2c_read three_byte_little_si 0xAC (some 0) 1 1
        (bus_of (presenting three_byte_little_si 1 [0xA1, 0xA2, 0xA3])
          [0x10, 0x11, 0x12, 0x13, 0x14, 0x15, 0x16, 0x17])).2.mem k) =
      [0x10, 0x11, 0x12, 0x13, 0xA1, 0xA2, 0xA3, 0x17] := by
  decide

/-- C12 amended. Elements occupy slots of 1, 2 or 4 bytes (4 for 3- and 4-byte
elements): `soft_i2c_write` sends for element `n` the bytes at `write_index` in the
slot starting at `(offset + n) * slot`, `soft_i2c_read` stores the bytes of
element `n` at `read_index` in that slot, both indices lie inside the slot, and
`soft_i2c_read` changes nothing outside the `count` slots. -/
theorem offset_addressing (si : soft_i2c) (address : Nat) (data : Int)
    (offset : Int) (size : Nat) (s : Bus)
    (hsize : 1 ≤ si.data_size ∧ si.data_size ≤ 32)
    (hackw : ∀ k, k < write_address_count si + size * byte_len si.data_size → acked s k)
    (hackr : ∀ k, k < read_address_count si → acked s k) :
    stride (byte_len si.data_size) =
      (if byte_len si.data_size ≤ 2 then byte_len si.data_size else 4) ∧
    (soft_i2c_write si address (some data) offset size s).2.calls =
      s.calls ++ [Call.start] ++
        (u8s (write_address_bytes si address)).map Call.write_byte ++
        ((List.range size).flatMap (fun n => (List.range (byte_len si.data_size)).map (fun i =>
          s.mem (data + (offset + (n : Int)) * (stride (byte_len si.data_size) : Int) +
            write_index si (byte_len si.data_size) i) % 256))).map Call.write_byte ++
        [Call.stop] ∧
    (∀ n i, n < size → i < byte_len si.data_size →
      (soft_i2c_read si address (some data) offset size s).2.mem
        (data + (offset + (n : Int)) * (stride (byte_len si.data_size) : Int) +
          read_index si (byte_len si.data_size) i) =
      received_byte si (read_addressed si address s) (n * byte_len si.data_size + i)) ∧
    (∀ i, i < byte_len si.data_size →
      (0 ≤ write_index si (byte_len si.data_size) i ∧
        write_index si (byte_len si.data_size) i < (stride (byte_len si.data_size) : Int)) ∧
      (0 ≤ read_index si (byte_len si.data_size) i ∧
        read_index si (byte_len si.data_size) i < (stride (byte_len si.data_size) : Int))) ∧
    (∀ a : Int, (a < data + offset * (stride (byte_len si.data_size) : Int) ∨
        data + (offset + (size : Int)) * (stride (byte_len si.data_size) : Int) ≤ a) →
      (soft_i2c_read si address (some data) offset size s).2.mem a = s.mem a) := by
  have hL := byte_len_legal _ hsize
  obtain ⟨r1, r2⟩ := soft_i2c_read_mem si address data offset size s hL hackr
  refine ⟨?_, ?_, ?_, ?_, ?_⟩
  · unfold stride
    split_ifs <;> omega
  · rw [write_acked_calls si address data offset size s hackw,
      write_data_bytes_positions si s.mem data offset size]
  · intro n i hn hi
    have := r1 n i hn hi
    rw [slot_address] at this
    exact this
  · intro i hi
    exact ⟨write_index_bounds si _ i hL hi, read_index_bounds si _ i hL hi⟩
  · intro a ha
    apply r2
    intro n i hn hi hc
    rw [slot_address] at hc
    obtain ⟨b0, b1⟩ := read_index_bounds si _ i hL hi
    obtain ⟨c0, c1⟩ := in_slots data offset (stride (byte_len si.data_size) : Int) _ n size hn b0 b1
    rw [← hc] at c0 c1
    omega

theorem offset_addressing_witness :
    (soft_i2c_read three_byte_little_si 0xAC (some 0) 1 1
      (bus_of [0, 0, 0, 0, 0] [0x10, 0x11, 0x12, 0x13, 0x14, 0x15, 0x16, 0x17])).2.mem 3 =
      0x13 :=
  ((offset_addressing three_byte_little_si 0xAC 0 1 1
    (bus_of [0, 0, 0, 0, 0] [0x10, 0x11, 0x12, 0x13, 0x14, 0x15, 0x16, 0x17]) (by decide)
    (by decide) (by decide)).2.2.2.2 3 (Or.inl (by decide))).trans (by decide)

theorem index_mirror (si : soft_i2c) (data_len k : Nat)
    (hL : data_len = 1 ∨ data_len = 2 ∨ data_len = 4)
    (hm : si.mode_of.m_endian = 0 ∨ si.mode_of.m_endian = 1)
    (hsd : si.mode_of.sd_endian = 0 ∨ si.mode_of.sd_endian = 1) :
    read_index si data_len k = write_index si data_len k ∧
    write_index si data_len k =
      if si.mode_of.m_endian = si.mode_of.sd_endian then (k : Int)
      else (data_len : Int) - 1 - (k : Int) := by
  constructor
  · apply read_index_eq_write_index
    omega
  · unfold write_index
    simp only [SOFT_I2C_LITTLE_ENDIAN]
    split_ifs <;> omega

/-- C18. For elements of 1, 2 or 4 bytes and endianness values 0 or 1,
`soft_i2c_read` stores the `k`-th received byte of an element at the buffer index
from which `soft_i2c_write` takes the `k`-th transmitted byte: index `k` when
master and slave-data endianness agree and `L - 1 - k` when they differ. -/
theorem read_mirrors_write (si : soft_i2c) (address : Nat) (data : Int)
    (offset : Int) (size : Nat) (s : Bus)
    (hL : byte_len si.data_size = 1 ∨ byte_len si.data_size = 2 ∨ byte_len si.data_size = 4)
    (hm : si.mode_of.m_endian = 0 ∨ si.mode_of.m_endian = 1)
    (hsd : si.mode_of.sd_endian = 0 ∨ si.mode_of.sd_endian = 1)
    (hackw : ∀ k, k < write_address_count si + size * byte_len si.data_size → acked s k)
    (hackr : ∀ k, k < read_address_count si → acked s k) :
    (∀ k, k < byte_len si.data_size →
      read_index si (byte_len si.data_size) k = write_index si (byte_len si.data_size) k ∧
      write_index si (byte_len si.data_size) k =
        if si.mode_of.m_endian = si.mode_of.sd_endian then (k : Int)
        else (byte_len si.data_size : Int) - 1 - (k : Int)) ∧
    stride (byte_len si.data_size) = byte_len si.data_size ∧
    (soft_i2c_write si address (some data) offset size s).2.calls =
      s.calls ++ [Call.start] ++
        (u8s (write_address_bytes si address)).map Call.write_byte ++
        ((List.range size).flatMap (fun n => (List.range (byte_len si.data_size)).map (fun k =>
          s.mem (data + (offset + (n : Int)) * (stride (byte_len si.data_size) : Int) +
            write_index si (byte_len si.data_size) k) % 256))).map Call.write_byte ++
        [Call.stop] ∧
    (∀ n k, n < size → k < byte_len si.data_size →
      (soft_i2c_read si address (some data) offset size s).2.mem
        (data + (offset + (n : Int)) * (stride (byte_len si.data_size) : Int) +
          write_index si (byte_len si.data_size) k) =
      received_byte si (read_addressed si address s) (n * byte_len si.data_size + k)) := by
  have hL' : 1 ≤ byte_len si.data_size ∧ byte_len si.data_size ≤ 4 := by omega
  obtain ⟨r1, _⟩ := soft_i2c_read_mem si address data offset size s hL' hackr
  refine ⟨fun k _ => index_mirror si _ k hL hm hsd, ?_, ?_, ?_⟩
  · unfold stride
    split_ifs <;> omega
  · rw [write_acked_calls si address data offset size s hackw,
      write_data_bytes_positions si s.mem data offset size]
  · intro n k hn hk
    have := r1 n k hn hk
    rw [slot_address, (index_mirror si _ k hL hm hsd).1] at this
    exact this

theorem read_mirrors_write_witness :
    (∀ k, k < 2 → read_index two_byte_si 2 k = write_index two_byte_si 2 k ∧
      write_index two_byte_si 2 k = (2 : Int) - 1 - (k : Int)) ∧
    (soft_i2c_write two_byte_si 0xAC (some 0) 0 1 (bus_of [0, 0, 0, 0] [0x11, 0x22])).2.calls =
      [Call.start, Call.write_byte 0x70, Call.write_byte 0xAC, Call.write_byte 0x22,
       Call.write_byte 0x11, Call.stop] := by
  have h := read_mirrors_write two_byte_si 0xAC 0 0 1 (bus_of [0, 0, 0, 0] [0x11, 0x22])
    (by decide) (by decide) (by decide) (by decide) (by decide)
  refine ⟨fun k hk => h.1 k hk, ?_⟩
  rw [h.2.2.1]
  decide

end SoftI2C
